import Mathlib

/-! # Monkey lexer: token model and lexer state machine

A shallow embedding of `token/token.go` and `lexer/lexer.go`.

* A Go `string` is a sequence of bytes; it is modelled as `List Nat`, a byte being a
  natural number below 256.  Byte constants are written as `Char.toNat` of the character
  of the source (`'='.toNat` is 61).
* A Go `int` cursor (`pos`, `readPos`) is an `Int`, and the functions of the lexer take the
  largest value `maxInt` of an `int` as a parameter: `2^31 - 1` or `2^63 - 1` with the
  platform (`maxInt32`, `maxInt64`).  `readPos++` is `incr maxInt`, which wraps around from
  `maxInt` to `-(maxInt + 1)` as Go's signed arithmetic does.
* An index `s[i]` or a slice `s[lo:hi]` out of range panics in Go: `index` and `slice` then
  return `none`, and so does every function in which the panic occurs.  `readChar`, `New`
  and `NextToken` return an `Option` for that reason.
* The length of a Go string is an `int`: a theorem about an arbitrary input has the
  hypothesis `input.length ≤ maxInt`.
* The three loops `for cond(l.ch) { l.readChar() }` are one bounded recursion,
  `Lexer.readWhile`, run with the bound `Lexer.loopBound`; `readWhile_loop` shows that the
  bound never cuts the loop short, from any state, so the function is the loop of the
  source.

The file has three parts: the embedding of the source, the definitions used to state and
prove the claims, and the lemmas and claims.
-/

set_option linter.unusedVariables false

/-- The bytes of an ASCII string literal of the source. -/
def str (s : String) : List Nat := s.toList.map Char.toNat

namespace token

/-- Source: `type TokenType string`. -/
abbrev TokenType := String

/-- Source: `type Token struct { Type TokenType; Literal string }`.
The field `Type` is spelled `Typ`, `Type` being reserved. -/
structure Token where
  Typ : TokenType
  Literal : List Nat
deriving DecidableEq, Repr

def ILLEGAL : TokenType := "ILLEGAL"
def EOF : TokenType := "EOF"
def IDENT : TokenType := "IDENT"
def INT : TokenType := "INT"
def ASSIGN : TokenType := "="
def PLUS : TokenType := "+"
def MINUS : TokenType := "-"
def BANG : TokenType := "!"
def STAR : TokenType := "*"
def SLASH : TokenType := "/"
def LT : TokenType := "<"
def GT : TokenType := ">"
def EQ : TokenType := "=="
def NEQ : TokenType := "!="
def COMMA : TokenType := ","
def SEMICOLON : TokenType := ";"
def LPAREN : TokenType := "("
def RPAREN : TokenType := ")"
def LBRACE : TokenType := "\x7b"
def RBRACE : TokenType := "\x7d"
def FUNCTION : TokenType := "FUNCTION"
def LET : TokenType := "LET"
def TRUE : TokenType := "TRUE"
def FALSE : TokenType := "FALSE"
def IF : TokenType := "IF"
def ELSE : TokenType := "ELSE"
def RETURN : TokenType := "RETURN"

/-- Source: `var keywords = map[string]TokenType{...}`, as an association list. -/
def keywords : List (List Nat × TokenType) :=
  [ (str "fn", FUNCTION),
    (str "let", LET),
    (str "true", TRUE),
    (str "false", FALSE),
    (str "if", IF),
    (str "else", ELSE),
    (str "return", RETURN) ]

/-- Source: `LookupIdent`: the keyword's kind when `ident` is a key of `keywords`,
`IDENT` otherwise. -/
def LookupIdent (ident : List Nat) : TokenType :=
  match keywords.lookup ident with
  | some tok => tok
  | none => IDENT

end token
namespace lexer

open token

/-- Source: `type Lexer struct { input string; pos int; readPos int; ch byte }`.
The two `int` fields are integers: a Go `int` takes the values from `-(maxInt + 1)` to
`maxInt`, where `maxInt` is `2^31 - 1` or `2^63 - 1` with the platform. -/
structure Lexer where
  input : List Nat
  pos : Int
  readPos : Int
  ch : Nat
deriving DecidableEq, Repr

/-- Go's `x++` on an `int` whose largest value is `maxInt`: the successor, which wraps
around from `maxInt` to the least value `-(maxInt + 1)`. -/
def incr (maxInt : Nat) (x : Int) : Int :=
  if x = maxInt then -((maxInt : Int) + 1) else x + 1

/-- Go's index expression `s[i]` on a string: it panics (here `none`) unless
`0 ≤ i < len(s)`. -/
def index (s : List Nat) (i : Int) : Option Nat :=
  if 0 ≤ i then s[i.toNat]? else none

/-- Go's slice expression `s[lo:hi]` on a string: it panics (here `none`) unless
`0 ≤ lo ≤ hi ≤ len(s)`. -/
def slice (s : List Nat) (lo hi : Int) : Option (List Nat) :=
  if 0 ≤ lo ∧ lo ≤ hi ∧ hi ≤ s.length then
    some ((s.drop lo.toNat).take (hi.toNat - lo.toNat))
  else none

/-- Go's conversion `string(ch)` of a byte: the UTF-8 encoding of the code point `ch`,
one byte below 0x80 and two bytes from 0x80 to 0xFF. -/
def byteToString (ch : Nat) : List Nat :=
  if ch < 128 then [ch] else [192 + ch / 64, 128 + ch % 64]

/-- Source: `readChar`. The test `l.readPos >= len(l.input)` guards the index
`l.input[l.readPos]` from above only: a negative `readPos` passes it and the index
panics. -/
def Lexer.readChar (maxInt : Nat) (l : Lexer) : Option Lexer :=
  if l.readPos ≥ l.input.length then
    some { l with ch := 0, pos := l.readPos, readPos := incr maxInt l.readPos }
  else
    match index l.input l.readPos with
    | some b => some { l with ch := b, pos := l.readPos, readPos := incr maxInt l.readPos }
    | none => none

/-- Source: `New`. -/
def New (maxInt : Nat) (input : List Nat) : Option Lexer :=
  Lexer.readChar maxInt { input := input, pos := 0, readPos := 0, ch := 0 }

/-- Source: `peekChar`. -/
def Lexer.peekChar (l : Lexer) : Option Nat :=
  if l.readPos ≥ l.input.length then some 0 else index l.input l.readPos

/-- The loop `for cond(l.ch) { l.readChar() }` of `skipWhitespace`, `readIdentifier` and
`readNumber`, run for at most `fuel` iterations. -/
def Lexer.readWhile (maxInt : Nat) (cond : Nat → Bool) : Nat → Lexer → Option Lexer
  | 0, l => some l
  | fuel + 1, l =>
    if cond l.ch then
      match l.readChar maxInt with
      | some l1 => Lexer.readWhile maxInt cond fuel l1
      | none => none
    else some l

/-- The number of iterations after which the loop `for cond(l.ch) { l.readChar() }` has
stopped or panicked: one `readChar` per byte left, and one more that reads the end
sentinel 0. -/
def Lexer.loopBound (l : Lexer) : Nat := l.input.length - l.readPos.toNat + 1

/-- The loop condition of `skipWhitespace`. -/
def isWhitespace (ch : Nat) : Bool :=
  ch == ' '.toNat || ch == '\t'.toNat || ch == '\n'.toNat || ch == '\r'.toNat

/-- Source: `skipWhitespace`. -/
def Lexer.skipWhitespace (maxInt : Nat) (l : Lexer) : Option Lexer :=
  l.readWhile maxInt isWhitespace l.loopBound

/-- Source: `isLetter`. -/
def isLetter (ch : Nat) : Bool :=
  ('a'.toNat ≤ ch && ch ≤ 'z'.toNat) || ('A'.toNat ≤ ch && ch ≤ 'Z'.toNat) || ch == '_'.toNat

/-- Source: `isDigit`. -/
def isDigit (ch : Nat) : Bool :=
  '0'.toNat ≤ ch && ch ≤ '9'.toNat

/-- Source: `readIdentifier`: the literal read and the lexer after the loop. -/
def Lexer.readIdentifier (maxInt : Nat) (l : Lexer) : Option (List Nat × Lexer) :=
  let position := l.pos
  match l.readWhile maxInt isLetter l.loopBound with
  | some l1 => (slice l1.input position l1.pos).map (fun literal => (literal, l1))
  | none => none

/-- Source: `readNumber`: the literal read and the lexer after the loop. -/
def Lexer.readNumber (maxInt : Nat) (l : Lexer) : Option (List Nat × Lexer) :=
  let position := l.pos
  match l.readWhile maxInt isDigit l.loopBound with
  | some l1 => (slice l1.input position l1.pos).map (fun literal => (literal, l1))
  | none => none

/-- Source: `newTokenByte`. -/
def newTokenByte (tokenType : TokenType) (ch : Nat) : Token :=
  { Typ := tokenType, Literal := byteToString ch }

/-- Source: `newTokenString`. -/
def newTokenString (tokenType : TokenType) (literal : List Nat) : Token :=
  { Typ := tokenType, Literal := literal }

/-- The end of `NextToken` after the switch: `l.readChar(); return tok`. -/
def Lexer.readCharAndReturn (maxInt : Nat) (tok : Token) (l : Lexer) :
    Option (Token × Lexer) :=
  match l.readChar maxInt with
  | some l1 => some (tok, l1)
  | none => none

/-- The cases `'='` and `'!'` of the switch of `NextToken`, with the kind `two` of the
operator of two bytes and the kind `one` of the operator of one byte, followed by the end
of `NextToken`. -/
def Lexer.twoCharCase (maxInt : Nat) (two one : TokenType) (l : Lexer) :
    Option (Token × Lexer) :=
  match l.peekChar with
  | none => none
  | some next =>
    if next = '='.toNat then
      let firstCh := l.ch
      match l.readChar maxInt with
      | some l1 =>
        l1.readCharAndReturn maxInt (newTokenString two (byteToString firstCh ++ byteToString l1.ch))
      | none => none
    else
      l.readCharAndReturn maxInt (newTokenByte one l.ch)

/-- Source: `NextToken`: the token returned and the lexer after the call; `none` where a
`readChar` or a slice panics. -/
def Lexer.NextToken (maxInt : Nat) (l0 : Lexer) : Option (Token × Lexer) :=
  match l0.skipWhitespace maxInt with
  | none => none
  | some l =>
    if l.ch = '='.toNat then l.twoCharCase maxInt EQ ASSIGN
    else if l.ch = ';'.toNat then l.readCharAndReturn maxInt (newTokenByte SEMICOLON l.ch)
    else if l.ch = '('.toNat then l.readCharAndReturn maxInt (newTokenByte LPAREN l.ch)
    else if l.ch = ')'.toNat then l.readCharAndReturn maxInt (newTokenByte RPAREN l.ch)
    else if l.ch = ','.toNat then l.readCharAndReturn maxInt (newTokenByte COMMA l.ch)
    else if l.ch = '+'.toNat then l.readCharAndReturn maxInt (newTokenByte PLUS l.ch)
    else if l.ch = '-'.toNat then l.readCharAndReturn maxInt (newTokenByte MINUS l.ch)
    else if l.ch = '!'.toNat then l.twoCharCase maxInt NEQ BANG
    else if l.ch = '/'.toNat then l.readCharAndReturn maxInt (newTokenByte SLASH l.ch)
    else if l.ch = '*'.toNat then l.readCharAndReturn maxInt (newTokenByte STAR l.ch)
    else if l.ch = '<'.toNat then l.readCharAndReturn maxInt (newTokenByte LT l.ch)
    else if l.ch = '>'.toNat then l.readCharAndReturn maxInt (newTokenByte GT l.ch)
    else if l.ch = '{'.toNat then l.readCharAndReturn maxInt (newTokenByte LBRACE l.ch)
    else if l.ch = '}'.toNat then l.readCharAndReturn maxInt (newTokenByte RBRACE l.ch)
    else if l.ch = 0 then l.readCharAndReturn maxInt (newTokenString EOF [])
    else if isLetter l.ch then
      match l.readIdentifier maxInt with
      | some (literal, l1) => some (newTokenString (LookupIdent literal) literal, l1)
      | none => none
    else if isDigit l.ch then
      match l.readNumber maxInt with
      | some (literal, l1) => some (newTokenString INT literal, l1)
      | none => none
    else l.readCharAndReturn maxInt (newTokenByte ILLEGAL l.ch)

/-- The lexer after `n` calls of `NextToken` from `l`; `none` if one of them panics. -/
def stateAfter (maxInt : Nat) : Nat → Lexer → Option Lexer
  | 0, l => some l
  | n + 1, l =>
    match l.NextToken maxInt with
    | some (_, l1) => stateAfter maxInt n l1
    | none => none

/-- The lexer after `New(input)` and `n` calls of `NextToken`: the reachable states. -/
def reach (maxInt : Nat) (input : List Nat) (n : Nat) : Option Lexer :=
  match New maxInt input with
  | some l => stateAfter maxInt n l
  | none => none

/-- The token returned by call number `n + 1` of `NextToken` on `New(input)`. -/
def nthToken (maxInt : Nat) (input : List Nat) (n : Nat) : Option Token :=
  match reach maxInt input n with
  | some l => (l.NextToken maxInt).map Prod.fst
  | none => none

/-- The tokens returned by successive calls of `NextToken` from `l`, up to and including
the first `EOF` token; `none` if that takes more than `fuel` calls or a call panics. -/
def tokensFrom (maxInt : Nat) : Nat → Lexer → Option (List Token)
  | 0, _ => none
  | fuel + 1, l =>
    match l.NextToken maxInt with
    | some (tok, l1) =>
      if tok.Typ = EOF then some [tok]
      else (tokensFrom maxInt fuel l1).map (fun ts => tok :: ts)
    | none => none

/-- The token sequence of `input` up to and including the first `EOF`. -/
def tokens (maxInt : Nat) (input : List Nat) : Option (List Token) :=
  match New maxInt input with
  | some l => tokensFrom maxInt (input.length + 1) l
  | none => none

end lexer
/-! ## Definitions used to state and prove the claims -/

namespace lexer

open token

/-- The largest `int` of a platform with 32-bit integers, Go's `math.MaxInt32`. -/
def maxInt32 : Nat := 2 ^ 31 - 1

/-- The largest `int` of a platform with 64-bit integers, Go's `math.MaxInt64`. -/
def maxInt64 : Nat := 2 ^ 63 - 1

/-- The byte at index `q` of `input`, or the end sentinel 0 past the end. -/
def byteAt (input : List Nat) (q : Nat) : Nat :=
  if h : q < input.length then input[q] else 0

/-- The lexer state whose cursor rests on index `q` of `input`: the states that satisfy
invariant I1. -/
def cursor (maxInt : Nat) (input : List Nat) (q : Nat) : Lexer :=
  { input := input, pos := q, readPos := incr maxInt q, ch := byteAt input q }

/-- A number of iterations that the loop `for cond(l.ch) { l.readChar() }` does not exceed
from the state `l`. -/
def loopNeed (cond : Nat → Bool) (l : Lexer) : Nat :=
  if cond l.ch then (if l.readPos < 0 then 1 else l.input.length - l.readPos.toNat + 1) else 0

/-- The number of leading bytes of `s` that satisfy `cond`. -/
def runLen (cond : Nat → Bool) (s : List Nat) : Nat := (s.takeWhile cond).length

/-- The operators of two bytes: first byte and kind, the second byte being `=`. -/
def twoByteTokens : List (Nat × TokenType) :=
  [ ('='.toNat, EQ), ('!'.toNat, NEQ) ]

/-- The operators and delimiters of one byte: the byte and its kind. -/
def oneByteTokens : List (Nat × TokenType) :=
  [ ('='.toNat, ASSIGN), (';'.toNat, SEMICOLON), ('('.toNat, LPAREN), (')'.toNat, RPAREN),
    (','.toNat, COMMA), ('+'.toNat, PLUS), ('-'.toNat, MINUS), ('!'.toNat, BANG),
    ('/'.toNat, SLASH), ('*'.toNat, STAR), ('<'.toNat, LT), ('>'.toNat, GT),
    ('{'.toNat, LBRACE), ('}'.toNat, RBRACE) ]

/-- The dispatch of `NextToken` read off the bytes `s` that start at the cursor once
whitespace is skipped: the token, and how far the cursor moves. -/
def scanToken (s : List Nat) : Token × Nat :=
  let c := s.headD 0
  let c2 := s.tail.headD 0
  if c = '='.toNat then
    if c2 = '='.toNat then (newTokenString EQ (byteToString c ++ byteToString c2), 2)
    else (newTokenByte ASSIGN c, 1)
  else if c = ';'.toNat then (newTokenByte SEMICOLON c, 1)
  else if c = '('.toNat then (newTokenByte LPAREN c, 1)
  else if c = ')'.toNat then (newTokenByte RPAREN c, 1)
  else if c = ','.toNat then (newTokenByte COMMA c, 1)
  else if c = '+'.toNat then (newTokenByte PLUS c, 1)
  else if c = '-'.toNat then (newTokenByte MINUS c, 1)
  else if c = '!'.toNat then
    if c2 = '='.toNat then (newTokenString NEQ (byteToString c ++ byteToString c2), 2)
    else (newTokenByte BANG c, 1)
  else if c = '/'.toNat then (newTokenByte SLASH c, 1)
  else if c = '*'.toNat then (newTokenByte STAR c, 1)
  else if c = '<'.toNat then (newTokenByte LT c, 1)
  else if c = '>'.toNat then (newTokenByte GT c, 1)
  else if c = '{'.toNat then (newTokenByte LBRACE c, 1)
  else if c = '}'.toNat then (newTokenByte RBRACE c, 1)
  else if c = 0 then (newTokenString EOF [], 1)
  else if isLetter c then
    (newTokenString (LookupIdent (s.takeWhile isLetter)) (s.takeWhile isLetter),
      runLen isLetter s)
  else if isDigit c then (newTokenString INT (s.takeWhile isDigit), runLen isDigit s)
  else (newTokenByte ILLEGAL c, 1)

/-- One call of `NextToken` read off the bytes `s` from the cursor on: the token, and how
far the cursor moves, skipped whitespace included. -/
def lexStep (s : List Nat) : Token × Nat :=
  let w := runLen isWhitespace s
  ((scanToken (s.drop w)).1, w + (scanToken (s.drop w)).2)

/-- How far the cursor moves over `n` calls of `NextToken`, read off the bytes from the
cursor on. -/
def offsetAfter : Nat → List Nat → Nat
  | 0, _ => 0
  | n + 1, s => (lexStep s).2 + offsetAfter n (s.drop (lexStep s).2)

/-- Call number `n + 1` of `NextToken` on `New(input)` returns an `EOF` token. -/
def returnsEOF (maxInt : Nat) (input : List Nat) (n : Nat) : Prop :=
  (nthToken maxInt input n).map Token.Typ = some EOF

instance (maxInt : Nat) (input : List Nat) (n : Nat) :
    Decidable (returnsEOF maxInt input n) := by
  unfold returnsEOF; infer_instance

/-- Index `i` is the first index at or after `pos` whose byte is not a space, tab, newline
or carriage return, and that byte is `c`. -/
def FirstNonWs (input : List Nat) (pos : Int) (i c : Nat) : Prop :=
  pos ≤ i ∧ input[i]? = some c ∧ isWhitespace c = false
    ∧ ∀ j : Nat, pos ≤ j → j < i → (input[j]?).map isWhitespace = some true

/-- The whitespace run that `NextToken` skips from `l`: the bytes of the input from the
cursor up to the cursor that `skipWhitespace` leaves. -/
def skippedWhitespace (maxInt : Nat) (l : Lexer) : List Nat :=
  match l.skipWhitespace maxInt with
  | some l1 => (l.input.drop l.pos.toNat).take (l1.pos.toNat - l.pos.toNat)
  | none => []

/-- The concatenation, over the calls of `NextToken` from `l` up to and including the first
that returns `EOF`, of the whitespace skipped by the call followed by the literal of its
token; `none` if that takes more than `fuel` calls or a call fails. -/
def coverage (maxInt : Nat) : Nat → Lexer → Option (List Nat)
  | 0, _ => none
  | fuel + 1, l =>
    match l.NextToken maxInt with
    | some (tok, l1) =>
      if tok.Typ = EOF then some (skippedWhitespace maxInt l ++ tok.Literal)
      else (coverage maxInt fuel l1).map
        (fun rest => skippedWhitespace maxInt l ++ tok.Literal ++ rest)
    | none => none

/-- The part of `s` before its first NUL byte: all of `s` when it has none. -/
def beforeNul (s : List Nat) : List Nat := s.takeWhile (fun b => b != 0)

/-- The tokens of successive calls of `NextToken`, up to and including the first `EOF`,
read off the bytes `s` from the cursor on; `none` if that takes more than `fuel` calls. -/
def lexList : Nat → List Nat → Option (List Token)
  | 0, _ => none
  | fuel + 1, s =>
    if (lexStep s).1.Typ = EOF then some [(lexStep s).1]
    else (lexList fuel (s.drop (lexStep s).2)).map (fun ts => (lexStep s).1 :: ts)

/-- The tokens up to and including the first `EOF`, read off the bytes `s`. -/
def lexAll (s : List Nat) : Option (List Token) := lexList (s.length + 1) s

/-- The bytes that have a case of their own in the switch of `NextToken`, the end sentinel 0
apart. -/
def operatorBytes : List Nat :=
  [ '='.toNat, ';'.toNat, '('.toNat, ')'.toNat, ','.toNat, '+'.toNat, '-'.toNat, '!'.toNat,
    '/'.toNat, '*'.toNat, '<'.toNat, '>'.toNat, '{'.toNat, '}'.toNat ]

/-- A byte that no rule of the lexer recognizes: not NUL, not whitespace, not an operator or
delimiter, not an identifier byte and not a digit. -/
def unrecognized (b : Nat) : Bool :=
  b != 0 && !isWhitespace b && !operatorBytes.contains b && !isLetter b && !isDigit b

/-- The sixteen operator and delimiter kinds. -/
def operatorKinds : List TokenType :=
  [ASSIGN, PLUS, MINUS, BANG, STAR, SLASH, LT, GT, EQ, NEQ, COMMA, SEMICOLON, LPAREN, RPAREN,
    LBRACE, RBRACE]

/-- The seven keyword kinds. -/
def keywordKinds : List TokenType := [FUNCTION, LET, TRUE, FALSE, IF, ELSE, RETURN]

/-- The literal of a token is the one its kind allows: an operator or delimiter kind has
its own string as literal; a keyword kind has the spelling that the keyword table maps to
it; `IDENT` has a non-empty literal of identifier bytes that is no keyword; `INT` has a
non-empty literal of digits; `EOF` has the empty literal; and no literal holds a whitespace
byte. -/
def WellFormed (tok : Token) : Prop :=
  (tok.Typ ∈ operatorKinds → tok.Literal = str tok.Typ)
  ∧ (tok.Typ ∈ keywordKinds →
      (tok.Literal, tok.Typ) ∈ keywords ∧ LookupIdent tok.Literal = tok.Typ)
  ∧ (tok.Typ = IDENT →
      tok.Literal ≠ [] ∧ (∀ b ∈ tok.Literal, isLetter b = true)
        ∧ tok.Literal ∉ keywords.map Prod.fst)
  ∧ (tok.Typ = INT → tok.Literal ≠ [] ∧ ∀ b ∈ tok.Literal, isDigit b = true)
  ∧ (tok.Typ = EOF → tok.Literal = [])
  ∧ (∀ b ∈ tok.Literal, isWhitespace b = false)

instance (tok : Token) : Decidable (WellFormed tok) := by
  unfold WellFormed; infer_instance

end lexer

/-! ## Lemmas on lists of bytes -/

namespace lexer

open token

theorem byteAt_lt {input : List Nat} {q : Nat} (h : q < input.length) :
    byteAt input q = input[q] := by
  simp [byteAt, h]

theorem byteAt_ge {input : List Nat} {q : Nat} (h : input.length ≤ q) :
    byteAt input q = 0 := by
  have : ¬ q < input.length := by omega
  simp [byteAt, this]

theorem lt_of_cond_byteAt {cond : Nat → Bool} (h0 : cond 0 = false) {input : List Nat} {q : Nat}
    (h : cond (byteAt input q) = true) : q < input.length := by
  by_contra hq
  rw [byteAt_ge (by omega), h0] at h
  exact Bool.noConfusion h

theorem drop_eq_cons_byteAt {input : List Nat} {q : Nat} (h : q < input.length) :
    input.drop q = byteAt input q :: input.drop (q + 1) := by
  rw [byteAt_lt h]
  exact List.drop_eq_getElem_cons h

theorem runLen_cons_pos {cond : Nat → Bool} {c : Nat} (s : List Nat) (h : cond c = true) :
    runLen cond (c :: s) = runLen cond s + 1 := by
  simp [runLen, List.takeWhile_cons, h]

theorem runLen_cons_neg {cond : Nat → Bool} {c : Nat} (s : List Nat) (h : ¬ cond c = true) :
    runLen cond (c :: s) = 0 := by
  simp [runLen, List.takeWhile_cons, h]

theorem runLen_nil (cond : Nat → Bool) : runLen cond [] = 0 := rfl

theorem isWhitespace_zero : isWhitespace 0 = false := by decide

theorem isLetter_zero : isLetter 0 = false := by decide

theorem isDigit_zero : isDigit 0 = false := by decide

theorem byteAt_eq_headD (input : List Nat) (q : Nat) :
    byteAt input q = (input.drop q).headD 0 := by
  by_cases h : q < input.length
  · rw [drop_eq_cons_byteAt h]; rfl
  · rw [byteAt_ge (by omega), List.drop_eq_nil_of_le (by omega)]; rfl

theorem byteAt_succ_eq (input : List Nat) (q : Nat) :
    byteAt input (q + 1) = (input.drop q).tail.headD 0 := by
  rw [byteAt_eq_headD, List.tail_drop]

theorem runLen_le (cond : Nat → Bool) (s : List Nat) : runLen cond s ≤ s.length :=
  (List.takeWhile_prefix cond).length_le

theorem take_runLen (cond : Nat → Bool) (s : List Nat) :
    s.take (runLen cond s) = s.takeWhile cond :=
  (List.prefix_iff_eq_take.mp (List.takeWhile_prefix cond)).symm

/-- Case analysis on the dispatch of `NextToken`. -/
theorem scanToken_cases (s : List Nat) (P : Token × Nat → Prop)
    (htwo : ∀ c kind, (c, kind) ∈ twoByteTokens → s.headD 0 = c →
      s.tail.headD 0 = '='.toNat →
      P (newTokenString kind (byteToString c ++ byteToString (s.tail.headD 0)), 2))
    (hone : ∀ c kind, (c, kind) ∈ oneByteTokens → s.headD 0 = c →
      ((c, kind) ∈ [('='.toNat, ASSIGN), ('!'.toNat, BANG)] → s.tail.headD 0 ≠ '='.toNat) →
      P (newTokenByte kind c, 1))
    (heof : s.headD 0 = 0 → P (newTokenString EOF [], 1))
    (hident : isLetter (s.headD 0) = true →
      P (newTokenString (LookupIdent (s.takeWhile isLetter)) (s.takeWhile isLetter),
        runLen isLetter s))
    (hint : isDigit (s.headD 0) = true →
      P (newTokenString INT (s.takeWhile isDigit), runLen isDigit s))
    (hillegal : (∀ kind, (s.headD 0, kind) ∉ oneByteTokens) → s.headD 0 ≠ 0 →
      isLetter (s.headD 0) = false → isDigit (s.headD 0) = false →
      P (newTokenByte ILLEGAL (s.headD 0), 1)) :
    P (scanToken s) := by
  unfold scanToken
  simp only []
  by_cases h1 : s.headD 0 = '='.toNat
  · simp only [if_pos h1]
    by_cases h2 : s.tail.headD 0 = '='.toNat
    · simp only [if_pos h2]
      exact htwo _ _ (by rw [h1]; simp [twoByteTokens]) rfl h2
    · simp only [if_neg h2]
      exact hone _ _ (by rw [h1]; simp [oneByteTokens]) rfl (fun _ => h2)
  simp only [if_neg h1]
  have n0 := h1
  clear h1
  by_cases h1 : s.headD 0 = ';'.toNat
  · simp only [if_pos h1]
    refine hone _ _ (by rw [h1]; simp [oneByteTokens]) rfl (fun h => ?_)
    rw [h1] at h
    simp at h
  simp only [if_neg h1]
  have n1 := h1
  clear h1
  by_cases h1 : s.headD 0 = '('.toNat
  · simp only [if_pos h1]
    refine hone _ _ (by rw [h1]; simp [oneByteTokens]) rfl (fun h => ?_)
    rw [h1] at h
    simp at h
  simp only [if_neg h1]
  have n2 := h1
  clear h1
  by_cases h1 : s.headD 0 = ')'.toNat
  · simp only [if_pos h1]
    refine hone _ _ (by rw [h1]; simp [oneByteTokens]) rfl (fun h => ?_)
    rw [h1] at h
    simp at h
  simp only [if_neg h1]
  have n3 := h1
  clear h1
  by_cases h1 : s.headD 0 = ','.toNat
  · simp only [if_pos h1]
    refine hone _ _ (by rw [h1]; simp [oneByteTokens]) rfl (fun h => ?_)
    rw [h1] at h
    simp at h
  simp only [if_neg h1]
  have n4 := h1
  clear h1
  by_cases h1 : s.headD 0 = '+'.toNat
  · simp only [if_pos h1]
    refine hone _ _ (by rw [h1]; simp [oneByteTokens]) rfl (fun h => ?_)
    rw [h1] at h
    simp at h
  simp only [if_neg h1]
  have n5 := h1
  clear h1
  by_cases h1 : s.headD 0 = '-'.toNat
  · simp only [if_pos h1]
    refine hone _ _ (by rw [h1]; simp [oneByteTokens]) rfl (fun h => ?_)
    rw [h1] at h
    simp at h
  simp only [if_neg h1]
  have n6 := h1
  clear h1
  by_cases h1 : s.headD 0 = '!'.toNat
  · simp only [if_pos h1]
    by_cases h2 : s.tail.headD 0 = '='.toNat
    · simp only [if_pos h2]
      exact htwo _ _ (by rw [h1]; simp [twoByteTokens]) rfl h2
    · simp only [if_neg h2]
      exact hone _ _ (by rw [h1]; simp [oneByteTokens]) rfl (fun _ => h2)
  simp only [if_neg h1]
  have n7 := h1
  clear h1
  by_cases h1 : s.headD 0 = '/'.toNat
  · simp only [if_pos h1]
    refine hone _ _ (by rw [h1]; simp [oneByteTokens]) rfl (fun h => ?_)
    rw [h1] at h
    simp at h
  simp only [if_neg h1]
  have n8 := h1
  clear h1
  by_cases h1 : s.headD 0 = '*'.toNat
  · simp only [if_pos h1]
    refine hone _ _ (by rw [h1]; simp [oneByteTokens]) rfl (fun h => ?_)
    rw [h1] at h
    simp at h
  simp only [if_neg h1]
  have n9 := h1
  clear h1
  by_cases h1 : s.headD 0 = '<'.toNat
  · simp only [if_pos h1]
    refine hone _ _ (by rw [h1]; simp [oneByteTokens]) rfl (fun h => ?_)
    rw [h1] at h
    simp at h
  simp only [if_neg h1]
  have n10 := h1
  clear h1
  by_cases h1 : s.headD 0 = '>'.toNat
  · simp only [if_pos h1]
    refine hone _ _ (by rw [h1]; simp [oneByteTokens]) rfl (fun h => ?_)
    rw [h1] at h
    simp at h
  simp only [if_neg h1]
  have n11 := h1
  clear h1
  by_cases h1 : s.headD 0 = '{'.toNat
  · simp only [if_pos h1]
    refine hone _ _ (by rw [h1]; simp [oneByteTokens]) rfl (fun h => ?_)
    rw [h1] at h
    simp at h
  simp only [if_neg h1]
  have n12 := h1
  clear h1
  by_cases h1 : s.headD 0 = '}'.toNat
  · simp only [if_pos h1]
    refine hone _ _ (by rw [h1]; simp [oneByteTokens]) rfl (fun h => ?_)
    rw [h1] at h
    simp at h
  simp only [if_neg h1]
  have n13 := h1
  clear h1
  by_cases h1 : s.headD 0 = 0
  · simp only [if_pos h1]
    exact heof h1
  simp only [if_neg h1]
  by_cases hl : isLetter (s.headD 0) = true
  · simp only [if_pos hl]
    exact hident hl
  simp only [if_neg hl]
  by_cases hd : isDigit (s.headD 0) = true
  · simp only [if_pos hd]
    exact hint hd
  simp only [if_neg hd]
  refine hillegal ?_ h1 (by simpa using hl) (by simpa using hd)
  intro kind hk
  simp only [oneByteTokens, List.mem_cons, Prod.mk.injEq, List.mem_singleton] at hk
  rcases hk with ⟨h, _⟩ | ⟨h, _⟩ | ⟨h, _⟩ | ⟨h, _⟩ | ⟨h, _⟩ | ⟨h, _⟩ | ⟨h, _⟩ | ⟨h, _⟩ | ⟨h, _⟩ | ⟨h, _⟩ | ⟨h, _⟩ | ⟨h, _⟩ | ⟨h, _⟩ | ⟨h, _⟩
  all_goals contradiction

theorem LookupIdent_eq (s : List Nat) :
    LookupIdent s =
      if s = str "fn" then FUNCTION
      else if s = str "let" then LET
      else if s = str "true" then TRUE
      else if s = str "false" then FALSE
      else if s = str "if" then IF
      else if s = str "else" then ELSE
      else if s = str "return" then RETURN
      else IDENT := by
  unfold LookupIdent keywords
  simp only [List.lookup]
  by_cases h1 : s = str "fn"
  · subst h1; rfl
  by_cases h2 : s = str "let"
  · subst h2; rfl
  by_cases h3 : s = str "true"
  · subst h3; rfl
  by_cases h4 : s = str "false"
  · subst h4; rfl
  by_cases h5 : s = str "if"
  · subst h5; rfl
  by_cases h6 : s = str "else"
  · subst h6; rfl
  by_cases h7 : s = str "return"
  · subst h7; rfl
  have e1 : (s == str "fn") = false := beq_eq_false_iff_ne.mpr h1
  have e2 : (s == str "let") = false := beq_eq_false_iff_ne.mpr h2
  have e3 : (s == str "true") = false := beq_eq_false_iff_ne.mpr h3
  have e4 : (s == str "false") = false := beq_eq_false_iff_ne.mpr h4
  have e5 : (s == str "if") = false := beq_eq_false_iff_ne.mpr h5
  have e6 : (s == str "else") = false := beq_eq_false_iff_ne.mpr h6
  have e7 : (s == str "return") = false := beq_eq_false_iff_ne.mpr h7
  simp only [e1, e2, e3, e4, e5, e6, e7, if_neg h1, if_neg h2, if_neg h3, if_neg h4, if_neg h5,
    if_neg h6, if_neg h7]

theorem LookupIdent_mem (w : List Nat) :
    LookupIdent w ∈ [FUNCTION, LET, TRUE, FALSE, IF, ELSE, RETURN, IDENT] := by
  rw [LookupIdent_eq]
  split_ifs <;> simp

theorem LookupIdent_ne_EOF (w : List Nat) : LookupIdent w ≠ EOF := by
  intro h
  have := LookupIdent_mem w
  rw [h] at this
  revert this
  decide

theorem runLen_pos_of_head {cond : Nat → Bool} {s : List Nat} (h0 : cond 0 = false)
    (h : cond (s.headD 0) = true) : 1 ≤ runLen cond s := by
  cases s with
  | nil => rw [List.headD_nil, h0] at h; exact Bool.noConfusion h
  | cons c r =>
    rw [List.headD_cons] at h
    rw [runLen_cons_pos _ h]; omega

theorem scanToken_pos (s : List Nat) : 1 ≤ (scanToken s).2 := by
  refine scanToken_cases s (fun r => 1 ≤ r.2) ?_ ?_ ?_ ?_ ?_ ?_
  · intros; exact Nat.le_succ 1
  · intros; exact le_refl _
  · intros; exact le_refl _
  · exact runLen_pos_of_head isLetter_zero
  · exact runLen_pos_of_head isDigit_zero
  · intros; exact le_refl _

theorem lexStep_pos (s : List Nat) : 1 ≤ (lexStep s).2 := by
  have := scanToken_pos (s.drop (runLen isWhitespace s))
  show 1 ≤ runLen isWhitespace s + _
  omega

theorem twoByteTokens_facts :
    ∀ p ∈ twoByteTokens, 0 < p.1 ∧ p.1 < 128 ∧ p.2 ≠ EOF ∧ p.2 ≠ ILLEGAL
      ∧ isLetter p.1 = false ∧ isDigit p.1 = false ∧ isWhitespace p.1 = false := by
  decide

theorem oneByteTokens_facts :
    ∀ p ∈ oneByteTokens, 0 < p.1 ∧ p.1 < 128 ∧ p.2 ≠ EOF ∧ p.2 ≠ ILLEGAL
      ∧ isLetter p.1 = false ∧ isDigit p.1 = false ∧ isWhitespace p.1 = false := by
  decide

theorem isLetter_ne_zero {c : Nat} (h : isLetter c = true) : c ≠ 0 := by
  intro h0; rw [h0, isLetter_zero] at h; exact Bool.noConfusion h

theorem isDigit_ne_zero {c : Nat} (h : isDigit c = true) : c ≠ 0 := by
  intro h0; rw [h0, isDigit_zero] at h; exact Bool.noConfusion h

theorem isWhitespace_ne_zero {c : Nat} (h : isWhitespace c = true) : c ≠ 0 := by
  intro h0; rw [h0, isWhitespace_zero] at h; exact Bool.noConfusion h

theorem scanToken_eof_iff (s : List Nat) : (scanToken s).1.Typ = EOF ↔ s.headD 0 = 0 := by
  refine scanToken_cases s (fun r => r.1.Typ = EOF ↔ s.headD 0 = 0) ?_ ?_ ?_ ?_ ?_ ?_
  · intro c kind hm hc _
    have hf := twoByteTokens_facts _ hm
    show kind = EOF ↔ _
    constructor
    · intro h; exact absurd h hf.2.2.1
    · intro h; rw [hc] at h; have := hf.1; omega
  · intro c kind hm hc _
    have hf := oneByteTokens_facts _ hm
    show kind = EOF ↔ _
    constructor
    · intro h; exact absurd h hf.2.2.1
    · intro h; rw [hc] at h; have := hf.1; omega
  · intro h
    show EOF = EOF ↔ _
    exact ⟨fun _ => h, fun _ => rfl⟩
  · intro h
    show LookupIdent _ = EOF ↔ _
    exact ⟨fun e => absurd e (LookupIdent_ne_EOF _), fun e => absurd e (isLetter_ne_zero h)⟩
  · intro h
    show INT = EOF ↔ _
    exact ⟨fun e => absurd e (by decide), fun e => absurd e (isDigit_ne_zero h)⟩
  · intro _ h _ _
    show ILLEGAL = EOF ↔ _
    exact ⟨fun e => absurd e (by decide), fun e => absurd e h⟩

theorem offsetAfter_ge : ∀ (n : Nat) (s : List Nat), n ≤ offsetAfter n s := by
  intro n
  induction n with
  | zero => intro s; exact Nat.zero_le _
  | succ n ih =>
    intro s
    have h1 := lexStep_pos s
    have h2 := ih (s.drop (lexStep s).2)
    rw [offsetAfter]; omega

theorem offsetAfter_add : ∀ (n k : Nat) (s : List Nat),
    offsetAfter (n + k) s = offsetAfter n s + offsetAfter k (s.drop (offsetAfter n s)) := by
  intro n
  induction n with
  | zero => intro k s; simp [offsetAfter]
  | succ n ih =>
    intro k s
    rw [Nat.add_right_comm, offsetAfter, ih, offsetAfter, List.drop_drop, Nat.add_assoc]

theorem offsetAfter_mono {n m : Nat} (h : n ≤ m) (s : List Nat) :
    offsetAfter n s ≤ offsetAfter m s := by
  obtain ⟨k, rfl⟩ := Nat.exists_eq_add_of_le h
  rw [offsetAfter_add]; omega

theorem lexStep_eof_iff (s : List Nat) :
    (lexStep s).1.Typ = EOF ↔ (s.drop (runLen isWhitespace s)).headD 0 = 0 :=
  scanToken_eof_iff _

theorem headD_ne_zero_of_forall {s : List Nat} (hs : s ≠ []) (h : ∀ b ∈ s, b ≠ 0) :
    s.headD 0 ≠ 0 := by
  cases s with
  | nil => exact absurd rfl hs
  | cons c r => exact h c (List.mem_cons_self _ _)

theorem scanToken_one (s : List Nat) :
    ∀ p ∈ oneByteTokens, s.headD 0 = p.1 →
      (p.1 = '='.toNat ∨ p.1 = '!'.toNat → s.tail.headD 0 ≠ '='.toNat) →
      scanToken s = (⟨p.2, [p.1]⟩, 1) := by
  intro p hp
  simp only [oneByteTokens, List.mem_cons, List.mem_singleton] at hp
  rcases hp with rfl | rfl | rfl | rfl | rfl | rfl | rfl | rfl | rfl | rfl | rfl | rfl | rfl | rfl | h
  all_goals first
    | exact absurd h (List.not_mem_nil _)
    | (intro hc h2
       unfold scanToken
       simp only []
       generalize s.tail.headD 0 = c2 at h2 ⊢
       rw [hc]
       simp [newTokenByte, byteToString] at h2 ⊢
       try exact h2)

theorem scanToken_two (s : List Nat) :
    ∀ p ∈ twoByteTokens, s.headD 0 = p.1 → s.tail.headD 0 = '='.toNat →
      scanToken s = (⟨p.2, [p.1, '='.toNat]⟩, 2) := by
  intro p hp
  simp only [twoByteTokens, List.mem_cons, List.mem_singleton] at hp
  rcases hp with rfl | rfl | h
  all_goals first
    | exact absurd h (List.not_mem_nil _)
    | (intro hc h2
       unfold scanToken
       simp only []
       rw [hc, h2]
       simp [newTokenString, byteToString])

theorem scanToken_letter (s : List Nat) (h : isLetter (s.headD 0) = true) :
    scanToken s = (⟨LookupIdent (s.takeWhile isLetter), s.takeWhile isLetter⟩,
      runLen isLetter s) := by
  refine scanToken_cases s (fun r => r = _) ?_ ?_ ?_ ?_ ?_ ?_
  · intro c kind hm hc _
    have hf := (twoByteTokens_facts _ hm).2.2.2.2.1
    rw [hc, hf] at h; exact Bool.noConfusion h
  · intro c kind hm hc _
    have hf := (oneByteTokens_facts _ hm).2.2.2.2.1
    rw [hc, hf] at h; exact Bool.noConfusion h
  · intro h0; exact absurd h0 (isLetter_ne_zero h)
  · intro _; rfl
  · intro hd
    simp [isLetter, isDigit] at h hd
    omega
  · intro _ _ hl _
    rw [hl] at h; exact Bool.noConfusion h

theorem scanToken_digit (s : List Nat) (h : isDigit (s.headD 0) = true) :
    scanToken s = (⟨INT, s.takeWhile isDigit⟩, runLen isDigit s) := by
  refine scanToken_cases s (fun r => r = _) ?_ ?_ ?_ ?_ ?_ ?_
  · intro c kind hm hc _
    have hf := (twoByteTokens_facts _ hm).2.2.2.2.2.1
    rw [hc, hf] at h; exact Bool.noConfusion h
  · intro c kind hm hc _
    have hf := (oneByteTokens_facts _ hm).2.2.2.2.2.1
    rw [hc, hf] at h; exact Bool.noConfusion h
  · intro h0; exact absurd h0 (isDigit_ne_zero h)
  · intro hl
    simp [isLetter, isDigit] at h hl
    omega
  · intro _; rfl
  · intro _ _ _ hd
    rw [hd] at h; exact Bool.noConfusion h

theorem drop_eq_cons_of_getElem? {input : List Nat} {i c : Nat} (h : input[i]? = some c) :
    input.drop i = c :: input.drop (i + 1) := by
  obtain ⟨hlt, rfl⟩ := List.getElem?_eq_some.mp h
  exact List.drop_eq_getElem_cons hlt

theorem headD_drop (input : List Nat) (j : Nat) :
    (input.drop j).headD 0 = (input[j]?).getD 0 := by
  simp [List.headD_eq_head?_getD, List.head?_drop]

theorem not_cond_after_run (cond : Nat → Bool) :
    ∀ (s : List Nat) (b : Nat), s[runLen cond s]? = some b → cond b = false := by
  intro s
  induction s with
  | nil => intro b h; simp at h
  | cons a r ih =>
    intro b h
    by_cases ha : cond a = true
    · rw [runLen_cons_pos _ ha] at h
      exact ih b (by simpa using h)
    · rw [runLen_cons_neg _ ha] at h
      simp at h
      subst h
      simpa using ha

theorem mem_run (cond : Nat → Bool) (s : List Nat) :
    ∀ b ∈ s.takeWhile cond, cond b = true :=
  fun b hb => List.mem_takeWhile_imp hb

theorem tail_headD_of_next {input : List Nat} {i c b : Nat} (h : input[i + 1]? = some b) :
    (c :: input.drop (i + 1)).tail.headD 0 = b := by
  rw [List.tail_cons, headD_drop, h]; rfl

theorem tail_headD_ne_of_next {input : List Nat} {i c b : Nat} (hb : b ≠ 0)
    (h : input[i + 1]? ≠ some b) : (c :: input.drop (i + 1)).tail.headD 0 ≠ b := by
  rw [List.tail_cons, headD_drop]
  cases hx : input[i + 1]? with
  | none => exact fun e => hb e.symm
  | some x =>
    rw [hx] at h
    exact fun e => h (congrArg some e)

theorem cons_of_headD_ne_zero {s : List Nat} (h : s.headD 0 ≠ 0) : s = s.headD 0 :: s.tail := by
  cases s with
  | nil => exact absurd rfl h
  | cons c r => rfl

theorem byteToString_ascii {c : Nat} (h : c < 128) : byteToString c = [c] := by
  simp [byteToString, h]

/-- The source bytes of a token that is not `EOF`: the cursor moves over `n` bytes that are
there and are not NUL, and the literal is these bytes, unless the token is an `ILLEGAL` for
a byte from 0x80 on. -/
theorem scanToken_source (s : List Nat) (hne : (scanToken s).1.Typ ≠ EOF) :
    (scanToken s).2 ≤ s.length ∧ (∀ b ∈ s.take (scanToken s).2, b ≠ 0)
      ∧ (((scanToken s).1.Typ = ILLEGAL → s.headD 0 < 128) →
          (scanToken s).1.Literal = s.take (scanToken s).2)
      ∧ ((scanToken s).1.Typ = ILLEGAL → (scanToken s).2 = 1) := by
  revert hne
  refine scanToken_cases s (fun r => r.1.Typ ≠ EOF →
    (r.2 ≤ s.length ∧ (∀ b ∈ s.take r.2, b ≠ 0)
      ∧ ((r.1.Typ = ILLEGAL → s.headD 0 < 128) → r.1.Literal = s.take r.2)
      ∧ (r.1.Typ = ILLEGAL → r.2 = 1))) ?_ ?_ ?_ ?_ ?_ ?_
  · intro c kind hm hc h2 _
    have hf := twoByteTokens_facts _ hm
    have hs : s = c :: '='.toNat :: s.tail.tail := by
      have e1 := cons_of_headD_ne_zero (s := s) (by rw [hc]; have := hf.1; omega)
      have e2 := cons_of_headD_ne_zero (s := s.tail) (by rw [h2]; decide)
      rw [hc] at e1; rw [h2] at e2
      rw [← e2]; exact e1
    have hc0 : c ≠ 0 := by have := hf.1; omega
    refine ⟨?_, ?_, ?_, ?_⟩
    · rw [hs]; simp
    · rw [hs]
      intro b hb
      simp only [List.take_succ_cons, List.take_zero, List.mem_cons, List.mem_singleton,
        List.not_mem_nil, or_false] at hb
      rcases hb with rfl | rfl
      · exact hc0
      · decide
    · intro _
      show byteToString c ++ byteToString (s.tail.headD 0) = _
      rw [h2, byteToString_ascii hf.2.1, byteToString_ascii (by decide)]
      conv_rhs => rw [hs]
      rfl
    · intro h; exact absurd h hf.2.2.2.1
  · intro c kind hm hc _ _
    have hf := oneByteTokens_facts _ hm
    have hc0 : c ≠ 0 := by have := hf.1; omega
    have hs : s = c :: s.tail := by
      have e1 := cons_of_headD_ne_zero (s := s) (by rw [hc]; exact hc0)
      rw [hc] at e1; exact e1
    refine ⟨?_, ?_, ?_, ?_⟩
    · rw [hs]; simp
    · rw [hs]
      intro b hb
      simp only [List.take_succ_cons, List.take_zero, List.mem_singleton] at hb
      rw [hb]; exact hc0
    · intro _
      show byteToString c = _
      rw [byteToString_ascii hf.2.1]
      conv_rhs => rw [hs]
      rfl
    · intro _; rfl
  · intro _ h; exact absurd rfl h
  · intro hl _
    refine ⟨runLen_le _ _, ?_, ?_, ?_⟩
    · rw [take_runLen]
      exact fun b hb => isLetter_ne_zero (mem_run _ _ b hb)
    · intro _; exact (take_runLen _ _).symm
    · intro h
      have hm := LookupIdent_mem (s.takeWhile isLetter)
      change LookupIdent (s.takeWhile isLetter) = ILLEGAL at h
      rw [h] at hm
      exact absurd hm (by decide)
  · intro hd _
    refine ⟨runLen_le _ _, ?_, ?_, ?_⟩
    · rw [take_runLen]
      exact fun b hb => isDigit_ne_zero (mem_run _ _ b hb)
    · intro _; exact (take_runLen _ _).symm
    · intro h
      have h2 : INT = ILLEGAL := h
      exact absurd h2 (by decide)
  · intro _ h0 _ _ _
    have hs := cons_of_headD_ne_zero h0
    refine ⟨?_, ?_, ?_, ?_⟩
    · rw [hs]; simp
    · rw [hs]
      intro b hb
      simp only [List.take_succ_cons, List.take_zero, List.mem_singleton] at hb
      rw [hb]; exact h0
    · intro h
      show byteToString (s.headD 0) = _
      rw [byteToString_ascii (h rfl)]
      conv_rhs => rw [hs]
      rfl
    · intro _; rfl

theorem scanToken_eof_literal (s : List Nat) (h : (scanToken s).1.Typ = EOF) :
    (scanToken s).1.Literal = [] := by
  revert h
  refine scanToken_cases s (fun r => r.1.Typ = EOF → r.1.Literal = []) ?_ ?_ ?_ ?_ ?_ ?_
  · intro c kind hm _ _ h
    exact absurd h (twoByteTokens_facts _ hm).2.2.1
  · intro c kind hm _ _ h
    exact absurd h (oneByteTokens_facts _ hm).2.2.1
  · intro _ _; rfl
  · intro _ h
    exact absurd h (LookupIdent_ne_EOF _)
  · intro _ h
    have h2 : INT = EOF := h
    exact absurd h2 (by decide)
  · intro _ _ _ _ h
    have h2 : ILLEGAL = EOF := h
    exact absurd h2 (by decide)

theorem beforeNul_append {a : List Nat} (t : List Nat) (h : ∀ b ∈ a, b ≠ 0) :
    beforeNul (a ++ t) = a ++ beforeNul t := by
  unfold beforeNul
  exact List.takeWhile_append_of_pos (fun b hb => by simpa using h b hb)

theorem beforeNul_of_headD_zero {s : List Nat} (h : s.headD 0 = 0) : beforeNul s = [] := by
  cases s with
  | nil => rfl
  | cons c r =>
    rw [List.headD_cons] at h
    subst h
    rfl

theorem beforeNul_of_nonzero {s : List Nat} (h : ∀ b ∈ s, b ≠ 0) : beforeNul s = s := by
  have := beforeNul_append [] h
  rw [List.append_nil] at this
  rw [this]; exact List.append_nil s

theorem headD_lt_of_forall {s : List Nat} (h : ∀ b ∈ s, b < 128) : s.headD 0 < 128 := by
  cases s with
  | nil => decide
  | cons c r => exact h c (List.mem_cons_self _ _)

/-- One call of `NextToken` in terms of the bytes before the first NUL: the whitespace
skipped and the literal are the next bytes of the input. -/
theorem beforeNul_step (s : List Nat) (hascii : ∀ b ∈ s, b < 128) :
    ((scanToken (s.drop (runLen isWhitespace s))).1.Typ = EOF →
      beforeNul s = s.take (runLen isWhitespace s)
        ++ (scanToken (s.drop (runLen isWhitespace s))).1.Literal)
    ∧ ((scanToken (s.drop (runLen isWhitespace s))).1.Typ ≠ EOF →
      beforeNul s = s.take (runLen isWhitespace s)
        ++ (scanToken (s.drop (runLen isWhitespace s))).1.Literal
        ++ beforeNul (s.drop (runLen isWhitespace s
            + (scanToken (s.drop (runLen isWhitespace s))).2))) := by
  generalize hw : runLen isWhitespace s = w
  have hws : ∀ b ∈ s.take w, b ≠ 0 := by
    rw [← hw, take_runLen]
    exact fun b hb => isWhitespace_ne_zero (mem_run _ _ b hb)
  have hsplit : beforeNul s = s.take w ++ beforeNul (s.drop w) := by
    conv_lhs => rw [← List.take_append_drop w s]
    exact beforeNul_append _ hws
  constructor
  · intro h
    rw [hsplit, scanToken_eof_literal _ h,
      beforeNul_of_headD_zero ((scanToken_eof_iff _).mp h)]
  · intro h
    obtain ⟨_, hnz, hlit, _⟩ := scanToken_source _ h
    have hh : (s.drop w).headD 0 < 128 :=
      headD_lt_of_forall (fun b hb => hascii b (List.mem_of_mem_drop hb))
    rw [hsplit, hlit (fun _ => hh), List.append_assoc]
    congr 1
    conv_lhs => rw [← List.take_append_drop (scanToken (s.drop w)).2 (s.drop w)]
    rw [beforeNul_append _ hnz, List.drop_drop]

theorem lexStep_le (s : List Nat) (h : (lexStep s).1.Typ ≠ EOF) : (lexStep s).2 ≤ s.length := by
  have h1 := (scanToken_source (s.drop (runLen isWhitespace s)) h).1
  have h2 := runLen_le isWhitespace s
  rw [List.length_drop] at h1
  show runLen isWhitespace s + _ ≤ _
  omega

theorem lexList_total : ∀ (fuel : Nat) (s : List Nat), s.length < fuel →
    ∃ ts, lexList fuel s = some ts := by
  intro fuel
  induction fuel with
  | zero => intro s h; exact absurd h (Nat.not_lt_zero _)
  | succ n ih =>
    intro s hs
    rw [lexList]
    by_cases he : (lexStep s).1.Typ = EOF
    · rw [if_pos he]; exact ⟨_, rfl⟩
    · rw [if_neg he]
      have h1 := lexStep_le s he
      have h2 := lexStep_pos s
      obtain ⟨ts, hts⟩ := ih (s.drop (lexStep s).2) (by rw [List.length_drop]; omega)
      rw [hts]; exact ⟨_, rfl⟩

theorem lexList_succ : ∀ (fuel : Nat) (s : List Nat) (ts : List Token),
    lexList fuel s = some ts → lexList (fuel + 1) s = some ts := by
  intro fuel
  induction fuel with
  | zero => intro s ts h; exact Option.noConfusion h
  | succ n ih =>
    intro s ts h
    rw [lexList] at h ⊢
    by_cases he : (lexStep s).1.Typ = EOF
    · rw [if_pos he] at h ⊢; exact h
    · rw [if_neg he] at h ⊢
      obtain ⟨ts1, h1, h2⟩ := Option.map_eq_some'.mp h
      rw [ih _ _ h1]; exact congrArg some h2

theorem lexList_eq_lexAll (fuel : Nat) (s : List Nat) (h : s.length < fuel) :
    lexList fuel s = lexAll s := by
  obtain ⟨ts, hts⟩ := lexList_total (s.length + 1) s (Nat.lt_succ_self _)
  obtain ⟨d, rfl⟩ := Nat.exists_eq_add_of_le (Nat.succ_le_of_lt h)
  have : ∀ e, lexList (s.length + 1 + e) s = some ts := by
    intro e
    induction e with
    | zero => exact hts
    | succ e ihe => exact lexList_succ _ _ _ ihe
  rw [lexAll, hts]
  exact this d

theorem lexAll_total (s : List Nat) : ∃ ts, lexAll s = some ts :=
  lexList_total _ _ (Nat.lt_succ_self _)

/-- The equation of the token sequence: the first token, then the tokens of the rest. -/
theorem lexAll_unfold (s : List Nat) :
    lexAll s = if (lexStep s).1.Typ = EOF then some [(lexStep s).1]
      else (lexAll (s.drop (lexStep s).2)).map (fun ts => (lexStep s).1 :: ts) := by
  rw [lexAll, lexList]
  by_cases he : (lexStep s).1.Typ = EOF
  · rw [if_pos he, if_pos he]
  · rw [if_neg he, if_neg he]
    have h1 := lexStep_le s he
    have h2 := lexStep_pos s
    rw [lexList_eq_lexAll _ _ (by rw [List.length_drop]; omega)]

theorem lexAll_congr {s t : List Nat} (h1 : (lexStep s).1 = (lexStep t).1)
    (h2 : (lexStep s).1.Typ ≠ EOF → lexAll (s.drop (lexStep s).2) = lexAll (t.drop (lexStep t).2)) :
    lexAll s = lexAll t := by
  rw [lexAll_unfold s, lexAll_unfold t, ← h1]
  by_cases he : (lexStep s).1.Typ = EOF
  · rw [if_pos he, if_pos he]
  · rw [if_neg he, if_neg he, h2 he]

theorem takeWhile_append_all {cond : Nat → Bool} {w : List Nat} (v : List Nat)
    (hw : ∀ b ∈ w, cond b = true) : (w ++ v).takeWhile cond = w ++ v.takeWhile cond :=
  List.takeWhile_append_of_pos hw

theorem lexStep_skip {w : List Nat} (v : List Nat) (hw : ∀ b ∈ w, isWhitespace b = true) :
    lexStep (w ++ v) = ((lexStep v).1, w.length + (lexStep v).2) := by
  have hr : runLen isWhitespace (w ++ v) = w.length + runLen isWhitespace v := by
    unfold runLen
    rw [takeWhile_append_all v hw, List.length_append]
  have hd : (w ++ v).drop (w.length + runLen isWhitespace v)
      = v.drop (runLen isWhitespace v) := by
    rw [← List.drop_drop, List.drop_left]
  unfold lexStep
  simp only []
  rw [hr, hd, Nat.add_assoc]

/-- Whitespace in front of the bytes at the cursor does not change the tokens. -/
theorem lexAll_skip {w : List Nat} (v : List Nat) (hw : ∀ b ∈ w, isWhitespace b = true) :
    lexAll (w ++ v) = lexAll v := by
  apply lexAll_congr
  · rw [lexStep_skip v hw]
  · intro _
    rw [lexStep_skip v hw]
    show lexAll ((w ++ v).drop (w.length + (lexStep v).2)) = _
    rw [← List.drop_drop, List.drop_left]

theorem takeWhile_append_of_short (cond : Nat → Bool) :
    ∀ (u v x : List Nat), runLen cond (u ++ v) < u.length →
      (u ++ x).takeWhile cond = (u ++ v).takeWhile cond := by
  intro u
  induction u with
  | nil => intro v x h; exact absurd h (Nat.not_lt_zero _)
  | cons a r ih =>
    intro v x h
    by_cases ha : cond a = true
    · rw [List.cons_append, runLen_cons_pos _ ha, List.length_cons] at h
      rw [List.cons_append, List.cons_append, List.takeWhile_cons_of_pos ha,
        List.takeWhile_cons_of_pos ha, ih v x (by omega)]
    · rw [List.cons_append, List.cons_append, List.takeWhile_cons_of_neg ha,
        List.takeWhile_cons_of_neg ha]

theorem takeWhile_append_of_le (cond : Nat → Bool) {c0 : Nat} (hc0 : cond c0 = false) :
    ∀ (u v x : List Nat), runLen cond (u ++ v) ≤ u.length →
      (u ++ c0 :: x).takeWhile cond = (u ++ v).takeWhile cond := by
  intro u
  induction u with
  | nil =>
    intro v x h
    have h0 : ((([] : List Nat) ++ v).takeWhile cond).length = 0 := Nat.le_zero.mp h
    rw [List.length_eq_zero.mp h0, List.nil_append,
      List.takeWhile_cons_of_neg (by rw [hc0]; exact Bool.false_ne_true)]
  | cons a r ih =>
    intro v x h
    by_cases ha : cond a = true
    · rw [List.cons_append, runLen_cons_pos _ ha, List.length_cons] at h
      rw [List.cons_append, List.cons_append, List.takeWhile_cons_of_pos ha,
        List.takeWhile_cons_of_pos ha, ih v x (by omega)]
    · rw [List.cons_append, List.cons_append, List.takeWhile_cons_of_neg ha,
        List.takeWhile_cons_of_neg ha]

theorem isWhitespace_facts {c : Nat} (h : isWhitespace c = true) :
    isLetter c = false ∧ isDigit c = false ∧ c ≠ '='.toNat := by
  simp [isWhitespace] at h
  rcases h with ((rfl | rfl) | rfl) | rfl <;> decide

/-- The dispatch depends on the bytes only through the first byte, whether the second is
`=` when the first is `=` or `!`, and the run of letters or digits the first byte starts. -/
theorem scanToken_congr (s t : List Nat) (h1 : s.headD 0 = t.headD 0)
    (h2 : s.headD 0 = '='.toNat ∨ s.headD 0 = '!'.toNat →
      (s.tail.headD 0 = '='.toNat ↔ t.tail.headD 0 = '='.toNat))
    (h3 : isLetter (s.headD 0) = true → s.takeWhile isLetter = t.takeWhile isLetter)
    (h4 : isDigit (s.headD 0) = true → s.takeWhile isDigit = t.takeWhile isDigit) :
    scanToken s = scanToken t := by
  by_cases hl : isLetter (s.headD 0) = true
  · rw [scanToken_letter s hl, scanToken_letter t (h1 ▸ hl), runLen, runLen, h3 hl]
  by_cases hd : isDigit (s.headD 0) = true
  · rw [scanToken_digit s hd, scanToken_digit t (h1 ▸ hd), runLen, runLen, h4 hd]
  by_cases he : s.headD 0 = '='.toNat
  · by_cases hn : s.tail.headD 0 = '='.toNat
    · rw [scanToken_two s ('='.toNat, EQ) (by simp [twoByteTokens]) he hn,
        scanToken_two t ('='.toNat, EQ) (by simp [twoByteTokens]) (h1 ▸ he)
          ((h2 (Or.inl he)).mp hn)]
    · rw [scanToken_one s ('='.toNat, ASSIGN) (by simp [oneByteTokens]) he (fun _ => hn),
        scanToken_one t ('='.toNat, ASSIGN) (by simp [oneByteTokens]) (h1 ▸ he)
          (fun _ h => hn ((h2 (Or.inl he)).mpr h))]
  by_cases hb : s.headD 0 = '!'.toNat
  · by_cases hn : s.tail.headD 0 = '='.toNat
    · rw [scanToken_two s ('!'.toNat, NEQ) (by simp [twoByteTokens]) hb hn,
        scanToken_two t ('!'.toNat, NEQ) (by simp [twoByteTokens]) (h1 ▸ hb)
          ((h2 (Or.inr hb)).mp hn)]
    · rw [scanToken_one s ('!'.toNat, BANG) (by simp [oneByteTokens]) hb (fun _ => hn),
        scanToken_one t ('!'.toNat, BANG) (by simp [oneByteTokens]) (h1 ▸ hb)
          (fun _ h => hn ((h2 (Or.inr hb)).mpr h))]
  unfold scanToken
  simp only []
  rw [← h1]
  simp only [if_neg he, if_neg hb, if_neg hl, if_neg hd]

theorem scanToken_append_ws (y v x : List Nat) (c0 : Nat) (hy : y ≠ [])
    (hc0 : isWhitespace c0 = true) (hle : (scanToken (y ++ v)).2 ≤ y.length) :
    scanToken (y ++ c0 :: x) = scanToken (y ++ v) := by
  obtain ⟨hnl, hnd, hne⟩ := isWhitespace_facts hc0
  cases y with
  | nil => exact absurd rfl hy
  | cons a r =>
    apply scanToken_congr
    · rfl
    · intro ha
      cases r with
      | nil =>
        constructor
        · intro h; exact absurd h hne
        · intro h
          exfalso
          rcases ha with ha | ha
          · rw [scanToken_two ([a] ++ v) ('='.toNat, EQ) (by simp [twoByteTokens]) ha h] at hle
            have hle2 : 2 ≤ 1 := hle
            omega
          · rw [scanToken_two ([a] ++ v) ('!'.toNat, NEQ) (by simp [twoByteTokens]) ha h] at hle
            have hle2 : 2 ≤ 1 := hle
            omega
      | cons b r2 => exact Iff.rfl
    · intro hl
      rw [scanToken_letter (a :: r ++ v) hl] at hle
      exact takeWhile_append_of_le isLetter hnl _ _ _ hle
    · intro hd
      rw [scanToken_digit (a :: r ++ v) hd] at hle
      exact takeWhile_append_of_le isDigit hnd _ _ _ hle

theorem lexStep_append_ws (u v x : List Nat) (c0 : Nat) (hc0 : isWhitespace c0 = true)
    (hle : (lexStep (u ++ v)).2 ≤ u.length) :
    lexStep (u ++ c0 :: x) = lexStep (u ++ v) := by
  have hpos := scanToken_pos ((u ++ v).drop (runLen isWhitespace (u ++ v)))
  have hle2 : runLen isWhitespace (u ++ v)
      + (scanToken ((u ++ v).drop (runLen isWhitespace (u ++ v)))).2 ≤ u.length := hle
  have hlt : runLen isWhitespace (u ++ v) < u.length := by omega
  have hrun : runLen isWhitespace (u ++ c0 :: x) = runLen isWhitespace (u ++ v) :=
    congrArg List.length (takeWhile_append_of_short isWhitespace u v (c0 :: x) hlt)
  have hd1 : (u ++ v).drop (runLen isWhitespace (u ++ v))
      = u.drop (runLen isWhitespace (u ++ v)) ++ v :=
    List.drop_append_of_le_length (le_of_lt hlt)
  have hd2 : (u ++ c0 :: x).drop (runLen isWhitespace (u ++ v))
      = u.drop (runLen isWhitespace (u ++ v)) ++ c0 :: x :=
    List.drop_append_of_le_length (le_of_lt hlt)
  rw [hd1] at hle2
  have hy : u.drop (runLen isWhitespace (u ++ v)) ≠ [] := by
    intro h
    have := congrArg List.length h
    simp only [List.length_drop, List.length_nil] at this
    omega
  have hB := scanToken_append_ws _ v x c0 hy hc0
    (by rw [List.length_drop]; omega)
  unfold lexStep
  simp only []
  rw [hrun, hd1, hd2, hB]

/-- Whitespace inserted where a call of `NextToken` leaves the cursor does not change the
tokens. -/
theorem lexAll_insert_ws (w : List Nat) (hw : ∀ b ∈ w, isWhitespace b = true) :
    ∀ (k : Nat) (u v : List Nat), offsetAfter k (u ++ v) = u.length →
      lexAll (u ++ (w ++ v)) = lexAll (u ++ v) := by
  intro k
  induction k with
  | zero =>
    intro u v h
    have hu : u = [] := List.length_eq_zero.mp h.symm
    subst hu
    exact lexAll_skip v hw
  | succ k ih =>
    intro u v h
    cases w with
    | nil => rfl
    | cons c0 w2 =>
      rw [offsetAfter] at h
      have hle : (lexStep (u ++ v)).2 ≤ u.length := by omega
      have hstep := lexStep_append_ws u v (w2 ++ v) c0
        (hw c0 (List.mem_cons_self _ _)) hle
      apply lexAll_congr
      · rw [List.cons_append, hstep]
      · intro _
        rw [List.cons_append, hstep, List.drop_append_of_le_length hle,
          List.drop_append_of_le_length hle, ← List.cons_append]
        apply ih
        rw [List.drop_append_of_le_length hle] at h
        rw [List.length_drop]
        omega

theorem lexStep_nil : lexStep [] = (⟨EOF, []⟩, 1) := rfl

theorem headD_after_skip (t : List Nat) :
    isWhitespace ((t.drop (runLen isWhitespace t)).headD 0) = false := by
  rw [headD_drop]
  cases h : t[runLen isWhitespace t]? with
  | none => exact isWhitespace_zero
  | some b => exact not_cond_after_run isWhitespace t b h

theorem operatorBytes_eq : operatorBytes = oneByteTokens.map Prod.fst := by decide

theorem twoByteTokens_fst_mem : ∀ p ∈ twoByteTokens, p.1 ∈ operatorBytes := by decide

theorem scanToken_illegal (s : List Nat) (h0 : s.headD 0 ≠ 0)
    (hop : s.headD 0 ∉ operatorBytes) (hl : isLetter (s.headD 0) = false)
    (hd : isDigit (s.headD 0) = false) :
    scanToken s = (newTokenByte ILLEGAL (s.headD 0), 1) := by
  refine scanToken_cases s (fun r => r = (newTokenByte ILLEGAL (s.headD 0), 1))
    ?_ ?_ ?_ ?_ ?_ ?_
  · intro c kind hm hc _
    have := twoByteTokens_fst_mem _ hm
    rw [← hc] at this
    exact absurd this hop
  · intro c kind hm hc _
    have := List.mem_map_of_mem Prod.fst hm
    rw [← operatorBytes_eq, ← hc] at this
    exact absurd this hop
  · intro h; exact absurd h h0
  · intro h; rw [hl] at h; exact Bool.noConfusion h
  · intro h; rw [hd] at h; exact Bool.noConfusion h
  · intro _ _ _ _; rfl

theorem not_operator_of_ge {c : Nat} (h : 128 ≤ c) :
    c ∉ operatorBytes ∧ isLetter c = false ∧ isDigit c = false := by
  refine ⟨?_, ?_, ?_⟩
  · intro hm
    rw [operatorBytes_eq] at hm
    obtain ⟨p, hp, hpc⟩ := List.mem_map.mp hm
    have := (oneByteTokens_facts p hp).2.1
    omega
  · cases hx : isLetter c with
    | false => rfl
    | true => simp [isLetter] at hx; omega
  · cases hx : isDigit c with
    | false => rfl
    | true => simp [isDigit] at hx; omega

theorem lexList_shape : ∀ (fuel : Nat) (s : List Nat) (ts : List Token),
    lexList fuel s = some ts →
      ∃ pre last, ts = pre ++ [last] ∧ last.Typ = EOF ∧ (∀ t ∈ pre, t.Typ ≠ EOF)
        ∧ pre.length + 1 ≤ fuel := by
  intro fuel
  induction fuel with
  | zero => intro s ts h; exact Option.noConfusion h
  | succ n ih =>
    intro s ts h
    rw [lexList] at h
    by_cases he : (lexStep s).1.Typ = EOF
    · rw [if_pos he] at h
      have hts := Option.some.inj h
      exact ⟨[], (lexStep s).1, hts.symm, he, fun t ht => absurd ht (List.not_mem_nil t),
        Nat.succ_le_succ (Nat.zero_le n)⟩
    · rw [if_neg he] at h
      obtain ⟨ts1, h1, h2⟩ := Option.map_eq_some'.mp h
      obtain ⟨pre, last, hpre, hlast, hall, hlen⟩ := ih _ _ h1
      refine ⟨(lexStep s).1 :: pre, last, ?_, hlast, ?_, ?_⟩
      · rw [← h2, hpre]; rfl
      · intro t ht
        rcases List.mem_cons.mp ht with rfl | ht2
        · exact he
        · exact hall t ht2
      · rw [List.length_cons]; omega

theorem lexStep_of_not_ws (s : List Nat) (h : isWhitespace (s.headD 0) = false) :
    lexStep s = scanToken s := by
  have hr : runLen isWhitespace s = 0 := by
    cases s with
    | nil => rfl
    | cons c r =>
      rw [List.headD_cons] at h
      exact runLen_cons_neg _ (by rw [h]; exact Bool.false_ne_true)
  unfold lexStep
  simp only []
  rw [hr, List.drop_zero, Nat.zero_add]

theorem lexAll_nil : lexAll [] = some [⟨EOF, []⟩] := by decide

theorem unrecognized_facts {b : Nat} (h : unrecognized b = true) :
    b ≠ 0 ∧ isWhitespace b = false ∧ b ∉ operatorBytes ∧ isLetter b = false
      ∧ isDigit b = false := by
  simp only [unrecognized, Bool.and_eq_true, Bool.not_eq_true', bne_iff_ne, ne_eq] at h
  obtain ⟨⟨⟨⟨h1, h2⟩, h3⟩, h4⟩, h5⟩ := h
  refine ⟨h1, h2, ?_, h4, h5⟩
  intro hm
  have h6 : operatorBytes.contains b = true := by simpa using hm
  rw [h6] at h3
  exact Bool.noConfusion h3

/-- An input made of unrecognized bytes yields one `ILLEGAL` token per byte, then `EOF`. -/
theorem lexAll_unrecognized : ∀ (s : List Nat), (∀ b ∈ s, unrecognized b = true) →
    lexAll s = some (s.map (fun b => newTokenByte ILLEGAL b) ++ [⟨EOF, []⟩]) := by
  intro s
  induction s with
  | nil => intro _; exact lexAll_nil
  | cons b r ih =>
    intro h
    obtain ⟨h0, hw, hop, hl, hd⟩ := unrecognized_facts (h b (List.mem_cons_self _ _))
    have hstep : lexStep (b :: r) = (newTokenByte ILLEGAL b, 1) := by
      rw [lexStep_of_not_ws (b :: r) hw]
      exact scanToken_illegal (b :: r) h0 hop hl hd
    have hne : (newTokenByte ILLEGAL b).Typ ≠ EOF := by
      show ILLEGAL ≠ EOF
      decide
    rw [lexAll_unfold, hstep]
    simp only []
    rw [if_neg hne, List.drop_one, List.tail_cons,
      ih (fun x hx => h x (List.mem_cons_of_mem _ hx))]
    rfl

theorem map_newTokenByte_ascii : ∀ (s : List Nat), (∀ b ∈ s, b < 128) →
    s.map (fun b => newTokenByte ILLEGAL b) = s.map (fun b => (⟨ILLEGAL, [b]⟩ : Token)) := by
  intro s h
  apply List.map_congr_left
  intro b hb
  show (⟨ILLEGAL, byteToString b⟩ : Token) = _
  rw [byteToString_ascii (h b hb)]

theorem isLetter_facts {c : Nat} (h : isLetter c = true) :
    isWhitespace c = false ∧ isDigit c = false := by
  constructor
  · cases hx : isWhitespace c with
    | false => rfl
    | true =>
      have := (isWhitespace_facts hx).1
      rw [h] at this; exact Bool.noConfusion this
  · cases hx : isDigit c with
    | false => rfl
    | true => simp [isLetter, isDigit] at h hx; omega

theorem isDigit_facts {c : Nat} (h : isDigit c = true) :
    isWhitespace c = false ∧ isLetter c = false := by
  constructor
  · cases hx : isWhitespace c with
    | false => rfl
    | true =>
      have := (isWhitespace_facts hx).2.1
      rw [h] at this; exact Bool.noConfusion this
  · cases hx : isLetter c with
    | false => rfl
    | true => simp [isLetter, isDigit] at h hx; omega

theorem takeWhile_all_then_stop (cond : Nat → Bool) (s r : List Nat)
    (hs : ∀ b ∈ s, cond b = true) (hr : cond (r.headD 0) = false) (h0 : cond 0 = false) :
    (s ++ r).takeWhile cond = s := by
  rw [takeWhile_append_all r hs]
  cases r with
  | nil => simp
  | cons x r2 =>
    rw [List.headD_cons] at hr
    rw [List.takeWhile_cons_of_neg (by rw [hr]; exact Bool.false_ne_true), List.append_nil]

theorem headD_append_of_ne_nil {s : List Nat} (r : List Nat) (hs : s ≠ []) :
    (s ++ r).headD 0 = s.headD 0 := by
  cases s with
  | nil => exact absurd rfl hs
  | cons a t => rfl

theorem headD_mem {s : List Nat} (hs : s ≠ []) : s.headD 0 ∈ s := by
  cases s with
  | nil => exact absurd rfl hs
  | cons a t => exact List.mem_cons_self _ _

/-- The call of `NextToken` on a run of letters followed by bytes that do not start with a
letter. -/
theorem lexStep_letters (s r : List Nat) (hs : s ≠ []) (hsl : ∀ b ∈ s, isLetter b = true)
    (hr : isLetter (r.headD 0) = false) :
    lexStep (s ++ r) = (⟨LookupIdent s, s⟩, s.length) := by
  have hh : isLetter ((s ++ r).headD 0) = true := by
    rw [headD_append_of_ne_nil r hs]; exact hsl _ (headD_mem hs)
  rw [lexStep_of_not_ws _ (isLetter_facts hh).1, scanToken_letter _ hh, runLen,
    takeWhile_all_then_stop isLetter s r hsl hr isLetter_zero]

/-- The call of `NextToken` on a run of digits followed by bytes that do not start with a
digit. -/
theorem lexStep_digits (d r : List Nat) (hd : d ≠ []) (hdd : ∀ b ∈ d, isDigit b = true)
    (hr : isDigit (r.headD 0) = false) :
    lexStep (d ++ r) = (⟨INT, d⟩, d.length) := by
  have hh : isDigit ((d ++ r).headD 0) = true := by
    rw [headD_append_of_ne_nil r hd]; exact hdd _ (headD_mem hd)
  rw [lexStep_of_not_ws _ (isDigit_facts hh).1, scanToken_digit _ hh, runLen,
    takeWhile_all_then_stop isDigit d r hdd hr isDigit_zero]

theorem takeWhile_append_nul (cond : Nat → Bool) (h0 : cond 0 = false) (y b : List Nat) :
    (y ++ 0 :: b).takeWhile cond = y.takeWhile cond := by
  have h := takeWhile_append_of_le cond h0 y [] b
    (by rw [List.append_nil]; exact runLen_le cond y)
  rw [List.append_nil] at h
  exact h

theorem scanToken_append_nul (y b : List Nat) : scanToken (y ++ 0 :: b) = scanToken y := by
  apply scanToken_congr
  · cases y with
    | nil => rfl
    | cons c r => rfl
  · intro hh
    cases y with
    | nil =>
      exfalso
      have h2 : (0 : Nat) = '='.toNat ∨ (0 : Nat) = '!'.toNat := hh
      rcases h2 with h | h
      · exact absurd h (by decide)
      · exact absurd h (by decide)
    | cons c r =>
      cases r with
      | nil => exact Iff.rfl
      | cons c2 r2 => exact Iff.rfl
  · intro _; exact takeWhile_append_nul isLetter isLetter_zero y b
  · intro _; exact takeWhile_append_nul isDigit isDigit_zero y b

/-- A NUL byte after the bytes `a` is read by a call of `NextToken` as the end of the
input. -/
theorem lexStep_append_nul (a b : List Nat) : lexStep (a ++ 0 :: b) = lexStep a := by
  have hrun : runLen isWhitespace (a ++ 0 :: b) = runLen isWhitespace a :=
    congrArg List.length (takeWhile_append_nul isWhitespace isWhitespace_zero a b)
  have hd : (a ++ 0 :: b).drop (runLen isWhitespace a)
      = a.drop (runLen isWhitespace a) ++ 0 :: b :=
    List.drop_append_of_le_length (runLen_le isWhitespace a)
  unfold lexStep
  simp only []
  rw [hrun, hd, scanToken_append_nul]

theorem lexAll_append_nul (b : List Nat) : ∀ (m : Nat) (a : List Nat), a.length ≤ m →
    lexAll (a ++ 0 :: b) = lexAll a := by
  intro m
  induction m with
  | zero =>
    intro a h
    have ha : a = [] := List.length_eq_zero.mp (Nat.le_zero.mp h)
    subst ha
    apply lexAll_congr
    · rw [List.nil_append]; rfl
    · intro hne
      rw [List.nil_append] at hne
      exact absurd rfl hne
  | succ m ih =>
    intro a h
    apply lexAll_congr
    · rw [lexStep_append_nul]
    · intro hne
      rw [lexStep_append_nul] at hne ⊢
      have hle := lexStep_le a hne
      have hpos := lexStep_pos a
      rw [List.drop_append_of_le_length hle]
      exact ih _ (by rw [List.length_drop]; omega)

theorem wellFormed_two :
    ∀ p ∈ twoByteTokens,
      WellFormed (newTokenString p.2 (byteToString p.1 ++ byteToString '='.toNat)) := by
  decide

theorem wellFormed_one : ∀ p ∈ oneByteTokens, WellFormed (newTokenByte p.2 p.1) := by
  decide

theorem wellFormed_eof : WellFormed (newTokenString EOF []) := by decide

theorem wellFormed_keywords : ∀ p ∈ keywords, WellFormed ⟨LookupIdent p.1, p.1⟩ := by
  decide

theorem wellFormed_ident (w : List Nat) (hne : w ≠ [])
    (hall : ∀ b ∈ w, isLetter b = true) : WellFormed ⟨LookupIdent w, w⟩ := by
  by_cases hk : w ∈ keywords.map Prod.fst
  · obtain ⟨p, hp, hpw⟩ := List.mem_map.mp hk
    rw [← hpw]
    exact wellFormed_keywords p hp
  · have hid : LookupIdent w = IDENT := by
      rw [LookupIdent_eq]
      have hk2 : ¬ (w = str "fn" ∨ w = str "let" ∨ w = str "true" ∨ w = str "false"
          ∨ w = str "if" ∨ w = str "else" ∨ w = str "return") := by
        intro h
        apply hk
        simp only [keywords, List.map_cons, List.map_nil, List.mem_cons, List.mem_singleton,
          List.not_mem_nil, or_false]
        exact h
      simp only [not_or] at hk2
      obtain ⟨h1, h2, h3, h4, h5, h6, h7⟩ := hk2
      rw [if_neg h1, if_neg h2, if_neg h3, if_neg h4, if_neg h5, if_neg h6, if_neg h7]
    rw [hid]
    refine ⟨?_, ?_, ?_, ?_, ?_, ?_⟩
    · intro h
      have h2 : IDENT ∈ operatorKinds := h
      exact absurd h2 (by decide)
    · intro h
      have h2 : IDENT ∈ keywordKinds := h
      exact absurd h2 (by decide)
    · intro _; exact ⟨hne, hall, hk⟩
    · intro h
      have h2 : IDENT = INT := h
      exact absurd h2 (by decide)
    · intro h
      have h2 : IDENT = EOF := h
      exact absurd h2 (by decide)
    · intro b hb; exact (isLetter_facts (hall b hb)).1

theorem wellFormed_int (w : List Nat) (hne : w ≠ [])
    (hall : ∀ b ∈ w, isDigit b = true) : WellFormed ⟨INT, w⟩ := by
  refine ⟨?_, ?_, ?_, ?_, ?_, ?_⟩
  · intro h
    have h2 : INT ∈ operatorKinds := h
    exact absurd h2 (by decide)
  · intro h
    have h2 : INT ∈ keywordKinds := h
    exact absurd h2 (by decide)
  · intro h
    have h2 : INT = IDENT := h
    exact absurd h2 (by decide)
  · intro _; exact ⟨hne, hall⟩
  · intro h
    have h2 : INT = EOF := h
    exact absurd h2 (by decide)
  · intro b hb; exact (isDigit_facts (hall b hb)).1

theorem wellFormed_illegal (c : Nat) (hws : isWhitespace c = false) :
    WellFormed (newTokenByte ILLEGAL c) := by
  refine ⟨?_, ?_, ?_, ?_, ?_, ?_⟩
  · intro h
    have h2 : ILLEGAL ∈ operatorKinds := h
    exact absurd h2 (by decide)
  · intro h
    have h2 : ILLEGAL ∈ keywordKinds := h
    exact absurd h2 (by decide)
  · intro h
    have h2 : ILLEGAL = IDENT := h
    exact absurd h2 (by decide)
  · intro h
    have h2 : ILLEGAL = INT := h
    exact absurd h2 (by decide)
  · intro h
    have h2 : ILLEGAL = EOF := h
    exact absurd h2 (by decide)
  · intro b hb
    have hb2 : b ∈ byteToString c := hb
    unfold byteToString at hb2
    by_cases hc : c < 128
    · rw [if_pos hc, List.mem_singleton] at hb2
      rw [hb2]; exact hws
    · rw [if_neg hc] at hb2
      have hge : 128 ≤ b := by
        simp only [List.mem_cons, List.mem_singleton, List.not_mem_nil, or_false] at hb2
        rcases hb2 with h | h <;> omega
      cases hx : isWhitespace b with
      | false => rfl
      | true =>
        simp [isWhitespace] at hx
        omega

theorem takeWhile_ne_nil_of_head {cond : Nat → Bool} {s : List Nat} (h0 : cond 0 = false)
    (h : cond (s.headD 0) = true) : s.takeWhile cond ≠ [] := by
  have := runLen_pos_of_head h0 h
  intro hnil
  rw [runLen, hnil] at this
  exact absurd this (by decide)

/-- The token of every call of `NextToken` is well formed. -/
theorem scanToken_wellFormed (s : List Nat) (hws : isWhitespace (s.headD 0) = false) :
    WellFormed (scanToken s).1 := by
  refine scanToken_cases s (fun r => WellFormed r.1) ?_ ?_ ?_ ?_ ?_ ?_
  · intro c kind hm _ h2
    show WellFormed (newTokenString kind (byteToString c ++ byteToString (s.tail.headD 0)))
    rw [h2]
    exact wellFormed_two _ hm
  · intro c kind hm _ _
    exact wellFormed_one _ hm
  · intro _; exact wellFormed_eof
  · intro h
    exact wellFormed_ident _ (takeWhile_ne_nil_of_head isLetter_zero h) (mem_run _ _)
  · intro h
    exact wellFormed_int _ (takeWhile_ne_nil_of_head isDigit_zero h) (mem_run _ _)
  · intro _ _ _ _
    exact wellFormed_illegal _ hws

theorem scanToken_eof_len (s : List Nat) (h : (scanToken s).1.Typ = EOF) :
    (scanToken s).2 = 1 := by
  revert h
  refine scanToken_cases s (fun r => r.1.Typ = EOF → r.2 = 1) ?_ ?_ ?_ ?_ ?_ ?_
  · intro c kind hm _ _ h
    exact absurd h (twoByteTokens_facts _ hm).2.2.1
  · intro _ _ _ _ _ _; rfl
  · intro _ _; rfl
  · intro _ h
    exact absurd h (LookupIdent_ne_EOF _)
  · intro _ h
    have h2 : INT = EOF := h
    exact absurd h2 (by decide)
  · intro _ _ _ _ _; rfl

theorem scanToken_le (s : List Nat) (hs : s ≠ []) : (scanToken s).2 ≤ s.length := by
  by_cases he : (scanToken s).1.Typ = EOF
  · rw [scanToken_eof_len s he]
    cases s with
    | nil => exact absurd rfl hs
    | cons a r => rw [List.length_cons]; omega
  · exact (scanToken_source s he).1

theorem lexStep_le_succ (s : List Nat) : (lexStep s).2 ≤ s.length + 1 := by
  by_cases he : (lexStep s).1.Typ = EOF
  · have h1 : (scanToken (s.drop (runLen isWhitespace s))).2 = 1 := scanToken_eof_len _ he
    have h2 := runLen_le isWhitespace s
    show runLen isWhitespace s + _ ≤ _
    omega
  · have := lexStep_le s he
    omega

theorem offsetAfter_le : ∀ (n : Nat) (s : List Nat), offsetAfter n s ≤ s.length + n := by
  intro n
  induction n with
  | zero => intro s; exact Nat.zero_le _
  | succ n ih =>
    intro s
    have h1 := lexStep_le_succ s
    have h2 := ih (s.drop (lexStep s).2)
    rw [List.length_drop] at h2
    rw [offsetAfter]
    omega

theorem offsetAfter_succ (n : Nat) (s : List Nat) :
    offsetAfter (n + 1) s = offsetAfter n s + (lexStep (s.drop (offsetAfter n s))).2 := by
  rw [offsetAfter_add n 1]
  rfl

end lexer
/-! ## Lemmas on the lexer -/

namespace lexer

open token

theorem incr_of_lt {maxInt q : Nat} (h : q < maxInt) :
    incr maxInt (q : Int) = ((q + 1 : Nat) : Int) := by
  unfold incr
  have hne : ¬ ((q : Int) = (maxInt : Int)) := by omega
  rw [if_neg hne]
  omega

theorem incr_maxInt (maxInt : Nat) : incr maxInt (maxInt : Int) = -((maxInt : Int) + 1) := by
  unfold incr
  rw [if_pos rfl]

/-- On the values of an `int`, `incr` is the successor modulo `2 * (maxInt + 1)`, which is
`2^32` or `2^64`. -/
theorem incr_eq_emod (maxInt : Nat) (x : Int) (h1 : -((maxInt : Int) + 1) ≤ x)
    (h2 : x ≤ maxInt) :
    incr maxInt x
      = (x + 1 + ((maxInt : Int) + 1)) % (2 * ((maxInt : Int) + 1)) - ((maxInt : Int) + 1) := by
  unfold incr
  by_cases hx : x = maxInt
  · rw [if_pos hx, hx]
    have : (maxInt : Int) + 1 + ((maxInt : Int) + 1) = 2 * ((maxInt : Int) + 1) := by omega
    rw [this, Int.emod_self]
    omega
  · rw [if_neg hx, Int.emod_eq_of_lt (by omega) (by omega)]
    omega

theorem index_natCast (s : List Nat) (q : Nat) : index s (q : Int) = s[q]? := by
  unfold index
  rw [if_pos (by omega), Int.toNat_ofNat]

theorem index_neg (s : List Nat) {i : Int} (h : i < 0) : index s i = none := by
  unfold index
  rw [if_neg (by omega)]

theorem readChar_cursor (maxInt : Nat) (input : List Nat) (q : Nat) (h : q < maxInt) :
    (cursor maxInt input q).readChar maxInt = some (cursor maxInt input (q + 1)) := by
  unfold Lexer.readChar cursor
  simp only [incr_of_lt h]
  by_cases hge : ((q + 1 : Nat) : Int) ≥ (input.length : Int)
  · rw [if_pos hge, byteAt_ge (by omega)]
  · have hlt : q + 1 < input.length := by omega
    rw [if_neg hge, index_natCast, List.getElem?_eq_getElem hlt, byteAt_lt hlt]

theorem readChar_cursor_maxInt (maxInt : Nat) (input : List Nat)
    (hlen : input.length ≤ maxInt) :
    (cursor maxInt input maxInt).readChar maxInt = none := by
  unfold Lexer.readChar cursor
  simp only [incr_maxInt]
  rw [if_neg (by omega), index_neg _ (by omega)]

theorem New_eq_cursor (maxInt : Nat) (input : List Nat) :
    New maxInt input = some (cursor maxInt input 0) := by
  unfold New Lexer.readChar cursor
  simp only []
  by_cases hge : (0 : Int) ≥ (input.length : Int)
  · rw [if_pos hge, byteAt_ge (by omega)]
    rfl
  · have hlt : 0 < input.length := by omega
    rw [if_neg hge]
    have hi : index input 0 = some (byteAt input 0) := by
      have := index_natCast input 0
      rw [List.getElem?_eq_getElem hlt, ← byteAt_lt hlt] at this
      exact this
    rw [hi]
    rfl

theorem peekChar_cursor (maxInt : Nat) (input : List Nat) (q : Nat) (h : q < maxInt) :
    (cursor maxInt input q).peekChar = some (byteAt input (q + 1)) := by
  unfold Lexer.peekChar cursor
  simp only [incr_of_lt h]
  by_cases hge : ((q + 1 : Nat) : Int) ≥ (input.length : Int)
  · rw [if_pos hge, byteAt_ge (by omega)]
  · have hlt : q + 1 < input.length := by omega
    rw [if_neg hge, index_natCast, List.getElem?_eq_getElem hlt, byteAt_lt hlt]

theorem readCharAndReturn_cursor (maxInt : Nat) (input : List Nat) (q : Nat) (tok : Token)
    (h : q < maxInt) :
    (cursor maxInt input q).readCharAndReturn maxInt tok
      = some (tok, cursor maxInt input (q + 1)) := by
  unfold Lexer.readCharAndReturn
  rw [readChar_cursor maxInt input q h]

theorem readCharAndReturn_cursor_maxInt (maxInt : Nat) (input : List Nat) (tok : Token)
    (hlen : input.length ≤ maxInt) :
    (cursor maxInt input maxInt).readCharAndReturn maxInt tok = none := by
  unfold Lexer.readCharAndReturn
  rw [readChar_cursor_maxInt maxInt input hlen]

theorem readWhile_cursor (maxInt : Nat) (cond : Nat → Bool) (h0 : cond 0 = false)
    (input : List Nat) (hlen : input.length ≤ maxInt) :
    ∀ (fuel q : Nat), input.length - q ≤ fuel →
      Lexer.readWhile maxInt cond fuel (cursor maxInt input q)
        = some (cursor maxInt input (q + runLen cond (input.drop q))) := by
  intro fuel
  induction fuel with
  | zero =>
    intro q hq
    have : input.drop q = [] := List.drop_eq_nil_of_le (by omega)
    rw [Lexer.readWhile, this, runLen_nil]
    rfl
  | succ n ih =>
    intro q hq
    have hch : (cursor maxInt input q).ch = byteAt input q := rfl
    by_cases hc : cond (byteAt input q) = true
    · have hlt := lt_of_cond_byteAt h0 hc
      rw [Lexer.readWhile, hch, if_pos hc, readChar_cursor maxInt input q (by omega)]
      simp only []
      rw [ih (q + 1) (by omega), drop_eq_cons_byteAt hlt, runLen_cons_pos _ hc]
      congr 2
      omega
    · rw [Lexer.readWhile, hch, if_neg hc]
      by_cases hlt : q < input.length
      · rw [drop_eq_cons_byteAt hlt, runLen_cons_neg _ hc]; rfl
      · have : input.drop q = [] := List.drop_eq_nil_of_le (by omega)
        rw [this, runLen_nil]; rfl

theorem loopBound_cursor_ge (maxInt : Nat) (input : List Nat) (q : Nat) :
    input.length - q ≤ (cursor maxInt input q).loopBound := by
  unfold Lexer.loopBound cursor incr
  simp only []
  split_ifs <;> omega

theorem skipWhitespace_cursor (maxInt : Nat) (input : List Nat) (q : Nat)
    (hlen : input.length ≤ maxInt) :
    (cursor maxInt input q).skipWhitespace maxInt
      = some (cursor maxInt input (q + runLen isWhitespace (input.drop q))) := by
  unfold Lexer.skipWhitespace
  exact readWhile_cursor maxInt _ isWhitespace_zero _ hlen _ _ (loopBound_cursor_ge _ _ _)

theorem slice_run (cond : Nat → Bool) (input : List Nat) (p : Nat) (hp : p ≤ input.length) :
    slice input (p : Int) ((p + runLen cond (input.drop p) : Nat) : Int)
      = some ((input.drop p).takeWhile cond) := by
  have h1 := runLen_le cond (input.drop p)
  rw [List.length_drop] at h1
  have h2 : (0 : Int) ≤ (p : Int) ∧ (p : Int) ≤ ((p + runLen cond (input.drop p) : Nat) : Int)
      ∧ ((p + runLen cond (input.drop p) : Nat) : Int) ≤ (input.length : Int) := by
    refine ⟨?_, ?_, ?_⟩ <;> omega
  rw [slice, if_pos h2, Int.toNat_ofNat, Int.toNat_ofNat, Nat.add_sub_cancel_left,
    take_runLen]

theorem slice_take (input : List Nat) (p n : Nat) (h : p + n ≤ input.length) :
    slice input (p : Int) ((p + n : Nat) : Int) = some ((input.drop p).take n) := by
  have h2 : (0 : Int) ≤ (p : Int) ∧ (p : Int) ≤ ((p + n : Nat) : Int)
      ∧ ((p + n : Nat) : Int) ≤ (input.length : Int) := by
    refine ⟨?_, ?_, ?_⟩ <;> omega
  rw [slice, if_pos h2, Int.toNat_ofNat, Int.toNat_ofNat, Nat.add_sub_cancel_left]

theorem readIdentifier_cursor (maxInt : Nat) (input : List Nat) (p : Nat)
    (hlen : input.length ≤ maxInt) (hp : p ≤ input.length) :
    (cursor maxInt input p).readIdentifier maxInt
      = some ((input.drop p).takeWhile isLetter,
          cursor maxInt input (p + runLen isLetter (input.drop p))) := by
  unfold Lexer.readIdentifier
  have h := readWhile_cursor maxInt isLetter isLetter_zero input hlen
    (cursor maxInt input p).loopBound p (loopBound_cursor_ge _ _ _)
  simp only [h]
  show (slice input (p : Int) ((p + runLen isLetter (input.drop p) : Nat) : Int)).map _ = _
  rw [slice_run _ _ _ hp]; rfl

theorem readNumber_cursor (maxInt : Nat) (input : List Nat) (p : Nat)
    (hlen : input.length ≤ maxInt) (hp : p ≤ input.length) :
    (cursor maxInt input p).readNumber maxInt
      = some ((input.drop p).takeWhile isDigit,
          cursor maxInt input (p + runLen isDigit (input.drop p))) := by
  unfold Lexer.readNumber
  have h := readWhile_cursor maxInt isDigit isDigit_zero input hlen
    (cursor maxInt input p).loopBound p (loopBound_cursor_ge _ _ _)
  simp only [h]
  show (slice input (p : Int) ((p + runLen isDigit (input.drop p) : Nat) : Int)).map _ = _
  rw [slice_run _ _ _ hp]; rfl
theorem readChar_some {maxInt : Nat} {l l1 : Lexer} (h : l.readChar maxInt = some l1) :
    0 ≤ l.readPos ∧ l1.input = l.input ∧ l1.readPos = incr maxInt l.readPos
      ∧ ((l.input.length : Int) ≤ l.readPos → l1.ch = 0) := by
  unfold Lexer.readChar at h
  by_cases hge : l.readPos ≥ (l.input.length : Int)
  · rw [if_pos hge] at h
    have h1 := Option.some.inj h
    subst h1
    exact ⟨by omega, rfl, rfl, fun _ => rfl⟩
  · rw [if_neg hge] at h
    by_cases hneg : l.readPos < 0
    · rw [index_neg _ hneg] at h
      exact Option.noConfusion h
    · cases hi : index l.input l.readPos with
      | none => rw [hi] at h; exact Option.noConfusion h
      | some b =>
        rw [hi] at h
        have h1 := Option.some.inj h
        subst h1
        exact ⟨by omega, rfl, rfl, fun hle => absurd hle (by omega)⟩

theorem loopNeed_after_readChar {maxInt : Nat} {cond : Nat → Bool} (h0 : cond 0 = false)
    {l l1 : Lexer} (h : l.readChar maxInt = some l1) :
    loopNeed cond l1 ≤ l.input.length - l.readPos.toNat := by
  obtain ⟨hr, hin, hrp, hch⟩ := readChar_some h
  unfold loopNeed
  by_cases hc : cond l1.ch = true
  · rw [if_pos hc]
    have hlt : l.readPos < (l.input.length : Int) := by
      by_contra hge
      rw [hch (by omega), h0] at hc
      exact Bool.noConfusion hc
    by_cases hneg : l1.readPos < 0
    · rw [if_pos hneg]; omega
    · rw [if_neg hneg, hin, hrp]
      unfold incr at hrp ⊢
      by_cases hm : l.readPos = (maxInt : Int)
      · rw [if_pos hm] at hrp; omega
      · rw [if_neg hm]; omega
  · rw [if_neg hc]; exact Nat.zero_le _

theorem readWhile_succ (maxInt : Nat) (cond : Nat → Bool) (h0 : cond 0 = false) :
    ∀ (fuel : Nat) (l : Lexer), loopNeed cond l ≤ fuel →
      Lexer.readWhile maxInt cond (fuel + 1) l = Lexer.readWhile maxInt cond fuel l := by
  intro fuel
  induction fuel with
  | zero =>
    intro l h
    have hc : ¬ cond l.ch = true := by
      intro hc
      unfold loopNeed at h
      rw [if_pos hc] at h
      split_ifs at h <;> omega
    conv_lhs => rw [Lexer.readWhile, if_neg hc]
    conv_rhs => rw [Lexer.readWhile]
  | succ n ih =>
    intro l h
    by_cases hc : cond l.ch = true
    · conv_lhs => rw [Lexer.readWhile, if_pos hc]
      conv_rhs => rw [Lexer.readWhile, if_pos hc]
      cases hr : l.readChar maxInt with
      | none => rfl
      | some l1 =>
        simp only []
        apply ih
        have hn := loopNeed_after_readChar h0 hr
        have hpos := (readChar_some hr).1
        unfold loopNeed at h
        rw [if_pos hc, if_neg (by omega)] at h
        omega
    · conv_lhs => rw [Lexer.readWhile, if_neg hc]
      conv_rhs => rw [Lexer.readWhile, if_neg hc]

theorem readWhile_add (maxInt : Nat) (cond : Nat → Bool) (h0 : cond 0 = false) (l : Lexer)
    (fuel : Nat) (h : loopNeed cond l ≤ fuel) :
    ∀ d, Lexer.readWhile maxInt cond (fuel + d) l = Lexer.readWhile maxInt cond fuel l := by
  intro d
  induction d with
  | zero => rfl
  | succ d ih =>
    rw [← Nat.add_assoc, readWhile_succ maxInt cond h0 _ l (by omega), ih]

theorem readWhile_eq_of_le (maxInt : Nat) (cond : Nat → Bool) (h0 : cond 0 = false)
    (l : Lexer) (f1 f2 : Nat) (h1 : loopNeed cond l ≤ f1) (h2 : loopNeed cond l ≤ f2) :
    Lexer.readWhile maxInt cond f1 l = Lexer.readWhile maxInt cond f2 l := by
  obtain ⟨d1, rfl⟩ := Nat.exists_eq_add_of_le h1
  obtain ⟨d2, rfl⟩ := Nat.exists_eq_add_of_le h2
  rw [readWhile_add maxInt cond h0 l _ (le_refl _), readWhile_add maxInt cond h0 l _ (le_refl _)]

theorem loopNeed_le_loopBound (cond : Nat → Bool) (l : Lexer) :
    loopNeed cond l ≤ l.loopBound := by
  unfold loopNeed Lexer.loopBound
  split_ifs <;> omega

/-- The bounded loop is the loop of the source: from every state it obeys the equation of
`for cond(l.ch) { l.readChar() }`, the bound never cutting it short. -/
theorem readWhile_loop (maxInt : Nat) (cond : Nat → Bool) (h0 : cond 0 = false) (l : Lexer) :
    l.readWhile maxInt cond l.loopBound
      = if cond l.ch then
          match l.readChar maxInt with
          | some l1 => l1.readWhile maxInt cond l1.loopBound
          | none => none
        else some l := by
  have e1 : l.loopBound = (l.input.length - l.readPos.toNat) + 1 := rfl
  rw [e1, Lexer.readWhile]
  by_cases hc : cond l.ch = true
  · rw [if_pos hc, if_pos hc]
    cases hr : l.readChar maxInt with
    | none => rfl
    | some l1 =>
      simp only []
      exact readWhile_eq_of_le maxInt cond h0 l1 _ _ (loopNeed_after_readChar h0 hr)
        (loopNeed_le_loopBound cond l1)
  · rw [if_neg hc, if_neg hc]

/-- The model of `skipWhitespace` is the loop of the source,
`for l.ch == ' ' || l.ch == '\t' || l.ch == '\n' || l.ch == '\r' { l.readChar() }`,
from every state. -/
theorem skipWhitespace_loop (maxInt : Nat) (l : Lexer) :
    l.skipWhitespace maxInt
      = if isWhitespace l.ch then
          match l.readChar maxInt with
          | some l1 => l1.skipWhitespace maxInt
          | none => none
        else some l :=
  readWhile_loop maxInt isWhitespace isWhitespace_zero l
theorem twoCharCase_cursor (maxInt : Nat) (input : List Nat) (p : Nat) (two one : TokenType)
    (h1 : p < maxInt) (h2 : byteAt input (p + 1) = '='.toNat → p + 1 < maxInt) :
    (cursor maxInt input p).twoCharCase maxInt two one
      = if byteAt input (p + 1) = '='.toNat then
          some (newTokenString two
            (byteToString (byteAt input p) ++ byteToString (byteAt input (p + 1))),
            cursor maxInt input (p + 1 + 1))
        else some (newTokenByte one (byteAt input p), cursor maxInt input (p + 1)) := by
  unfold Lexer.twoCharCase
  rw [peekChar_cursor maxInt input p h1]
  simp only []
  by_cases hc : byteAt input (p + 1) = '='.toNat
  · rw [if_pos hc, if_pos hc, readChar_cursor maxInt input p h1]
    simp only []
    rw [readCharAndReturn_cursor maxInt input (p + 1) _ (h2 hc)]
    rfl
  · rw [if_neg hc, if_neg hc, readCharAndReturn_cursor maxInt input p _ h1]
    rfl

/-- One call of `NextToken` from a state that satisfies I1, in terms of `scanToken`, when
the cursor stays within the values of an `int`. -/
theorem NextToken_cursor_scan (maxInt : Nat) (input : List Nat) (q : Nat)
    (hlen : input.length ≤ maxInt)
    (hp : q + runLen isWhitespace (input.drop q)
      + (scanToken (input.drop (q + runLen isWhitespace (input.drop q)))).2 ≤ maxInt) :
    (cursor maxInt input q).NextToken maxInt
      = some ((scanToken (input.drop (q + runLen isWhitespace (input.drop q)))).1,
          cursor maxInt input (q + runLen isWhitespace (input.drop q)
            + (scanToken (input.drop (q + runLen isWhitespace (input.drop q)))).2)) := by
  generalize hpe : q + runLen isWhitespace (input.drop q) = p at hp ⊢
  have hp1 : p < maxInt := by
    have := scanToken_pos (input.drop p)
    omega
  unfold Lexer.NextToken
  rw [skipWhitespace_cursor maxInt input q hlen, hpe]
  simp only []
  have hch : (cursor maxInt input p).ch = (input.drop p).headD 0 := byteAt_eq_headD input p
  have hbp : byteAt input p = (input.drop p).headD 0 := byteAt_eq_headD input p
  have hb2 : byteAt input (p + 1) = (input.drop p).tail.headD 0 := byteAt_succ_eq input p
  have hple : isLetter ((input.drop p).headD 0) = true ∨ isDigit ((input.drop p).headD 0) = true
      → p ≤ input.length := by
    intro h
    rw [← byteAt_eq_headD] at h
    rcases h with h | h
    · exact le_of_lt (lt_of_cond_byteAt isLetter_zero h)
    · exact le_of_lt (lt_of_cond_byteAt isDigit_zero h)
  rw [hch]
  unfold scanToken at hp ⊢
  simp only [] at hp ⊢
  generalize hc : (input.drop p).headD 0 = c at hp hple hbp ⊢
  generalize hc2 : (input.drop p).tail.headD 0 = c2 at hp hb2 ⊢
  by_cases h1 : c = '='.toNat
  · simp only [if_pos h1] at hp ⊢
    by_cases h2 : c2 = '='.toNat
    · simp only [if_pos h2] at hp ⊢
      rw [twoCharCase_cursor maxInt input p _ _ hp1 (fun _ => by omega), hbp, hb2, if_pos h2]
    · simp only [if_neg h2] at hp ⊢
      rw [twoCharCase_cursor maxInt input p _ _ hp1 (fun h => absurd (hb2 ▸ h) h2), hbp, hb2,
        if_neg h2]
  simp only [if_neg h1] at hp ⊢
  clear h1
  by_cases h1 : c = ';'.toNat
  · simp only [if_pos h1] at hp ⊢
    rw [readCharAndReturn_cursor maxInt input p _ hp1]
  simp only [if_neg h1] at hp ⊢
  clear h1
  by_cases h1 : c = '('.toNat
  · simp only [if_pos h1] at hp ⊢
    rw [readCharAndReturn_cursor maxInt input p _ hp1]
  simp only [if_neg h1] at hp ⊢
  clear h1
  by_cases h1 : c = ')'.toNat
  · simp only [if_pos h1] at hp ⊢
    rw [readCharAndReturn_cursor maxInt input p _ hp1]
  simp only [if_neg h1] at hp ⊢
  clear h1
  by_cases h1 : c = ','.toNat
  · simp only [if_pos h1] at hp ⊢
    rw [readCharAndReturn_cursor maxInt input p _ hp1]
  simp only [if_neg h1] at hp ⊢
  clear h1
  by_cases h1 : c = '+'.toNat
  · simp only [if_pos h1] at hp ⊢
    rw [readCharAndReturn_cursor maxInt input p _ hp1]
  simp only [if_neg h1] at hp ⊢
  clear h1
  by_cases h1 : c = '-'.toNat
  · simp only [if_pos h1] at hp ⊢
    rw [readCharAndReturn_cursor maxInt input p _ hp1]
  simp only [if_neg h1] at hp ⊢
  clear h1
  by_cases h1 : c = '!'.toNat
  · simp only [if_pos h1] at hp ⊢
    by_cases h2 : c2 = '='.toNat
    · simp only [if_pos h2] at hp ⊢
      rw [twoCharCase_cursor maxInt input p _ _ hp1 (fun _ => by omega), hbp, hb2, if_pos h2]
    · simp only [if_neg h2] at hp ⊢
      rw [twoCharCase_cursor maxInt input p _ _ hp1 (fun h => absurd (hb2 ▸ h) h2), hbp, hb2,
        if_neg h2]
  simp only [if_neg h1] at hp ⊢
  clear h1
  by_cases h1 : c = '/'.toNat
  · simp only [if_pos h1] at hp ⊢
    rw [readCharAndReturn_cursor maxInt input p _ hp1]
  simp only [if_neg h1] at hp ⊢
  clear h1
  by_cases h1 : c = '*'.toNat
  · simp only [if_pos h1] at hp ⊢
    rw [readCharAndReturn_cursor maxInt input p _ hp1]
  simp only [if_neg h1] at hp ⊢
  clear h1
  by_cases h1 : c = '<'.toNat
  · simp only [if_pos h1] at hp ⊢
    rw [readCharAndReturn_cursor maxInt input p _ hp1]
  simp only [if_neg h1] at hp ⊢
  clear h1
  by_cases h1 : c = '>'.toNat
  · simp only [if_pos h1] at hp ⊢
    rw [readCharAndReturn_cursor maxInt input p _ hp1]
  simp only [if_neg h1] at hp ⊢
  clear h1
  by_cases h1 : c = '{'.toNat
  · simp only [if_pos h1] at hp ⊢
    rw [readCharAndReturn_cursor maxInt input p _ hp1]
  simp only [if_neg h1] at hp ⊢
  clear h1
  by_cases h1 : c = '}'.toNat
  · simp only [if_pos h1] at hp ⊢
    rw [readCharAndReturn_cursor maxInt input p _ hp1]
  simp only [if_neg h1] at hp ⊢
  clear h1
  by_cases h1 : c = 0
  · simp only [if_pos h1] at hp ⊢
    rw [readCharAndReturn_cursor maxInt input p _ hp1]
  simp only [if_neg h1] at hp ⊢
  by_cases hl : isLetter c = true
  · simp only [if_pos hl] at hp ⊢
    rw [readIdentifier_cursor maxInt input p hlen (hple (Or.inl hl))]
  simp only [if_neg hl] at hp ⊢
  by_cases hd : isDigit c = true
  · simp only [if_pos hd] at hp ⊢
    rw [readNumber_cursor maxInt input p hlen (hple (Or.inr hd))]
  simp only [if_neg hd] at hp ⊢
  rw [readCharAndReturn_cursor maxInt input p _ hp1]

/-- At the largest `int` the call of `NextToken` panics: its `readChar` takes
`input[readPos]` with the negative `readPos` that `readPos++` wrapped to. -/
theorem NextToken_cursor_maxInt (maxInt : Nat) (input : List Nat) (q : Nat)
    (hlen : input.length ≤ maxInt)
    (hp : q + runLen isWhitespace (input.drop q) = maxInt) :
    (cursor maxInt input q).NextToken maxInt = none := by
  unfold Lexer.NextToken
  rw [skipWhitespace_cursor maxInt input q hlen, hp]
  simp only []
  have hch : (cursor maxInt input maxInt).ch = 0 := byteAt_ge hlen
  rw [hch]
  rw [if_neg (by decide : ¬ (0 : Nat) = '='.toNat)]
  rw [if_neg (by decide : ¬ (0 : Nat) = ';'.toNat)]
  rw [if_neg (by decide : ¬ (0 : Nat) = '('.toNat)]
  rw [if_neg (by decide : ¬ (0 : Nat) = ')'.toNat)]
  rw [if_neg (by decide : ¬ (0 : Nat) = ','.toNat)]
  rw [if_neg (by decide : ¬ (0 : Nat) = '+'.toNat)]
  rw [if_neg (by decide : ¬ (0 : Nat) = '-'.toNat)]
  rw [if_neg (by decide : ¬ (0 : Nat) = '!'.toNat)]
  rw [if_neg (by decide : ¬ (0 : Nat) = '/'.toNat)]
  rw [if_neg (by decide : ¬ (0 : Nat) = '*'.toNat)]
  rw [if_neg (by decide : ¬ (0 : Nat) = '<'.toNat)]
  rw [if_neg (by decide : ¬ (0 : Nat) = '>'.toNat)]
  rw [if_neg (by decide : ¬ (0 : Nat) = '{'.toNat)]
  rw [if_neg (by decide : ¬ (0 : Nat) = '}'.toNat)]
  rw [if_pos rfl]
  exact readCharAndReturn_cursor_maxInt maxInt input _ hlen
theorem skip_pos_le (maxInt : Nat) (input : List Nat) (q : Nat)
    (hlen : input.length ≤ maxInt) (hq : q ≤ maxInt) :
    q + runLen isWhitespace (input.drop q) ≤ maxInt := by
  have h := runLen_le isWhitespace (input.drop q)
  rw [List.length_drop] at h
  omega

/-- One call of `NextToken` from a state that satisfies I1, in terms of `lexStep`: it
returns when it leaves the cursor within the values of an `int`, and panics otherwise. -/
theorem NextToken_cursor (maxInt : Nat) (input : List Nat) (q : Nat)
    (hlen : input.length ≤ maxInt) (hq : q ≤ maxInt) :
    (cursor maxInt input q).NextToken maxInt
      = if q + (lexStep (input.drop q)).2 ≤ maxInt then
          some ((lexStep (input.drop q)).1, cursor maxInt input (q + (lexStep (input.drop q)).2))
        else none := by
  have hstep : lexStep (input.drop q)
      = ((scanToken (input.drop (q + runLen isWhitespace (input.drop q)))).1,
          runLen isWhitespace (input.drop q)
            + (scanToken (input.drop (q + runLen isWhitespace (input.drop q)))).2) := by
    simp only [lexStep, List.drop_drop]
  rw [hstep]
  simp only []
  by_cases h : q + (runLen isWhitespace (input.drop q)
      + (scanToken (input.drop (q + runLen isWhitespace (input.drop q)))).2) ≤ maxInt
  · rw [if_pos h, NextToken_cursor_scan maxInt input q hlen (by omega), Nat.add_assoc]
  · rw [if_neg h]
    apply NextToken_cursor_maxInt maxInt input q hlen
    have hple := skip_pos_le maxInt input q hlen hq
    by_cases he : (scanToken (input.drop (q + runLen isWhitespace (input.drop q)))).1.Typ = EOF
    · have := scanToken_eof_len _ he
      omega
    · have := (scanToken_source _ he).1
      have h1 := scanToken_pos (input.drop (q + runLen isWhitespace (input.drop q)))
      rw [List.length_drop] at this
      omega

theorem stateAfter_cursor (maxInt : Nat) (input : List Nat) (hlen : input.length ≤ maxInt) :
    ∀ (n q : Nat), q ≤ maxInt →
      stateAfter maxInt n (cursor maxInt input q)
        = if q + offsetAfter n (input.drop q) ≤ maxInt then
            some (cursor maxInt input (q + offsetAfter n (input.drop q)))
          else none := by
  intro n
  induction n with
  | zero =>
    intro q hq
    rw [stateAfter, offsetAfter, if_pos (by omega)]
    rfl
  | succ n ih =>
    intro q hq
    rw [stateAfter, NextToken_cursor maxInt input q hlen hq, offsetAfter]
    by_cases h : q + (lexStep (input.drop q)).2 ≤ maxInt
    · rw [if_pos h]
      simp only []
      rw [ih _ h, List.drop_drop, Nat.add_assoc]
    · rw [if_neg h, if_neg (by omega)]

theorem reach_eq (maxInt : Nat) (input : List Nat) (hlen : input.length ≤ maxInt) (n : Nat) :
    reach maxInt input n
      = if offsetAfter n input ≤ maxInt then
          some (cursor maxInt input (offsetAfter n input))
        else none := by
  rw [reach, New_eq_cursor]
  simp only []
  rw [stateAfter_cursor maxInt input hlen n 0 (Nat.zero_le _), List.drop_zero, Nat.zero_add]

theorem reach_of_le (maxInt : Nat) (input : List Nat) (hlen : input.length ≤ maxInt) (n : Nat)
    (h : offsetAfter n input ≤ maxInt) :
    reach maxInt input n = some (cursor maxInt input (offsetAfter n input)) := by
  rw [reach_eq maxInt input hlen, if_pos h]

theorem cursor_of_reach {maxInt : Nat} {input : List Nat} {k : Nat} {l : Lexer}
    (hlen : input.length ≤ maxInt) (h : reach maxInt input k = some l) :
    l = cursor maxInt input (offsetAfter k input) ∧ offsetAfter k input ≤ maxInt := by
  rw [reach_eq maxInt input hlen] at h
  by_cases hle : offsetAfter k input ≤ maxInt
  · rw [if_pos hle] at h
    exact ⟨(Option.some.inj h).symm, hle⟩
  · rw [if_neg hle] at h
    exact Option.noConfusion h

theorem nthToken_eq (maxInt : Nat) (input : List Nat) (hlen : input.length ≤ maxInt)
    (n : Nat) :
    nthToken maxInt input n
      = if offsetAfter (n + 1) input ≤ maxInt then
          some (lexStep (input.drop (offsetAfter n input))).1
        else none := by
  rw [nthToken, reach_eq maxInt input hlen, offsetAfter_succ]
  by_cases h1 : offsetAfter n input ≤ maxInt
  · rw [if_pos h1]
    simp only []
    rw [NextToken_cursor maxInt input _ hlen h1]
    by_cases h2 : offsetAfter n input + (lexStep (input.drop (offsetAfter n input))).2 ≤ maxInt
    · rw [if_pos h2, if_pos h2]; rfl
    · rw [if_neg h2, if_neg h2]; rfl
  · rw [if_neg h1, if_neg (by omega)]

theorem returnsEOF_iff (maxInt : Nat) (input : List Nat) (hlen : input.length ≤ maxInt)
    (n : Nat) (h : offsetAfter (n + 1) input ≤ maxInt) :
    returnsEOF maxInt input n ↔ (lexStep (input.drop (offsetAfter n input))).1.Typ = EOF := by
  rw [returnsEOF, nthToken_eq maxInt input hlen, if_pos h]
  simp

theorem returnsEOF_of_length_le (maxInt : Nat) (input : List Nat) (n : Nat)
    (hlen : input.length ≤ maxInt) (h : input.length ≤ offsetAfter n input)
    (h2 : offsetAfter n input < maxInt) : returnsEOF maxInt input n := by
  have hs : offsetAfter (n + 1) input ≤ maxInt := by
    rw [offsetAfter_succ, List.drop_eq_nil_of_le h, lexStep_nil]
    omega
  rw [returnsEOF_iff maxInt input hlen n hs, List.drop_eq_nil_of_le h]
  rfl

theorem not_returnsEOF_of_gt (maxInt : Nat) (input : List Nat) (n : Nat)
    (hlen : input.length ≤ maxInt) (h : maxInt < offsetAfter (n + 1) input) :
    nthToken maxInt input n = none := by
  rw [nthToken_eq maxInt input hlen, if_neg (by omega)]

theorem runLen_of_FirstNonWs {input : List Nat} {i c : Nat} :
    ∀ (d q : Nat), q + d = i → FirstNonWs input (q : Int) i c →
      q + runLen isWhitespace (input.drop q) = i := by
  intro d
  induction d with
  | zero =>
    intro q hq hf
    obtain ⟨_, hc, hw, _⟩ := hf
    have hqi : q = i := by omega
    subst hqi
    rw [drop_eq_cons_of_getElem? hc, runLen_cons_neg _ (by rw [hw]; exact Bool.false_ne_true)]
    rfl
  | succ d ih =>
    intro q hq hf
    obtain ⟨hle, hc, hw, hall⟩ := hf
    have hq1 := hall q (le_refl _) (by omega)
    obtain ⟨b, hb, hbw⟩ := Option.map_eq_some'.mp hq1
    rw [drop_eq_cons_of_getElem? hb, runLen_cons_pos _ hbw]
    have := ih (q + 1) (by omega)
      ⟨by omega, hc, hw, fun j h1 h2 => hall j (by omega) h2⟩
    omega

/-- One call of `NextToken` from a reachable state, in terms of the first byte that is not
whitespace. -/
theorem NextToken_of_FirstNonWs {maxInt : Nat} {input : List Nat} {k : Nat} {l : Lexer}
    {i c : Nat} (hlen : input.length ≤ maxInt)
    (hl : reach maxInt input k = some l) (hf : FirstNonWs input l.pos i c) :
    l.NextToken maxInt = some ((scanToken (c :: input.drop (i + 1))).1,
        cursor maxInt input (i + (scanToken (c :: input.drop (i + 1))).2))
      ∧ input.drop i = c :: input.drop (i + 1)
      ∧ i + (scanToken (c :: input.drop (i + 1))).2 ≤ input.length := by
  obtain ⟨hcur, _⟩ := cursor_of_reach hlen hl
  subst hcur
  have hle : offsetAfter k input ≤ i := by
    have := hf.1
    simp only [cursor] at this
    omega
  have hi := runLen_of_FirstNonWs (i - offsetAfter k input) (offsetAfter k input)
    (by omega) hf
  have hd := drop_eq_cons_of_getElem? hf.2.1
  have hn := scanToken_le (input.drop i) (by rw [hd]; exact List.cons_ne_nil _ _)
  rw [List.length_drop] at hn
  have hilt : i < input.length := by
    have := congrArg List.length hd
    simp only [List.length_drop, List.length_cons] at this
    omega
  rw [hd] at hn
  refine ⟨?_, hd, by omega⟩
  have := NextToken_cursor_scan maxInt input (offsetAfter k input) hlen
    (by rw [hi, hd]; omega)
  rw [hi, hd] at this
  exact this

theorem tokensFrom_cursor (maxInt : Nat) (input : List Nat) (hlt : input.length < maxInt) :
    ∀ (fuel q : Nat), q ≤ input.length →
      tokensFrom maxInt fuel (cursor maxInt input q) = lexList fuel (input.drop q) := by
  intro fuel
  induction fuel with
  | zero => intro q _; rfl
  | succ n ih =>
    intro q hq
    have h1 := lexStep_le_succ (input.drop q)
    rw [List.length_drop] at h1
    rw [tokensFrom, NextToken_cursor maxInt input q (by omega) (by omega), if_pos (by omega),
      lexList]
    simp only []
    by_cases he : (lexStep (input.drop q)).1.Typ = EOF
    · rw [if_pos he, if_pos he]
    · have h2 := lexStep_le (input.drop q) he
      rw [List.length_drop] at h2
      rw [if_neg he, if_neg he, ih _ (by omega), List.drop_drop]

theorem tokens_eq_lexAll (maxInt : Nat) (input : List Nat) (hlt : input.length < maxInt) :
    tokens maxInt input = lexAll input := by
  rw [tokens, New_eq_cursor]
  simp only []
  rw [tokensFrom_cursor maxInt input hlt _ 0 (Nat.zero_le _), List.drop_zero]
  rfl

theorem skippedWhitespace_cursor (maxInt : Nat) (input : List Nat) (q : Nat)
    (hlen : input.length ≤ maxInt) :
    skippedWhitespace maxInt (cursor maxInt input q)
      = (input.drop q).take (runLen isWhitespace (input.drop q)) := by
  unfold skippedWhitespace
  rw [skipWhitespace_cursor maxInt input q hlen]
  show (input.drop (q : Int).toNat).take
    (((q + runLen isWhitespace (input.drop q) : Nat) : Int).toNat - (q : Int).toNat) = _
  rw [Int.toNat_ofNat, Int.toNat_ofNat, Nat.add_sub_cancel_left]

theorem coverage_cursor (maxInt : Nat) (input : List Nat) (hlt : input.length < maxInt)
    (hascii : ∀ b ∈ input, b < 128) :
    ∀ (fuel q : Nat), q ≤ input.length → input.length - q < fuel →
      coverage maxInt fuel (cursor maxInt input q) = some (beforeNul (input.drop q)) := by
  intro fuel
  induction fuel with
  | zero => intro q _ h; exact absurd h (Nat.not_lt_zero _)
  | succ n ih =>
    intro q hqle hq
    have hstep := beforeNul_step (input.drop q)
      (fun b hb => hascii b (List.mem_of_mem_drop hb))
    have hw := runLen_le isWhitespace (input.drop q)
    rw [List.length_drop] at hw
    have hsl := lexStep_le_succ (input.drop q)
    rw [List.length_drop] at hsl
    have hsl2 : runLen isWhitespace (input.drop q)
        + (scanToken ((input.drop q).drop (runLen isWhitespace (input.drop q)))).2
        ≤ input.length - q + 1 := hsl
    rw [List.drop_drop] at hsl2 hstep
    rw [coverage, NextToken_cursor_scan maxInt input q (by omega) (by omega),
      skippedWhitespace_cursor maxInt input q (by omega)]
    simp only []
    by_cases he : (scanToken (input.drop (q + runLen isWhitespace (input.drop q)))).1.Typ = EOF
    · rw [if_pos he, hstep.1 he]
    · have hpos := scanToken_pos (input.drop (q + runLen isWhitespace (input.drop q)))
      have hlen2 := (scanToken_source _ he).1
      rw [List.length_drop] at hlen2
      rw [if_neg he, ih _ (by omega) (by omega), hstep.2 he, List.drop_drop]
      simp only [Option.map_some', Nat.add_assoc]

theorem offsetAfter_nil : ∀ n : Nat, offsetAfter n [] = n := by
  intro n
  induction n with
  | zero => rfl
  | succ n ih =>
    rw [offsetAfter, lexStep_nil]
    simp only [List.drop_nil]
    rw [ih, Nat.add_comm]

/-- On the empty input the lexer moves one step per call, and is reachable as long as the
cursor is a value of an `int`. -/
theorem reach_nil (maxInt n : Nat) :
    reach maxInt [] n = if n ≤ maxInt then some (cursor maxInt [] n) else none := by
  rw [reach_eq maxInt [] (Nat.zero_le _), offsetAfter_nil]

/-- On the empty input call number `n + 1` returns `(EOF, "")` when `n < maxInt`, and
panics from then on. -/
theorem nthToken_nil (maxInt n : Nat) :
    nthToken maxInt [] n = if n < maxInt then some ⟨EOF, []⟩ else none := by
  rw [nthToken_eq maxInt [] (Nat.zero_le _), offsetAfter_nil, List.drop_nil, lexStep_nil]
  by_cases h : n < maxInt
  · rw [if_pos h, if_pos (by omega)]
  · rw [if_neg h, if_neg (by omega)]

/-- The call of `NextToken` made with the cursor on `maxInt` panics. -/
theorem NextToken_reach_maxInt {maxInt : Nat} {input : List Nat} {k : Nat} {l : Lexer}
    (hlen : input.length ≤ maxInt) (hl : reach maxInt input k = some l)
    (hpos : l.pos = maxInt) : l.NextToken maxInt = none := by
  obtain ⟨hcur, hle⟩ := cursor_of_reach hlen hl
  subst hcur
  have hq : offsetAfter k input = maxInt := by
    have : ((offsetAfter k input : Nat) : Int) = maxInt := hpos
    omega
  apply NextToken_cursor_maxInt maxInt input _ hlen
  have h := runLen_le isWhitespace (input.drop (offsetAfter k input))
  rw [List.length_drop] at h
  omega

/-- A call of `NextToken` that returns from a reachable state moves the cursor forward. -/
theorem NextToken_reach_pos {maxInt : Nat} {input : List Nat} {k : Nat} {l l1 : Lexer}
    {tok : Token} (hlen : input.length ≤ maxInt) (hl : reach maxInt input k = some l)
    (hn : l.NextToken maxInt = some (tok, l1)) : l.pos + 1 ≤ l1.pos := by
  obtain ⟨hcur, hle⟩ := cursor_of_reach hlen hl
  subst hcur
  rw [NextToken_cursor maxInt input _ hlen hle] at hn
  by_cases h : offsetAfter k input + (lexStep (input.drop (offsetAfter k input))).2 ≤ maxInt
  · rw [if_pos h] at hn
    have hl1 : cursor maxInt input
        (offsetAfter k input + (lexStep (input.drop (offsetAfter k input))).2) = l1 :=
      congrArg Prod.snd (Option.some.inj hn)
    have hs := lexStep_pos (input.drop (offsetAfter k input))
    rw [← hl1]
    show ((offsetAfter k input : Nat) : Int) + 1
      ≤ ((offsetAfter k input + (lexStep (input.drop (offsetAfter k input))).2 : Nat) : Int)
    omega
  · rw [if_neg h] at hn
    exact Option.noConfusion hn

/-- A call of `NextToken` from a reachable state whose cursor is below `maxInt`, on an
input shorter than `maxInt`, returns. -/
theorem NextToken_reach_lt {maxInt : Nat} {input : List Nat} {k : Nat} {l : Lexer}
    (hlt : input.length < maxInt) (hl : reach maxInt input k = some l)
    (hpos : l.pos < maxInt) :
    l.NextToken maxInt = some ((lexStep (input.drop (offsetAfter k input))).1,
      cursor maxInt input
        (offsetAfter k input + (lexStep (input.drop (offsetAfter k input))).2)) := by
  obtain ⟨hcur, hle⟩ := cursor_of_reach (Nat.le_of_lt hlt) hl
  subst hcur
  have hq : offsetAfter k input < maxInt := by
    have : ((offsetAfter k input : Nat) : Int) < maxInt := hpos
    omega
  have hs := lexStep_le_succ (input.drop (offsetAfter k input))
  rw [List.length_drop] at hs
  rw [NextToken_cursor maxInt input _ (Nat.le_of_lt hlt) hle, if_pos (by omega)]

/-- The tokens of an input that holds a NUL byte, up to the first `EOF`: the lexer stops at
the NUL byte, before the end of the input. -/
theorem tokensFrom_append_nul (maxInt : Nat) (a b : List Nat)
    (hlen : (a ++ 0 :: b).length ≤ maxInt) :
    ∀ (fuel q : Nat), q ≤ a.length →
      tokensFrom maxInt fuel (cursor maxInt (a ++ 0 :: b) q) = lexList fuel (a.drop q) := by
  have hl2 : a.length + 1 + b.length ≤ maxInt := by
    rw [List.length_append, List.length_cons] at hlen
    omega
  intro fuel
  induction fuel with
  | zero => intro q _; rfl
  | succ n ih =>
    intro q hq
    have hd : (a ++ 0 :: b).drop q = a.drop q ++ 0 :: b := List.drop_append_of_le_length hq
    have h1 := lexStep_le_succ (a.drop q)
    rw [List.length_drop] at h1
    rw [tokensFrom, NextToken_cursor maxInt _ q hlen (by omega), hd, lexStep_append_nul,
      if_pos (by omega), lexList]
    simp only []
    by_cases he : (lexStep (a.drop q)).1.Typ = EOF
    · rw [if_pos he, if_pos he]
    · have h2 := lexStep_le (a.drop q) he
      rw [List.length_drop] at h2
      rw [if_neg he, if_neg he, ih _ (by omega), List.drop_drop]

theorem tokens_append_nul (maxInt : Nat) (a b : List Nat)
    (hlen : (a ++ 0 :: b).length ≤ maxInt) :
    tokens maxInt (a ++ 0 :: b) = lexAll a := by
  rw [tokens, New_eq_cursor]
  simp only []
  rw [tokensFrom_append_nul maxInt a b hlen _ 0 (Nat.zero_le _), List.drop_zero]
  apply lexList_eq_lexAll
  rw [List.length_append, List.length_cons]
  omega

/-- A call of `NextToken` that returns `EOF` on bytes without a NUL byte has skipped all of
them. -/
theorem lexStep_eof_of_nonzero {s : List Nat} (hnz : ∀ b ∈ s, b ≠ 0)
    (he : (lexStep s).1.Typ = EOF) : (lexStep s).2 = s.length + 1 := by
  have hnil : s.drop (runLen isWhitespace s) = [] := by
    by_contra hne
    exact headD_ne_zero_of_forall hne (fun b hb => hnz b (List.mem_of_mem_drop hb))
      ((lexStep_eof_iff s).mp he)
  have h1 : (scanToken (s.drop (runLen isWhitespace s))).2 = 1 := scanToken_eof_len _ he
  have h2 := congrArg List.length hnil
  have h3 := runLen_le isWhitespace s
  rw [List.length_drop, List.length_nil] at h2
  show runLen isWhitespace s + _ = _
  omega

/-- On an input of length `maxInt` without a NUL byte no `EOF` is returned: the call that
would return it panics. -/
theorem tokensFrom_none_of_length_eq (maxInt : Nat) (input : List Nat)
    (hlen : input.length = maxInt) (hnz : ∀ b ∈ input, b ≠ 0) :
    ∀ (fuel q : Nat), q ≤ input.length →
      tokensFrom maxInt fuel (cursor maxInt input q) = none := by
  intro fuel
  induction fuel with
  | zero => intro q _; rfl
  | succ n ih =>
    intro q hq
    rw [tokensFrom, NextToken_cursor maxInt input q (by omega) (by omega)]
    by_cases h : q + (lexStep (input.drop q)).2 ≤ maxInt
    · rw [if_pos h]
      simp only []
      by_cases he : (lexStep (input.drop q)).1.Typ = EOF
      · have := lexStep_eof_of_nonzero (fun b hb => hnz b (List.mem_of_mem_drop hb)) he
        rw [List.length_drop] at this
        omega
      · have h2 := lexStep_le (input.drop q) he
        rw [List.length_drop] at h2
        rw [if_neg he, ih _ (by omega)]
        rfl
    · rw [if_neg h]

theorem tokens_none_of_length_eq (maxInt : Nat) (input : List Nat)
    (hlen : input.length = maxInt) (hnz : ∀ b ∈ input, b ≠ 0) :
    tokens maxInt input = none := by
  rw [tokens, New_eq_cursor]
  simp only []
  exact tokensFrom_none_of_length_eq maxInt input hlen hnz _ 0 (Nat.zero_le _)

/-- While no call has returned `EOF` the cursor is within the input. -/
theorem offsetAfter_le_length (input : List Nat) :
    ∀ n : Nat, (∀ m, m < n → (lexStep (input.drop (offsetAfter m input))).1.Typ ≠ EOF) →
      offsetAfter n input ≤ input.length := by
  intro n
  induction n with
  | zero => intro _; exact Nat.zero_le _
  | succ n ih =>
    intro h
    have h1 := ih (fun m hm => h m (Nat.lt_succ_of_lt hm))
    have h2 := lexStep_le _ (h n (Nat.lt_succ_self n))
    rw [List.length_drop] at h2
    rw [offsetAfter_succ]
    omega

/-- On an input shorter than `maxInt` the first call that returns `EOF` is call number
`n + 1` for some `n ≤ len(input)`. -/
theorem first_returnsEOF (maxInt : Nat) (input : List Nat) (hlt : input.length < maxInt) :
    ∃ n, n ≤ input.length ∧ returnsEOF maxInt input n
      ∧ ∀ m, m < n → ¬ returnsEOF maxInt input m := by
  have hex : ∃ n, (lexStep (input.drop (offsetAfter n input))).1.Typ = EOF :=
    ⟨input.length, by rw [List.drop_eq_nil_of_le (offsetAfter_ge _ _)]; rfl⟩
  have hmin : ∀ m, m < Nat.find hex →
      (lexStep (input.drop (offsetAfter m input))).1.Typ ≠ EOF :=
    fun m hm => Nat.find_min hex hm
  have hq := offsetAfter_le_length input (Nat.find hex) hmin
  have hs := lexStep_le_succ (input.drop (offsetAfter (Nat.find hex) input))
  rw [List.length_drop] at hs
  refine ⟨Nat.find hex, ?_, ?_, ?_⟩
  · exact Nat.find_min' hex
      (by rw [List.drop_eq_nil_of_le (offsetAfter_ge _ _)]; rfl)
  · rw [returnsEOF_iff maxInt input (Nat.le_of_lt hlt) _ (by rw [offsetAfter_succ]; omega)]
    exact Nat.find_spec hex
  · intro m hm
    have hm2 : offsetAfter (m + 1) input ≤ offsetAfter (Nat.find hex) input :=
      offsetAfter_mono hm input
    rw [returnsEOF_iff maxInt input (Nat.le_of_lt hlt) _ (by omega)]
    exact hmin m hm

/-- Once a call has returned `EOF`, the later calls find `EOF` too when every byte that
follows a NUL byte is a NUL byte or whitespace. -/
theorem lexStep_eof_kept (input : List Nat)
    (hz : ∀ i j : Nat, i < j → input[i]? = some 0 →
      ∀ b, input[j]? = some b → b = 0 ∨ isWhitespace b = true)
    (n m : Nat) (hn : (lexStep (input.drop (offsetAfter n input))).1.Typ = EOF)
    (hnm : n ≤ m) : (lexStep (input.drop (offsetAfter m input))).1.Typ = EOF := by
  rcases Nat.eq_or_lt_of_le hnm with rfl | hlt
  · exact hn
  · rw [lexStep_eof_iff, List.drop_drop, headD_drop]
    have hstep : (lexStep (input.drop (offsetAfter n input))).2
        = runLen isWhitespace (input.drop (offsetAfter n input)) + 1 := by
      have := scanToken_eof_len _ hn
      show runLen isWhitespace (input.drop (offsetAfter n input)) + _ = _
      omega
    rw [lexStep_eof_iff, List.drop_drop, headD_drop] at hn
    have hmono : offsetAfter (n + 1) input ≤ offsetAfter m input := offsetAfter_mono hlt input
    rw [offsetAfter_succ, hstep] at hmono
    have hws := headD_after_skip (input.drop (offsetAfter m input))
    rw [List.drop_drop, headD_drop] at hws
    cases hb : input[offsetAfter m input
        + runLen isWhitespace (input.drop (offsetAfter m input))]? with
    | none => rfl
    | some b =>
      rw [hb] at hws
      have hlt2 := (List.getElem?_eq_some.mp hb).1
      cases hc : input[offsetAfter n input
          + runLen isWhitespace (input.drop (offsetAfter n input))]? with
      | none =>
        have := List.getElem?_eq_none_iff.mp hc
        omega
      | some c =>
        rw [hc] at hn
        have hc0 : c = 0 := hn
        subst hc0
        rcases hz _ _ (by omega) hc b hb with h0 | hw
        · rw [h0]; rfl
        · have hws2 : isWhitespace b = false := hws
          rw [hw] at hws2
          exact Bool.noConfusion hws2

/-- A call that returns `EOF` finds `EOF` at the cursor. -/
theorem lexStep_eof_of_returnsEOF {maxInt : Nat} {input : List Nat} {n : Nat}
    (hlen : input.length ≤ maxInt) (h : returnsEOF maxInt input n) :
    (lexStep (input.drop (offsetAfter n input))).1.Typ = EOF := by
  rw [returnsEOF, nthToken_eq maxInt input hlen] at h
  by_cases hle : offsetAfter (n + 1) input ≤ maxInt
  · rw [if_pos hle] at h
    exact Option.some.inj h
  · rw [if_neg hle] at h
    exact Option.noConfusion h

/-- On an input shorter than `maxInt`, a call made with the cursor below `maxInt` returns
`EOF` when it finds `EOF` at the cursor. -/
theorem returnsEOF_of_reach_lt {maxInt : Nat} {input : List Nat} {m : Nat} {l : Lexer}
    (hlt : input.length < maxInt) (hl : reach maxInt input m = some l)
    (hpos : l.pos < maxInt)
    (h : (lexStep (input.drop (offsetAfter m input))).1.Typ = EOF) :
    returnsEOF maxInt input m := by
  have hn := NextToken_reach_lt hlt hl hpos
  rw [returnsEOF, nthToken, hl]
  simp only []
  rw [hn]
  exact congrArg some h

/-- On an input shorter than `maxInt`, the state after `m` calls exists and has its cursor
below `maxInt` when `len(input) + m` is below `maxInt`. -/
theorem reach_lt_of_add_lt (maxInt : Nat) (input : List Nat) (m : Nat)
    (h : input.length + m < maxInt) :
    ∃ l, reach maxInt input m = some l ∧ l.pos < maxInt := by
  have hoff := offsetAfter_le m input
  refine ⟨_, reach_of_le maxInt input (by omega) m (by omega), ?_⟩
  show ((offsetAfter m input : Nat) : Int) < (maxInt : Int)
  omega

/-- A run of whitespace as long as `maxInt`: the first call of `NextToken` reads to the end
and panics. -/
theorem NextToken_whitespace_maxInt (maxInt : Nat) (input : List Nat)
    (hlen : input.length = maxInt) (hw : ∀ b ∈ input, isWhitespace b = true) :
    (cursor maxInt input 0).NextToken maxInt = none := by
  apply NextToken_cursor_maxInt maxInt input 0 (by omega)
  rw [List.drop_zero, Nat.zero_add, runLen, List.takeWhile_eq_self_iff.mpr hw, hlen]

/-- On an input of length `maxInt` without a NUL byte no call returns `EOF`. -/
theorem not_returnsEOF_of_length_eq (maxInt : Nat) (input : List Nat)
    (hlen : input.length = maxInt) (hnz : ∀ b ∈ input, b ≠ 0) (n : Nat) :
    ¬ returnsEOF maxInt input n := by
  intro h
  rw [returnsEOF, nthToken_eq maxInt input (by omega)] at h
  by_cases hle : offsetAfter (n + 1) input ≤ maxInt
  · rw [if_pos hle] at h
    have he : (lexStep (input.drop (offsetAfter n input))).1.Typ = EOF :=
      Option.some.inj h
    have hs := lexStep_eof_of_nonzero (fun b hb => hnz b (List.mem_of_mem_drop hb)) he
    rw [List.length_drop] at hs
    rw [offsetAfter_succ] at hle
    omega
  · rw [if_neg hle] at h
    exact Option.noConfusion h

theorem maxInt32_le_maxInt64 : maxInt32 ≤ maxInt64 := by decide

/-- On a run of whitespace as long as `maxInt` there are no tokens to concatenate: the
first call panics. -/
theorem coverage_whitespace_maxInt (maxInt : Nat) (input : List Nat)
    (hlen : input.length = maxInt) (hw : ∀ b ∈ input, isWhitespace b = true) :
    (New maxInt input).bind (coverage maxInt (input.length + 1)) = none := by
  rw [New_eq_cursor, Option.some_bind, coverage,
    NextToken_whitespace_maxInt maxInt input hlen hw]

/-- A run of whitespace as long as `maxInt`, put between two empty strings, has no token
sequence. -/
theorem tokens_whitespace_maxInt (maxInt : Nat) (w : List Nat)
    (hlen : w.length = maxInt) (hw : ∀ b ∈ w, isWhitespace b = true) :
    tokens maxInt ([] ++ w ++ []) = none := by
  rw [List.nil_append, List.append_nil, tokens, New_eq_cursor]
  simp only []
  rw [tokensFrom, NextToken_whitespace_maxInt maxInt w hlen hw]

theorem nthToken_whitespace_maxInt (maxInt : Nat) (w : List Nat)
    (hlen : w.length = maxInt) (hw : ∀ b ∈ w, isWhitespace b = true) :
    nthToken maxInt w 0 = none := by
  rw [nthToken, reach, New_eq_cursor]
  simp only [stateAfter]
  rw [NextToken_whitespace_maxInt maxInt w hlen hw]
  rfl

theorem isWhitespace_of_mem_replicate {n b : Nat} (hb : b ∈ List.replicate n ' '.toNat) :
    isWhitespace b = true := by
  rw [List.eq_of_mem_replicate hb]
  decide

theorem ne_zero_of_mem_replicate {n c b : Nat} (hc : c ≠ 0) (hb : b ∈ List.replicate n c) :
    b ≠ 0 := by
  rw [List.eq_of_mem_replicate hb]
  exact hc


end lexer
/-! ## The claims -/

open token lexer

/-- C1, as stated, fails, in three ways.  On the two-byte input NUL, `a` the first call of
`NextToken` returns `EOF` and the second call returns the identifier `a`.  On the empty
input, with a 32-bit `int`, the calls number 1 to `2^31 - 1` return `EOF`, each moving the
cursor one step; the state then has `pos` at the largest `int` and `readPos` wrapped around
to the least, and call number `2^31` panics at `input[readPos]`.  And on an input of
`2^31 - 1` spaces no call returns `EOF`: the first call skips to the end and panics. -/
theorem C1_counterexample :
    (nthToken maxInt64 [0, 'a'.toNat] 0 = some ⟨EOF, []⟩
      ∧ nthToken maxInt64 [0, 'a'.toNat] 1 = some ⟨IDENT, str "a"⟩
      ∧ ¬ ((∃ n, returnsEOF maxInt64 [0, 'a'.toNat] n)
          ∧ ∀ n, returnsEOF maxInt64 [0, 'a'.toNat] n →
              ∀ m, n ≤ m → returnsEOF maxInt64 [0, 'a'.toNat] m))
    ∧ (nthToken maxInt32 [] 0 = some ⟨EOF, []⟩
      ∧ reach maxInt32 [] maxInt32
          = some { input := [], pos := 2147483647, readPos := -2147483648, ch := 0 }
      ∧ nthToken maxInt32 [] maxInt32 = none
      ∧ ¬ ((∃ n, returnsEOF maxInt32 [] n)
          ∧ ∀ n, returnsEOF maxInt32 [] n → ∀ m, n ≤ m → returnsEOF maxInt32 [] m))
    ∧ (nthToken maxInt32 (List.replicate maxInt32 ' '.toNat) 0 = none
      ∧ ¬ ∃ n, returnsEOF maxInt32 (List.replicate maxInt32 ' '.toNat) n) := by
  have h0 : nthToken maxInt32 [] 0 = some ⟨EOF, []⟩ := by
    rw [nthToken_nil, if_pos (by decide)]
  have hM : nthToken maxInt32 [] maxInt32 = none := by
    rw [nthToken_nil, if_neg (Nat.lt_irrefl _)]
  refine ⟨⟨by decide, by decide, ?_⟩, ⟨h0, ?_, hM, ?_⟩, ?_, ?_⟩
  · rintro ⟨_, h⟩
    exact absurd (h 0 (by decide) 1 (by decide)) (by decide)
  · rw [reach_nil, if_pos (Nat.le_refl _)]
    decide
  · rintro ⟨_, h⟩
    have h1 : returnsEOF maxInt32 [] 0 := by rw [returnsEOF, h0]; rfl
    have h2 := h 0 h1 maxInt32 (Nat.zero_le _)
    rw [returnsEOF, hM] at h2
    exact Option.noConfusion h2
  · exact nthToken_whitespace_maxInt maxInt32 _ (List.length_replicate _ _)
      (fun b hb => isWhitespace_of_mem_replicate hb)
  · rintro ⟨n, hn⟩
    exact not_returnsEOF_of_length_eq maxInt32 _ (List.length_replicate _ _)
      (fun b hb => ne_zero_of_mem_replicate (by decide) hb) n hn

/-- C1, amended: for every input shorter than the largest `int`, some call of `NextToken`
on `New input`, no later than call number `len(input) + 1`, returns an `EOF` token; and
when every byte of the input that follows a NUL byte is a NUL byte or whitespace (so when
the input holds no NUL byte, or ends with its only one), every call made after an
`EOF`-returning call, from a state whose `pos` is below the largest `int`, also returns an
`EOF` token.  The state after `m` calls is such a state at least while `len(input) + m` is
below the largest `int`. -/
theorem C1_eof_reached_and_kept (maxInt : Nat) (input : List Nat)
    (hlt : input.length < maxInt) :
    (∃ n, n ≤ input.length ∧ returnsEOF maxInt input n)
    ∧ ((∀ i j : Nat, i < j → input[i]? = some 0 →
          ∀ b, input[j]? = some b → b = 0 ∨ isWhitespace b = true) →
        ∀ n, returnsEOF maxInt input n → ∀ m, n ≤ m →
          ∀ l, reach maxInt input m = some l → l.pos < maxInt → returnsEOF maxInt input m)
    ∧ (∀ m, input.length + m < maxInt →
        ∃ l, reach maxInt input m = some l ∧ l.pos < maxInt) := by
  refine ⟨?_, ?_, fun m hm => reach_lt_of_add_lt maxInt input m hm⟩
  · obtain ⟨n, hn, he, _⟩ := first_returnsEOF maxInt input hlt
    exact ⟨n, hn, he⟩
  · intro hz n hn m hnm l hl hpos
    exact returnsEOF_of_reach_lt hlt hl hpos
      (lexStep_eof_kept input hz n m (lexStep_eof_of_returnsEOF (Nat.le_of_lt hlt) hn) hnm)

/-- Witness of C1: on `a b`, which has no NUL byte, the third call returns `EOF` and so
does the sixth; on `a` followed by a NUL byte the second call returns `EOF` and so does the
fifth. -/
theorem C1_eof_reached_and_kept_witness :
    (str "a b").length < maxInt64
    ∧ returnsEOF maxInt64 (str "a b") 2 ∧ returnsEOF maxInt64 (str "a b") 5
    ∧ returnsEOF maxInt32 ['a'.toNat, 0] 1 ∧ returnsEOF maxInt32 ['a'.toNat, 0] 4 :=
  ⟨by decide, by decide,
    (C1_eof_reached_and_kept maxInt64 (str "a b") (by decide)).2.1
      (fun i j hij hi b hb => by
        have hi2 : i < 3 := (List.getElem?_eq_some.mp hi).1
        interval_cases i <;> exact absurd hi (by decide))
      2 (by decide) 5 (by decide) (cursor maxInt64 (str "a b") 6) (by decide) (by decide),
    by decide,
    (C1_eof_reached_and_kept maxInt32 ['a'.toNat, 0] (by decide)).2.1
      (fun i j hij hi b hb => by
        have hj2 : j < 2 := (List.getElem?_eq_some.mp hb).1
        have hi0 : i = 0 := by omega
        subst hi0
        exact absurd hi (by decide))
      1 (by decide) 4 (by decide) (cursor maxInt32 ['a'.toNat, 0] 4) (by decide) (by decide)⟩

/-- C2 (invariant I1): in the state returned by `New input` (`n = 0`) and in the state after
every further call of `NextToken`, `pos` is an index from 0 to the largest `int`, `ch` is
`input[pos]` when `pos < len(input)` and 0 otherwise, and `readPos` is `pos + 1` as Go
computes it: `pos + 1` while `pos` is below the largest `int`, and the least `int` at the
largest.  The state after `n` calls exists at least while `len(input) + n` is an `int`. -/
theorem C2_invariant_I1 (maxInt : Nat) (input : List Nat) (n : Nat)
    (hlen : input.length ≤ maxInt) :
    (∀ l, reach maxInt input n = some l →
      l.input = input ∧ 0 ≤ l.pos ∧ l.pos ≤ maxInt
      ∧ l.ch = (if h : l.pos.toNat < input.length then input[l.pos.toNat] else 0)
      ∧ l.readPos = incr maxInt l.pos
      ∧ (l.pos < maxInt → l.readPos = l.pos + 1))
    ∧ (input.length + n ≤ maxInt → ∃ l, reach maxInt input n = some l) := by
  constructor
  · intro l hl
    obtain ⟨hcur, hle⟩ := cursor_of_reach hlen hl
    subst hcur
    refine ⟨rfl, ?_, ?_, ?_, rfl, ?_⟩
    · show (0 : Int) ≤ ((offsetAfter n input : Nat) : Int)
      omega
    · show ((offsetAfter n input : Nat) : Int) ≤ (maxInt : Int)
      omega
    · show byteAt input (offsetAfter n input)
        = if h : ((offsetAfter n input : Nat) : Int).toNat < input.length
          then input[((offsetAfter n input : Nat) : Int).toNat] else 0
      simp only [Int.toNat_ofNat]
      rfl
    · intro h
      have h2 : offsetAfter n input < maxInt := by
        have : ((offsetAfter n input : Nat) : Int) < (maxInt : Int) := h
        omega
      show incr maxInt ((offsetAfter n input : Nat) : Int)
        = ((offsetAfter n input : Nat) : Int) + 1
      rw [incr_of_lt h2]
      omega
  · intro h
    have := offsetAfter_le n input
    exact ⟨_, reach_of_le maxInt input hlen n (by omega)⟩

/-- Witness of C2: after one call on `let x` the cursor rests on the space at index 3, with
`readPos` at 4. -/
theorem C2_invariant_I1_witness :
    reach maxInt64 (str "let x") 1
      = some { input := str "let x", pos := 3, readPos := 4, ch := ' '.toNat }
    ∧ (3 : Int) < maxInt64 ∧ (4 : Int) = 3 + 1 ∧ (str "let x").length + 1 ≤ maxInt64 :=
  have h := (C2_invariant_I1 maxInt64 (str "let x") 1 (by decide)).1
    { input := str "let x", pos := 3, readPos := 4, ch := ' '.toNat } (by decide)
  ⟨by decide, by decide, h.2.2.2.2.2 (by decide), by decide⟩

/-- C5 (P3, keyword isolation): `LookupIdent` maps exactly the seven keyword spellings to
their kinds and every other string to `IDENT`, the empty string and `Let` included. -/
theorem C5_LookupIdent_keywords :
    (∀ s : List Nat, LookupIdent s =
      if s = str "fn" then FUNCTION
      else if s = str "let" then LET
      else if s = str "true" then TRUE
      else if s = str "false" then FALSE
      else if s = str "if" then IF
      else if s = str "else" then ELSE
      else if s = str "return" then RETURN
      else IDENT)
    ∧ LookupIdent (str "") = IDENT ∧ LookupIdent (str "Let") = IDENT
    ∧ LookupIdent (str "fn") = FUNCTION ∧ LookupIdent (str "let") = LET
    ∧ LookupIdent (str "true") = TRUE ∧ LookupIdent (str "false") = FALSE
    ∧ LookupIdent (str "if") = IF ∧ LookupIdent (str "else") = ELSE
    ∧ LookupIdent (str "return") = RETURN :=
  ⟨LookupIdent_eq, by decide, by decide, by decide, by decide, by decide, by decide, by decide,
    by decide, by decide⟩

/-- C6 (P4, maximal munch on letters): from a reachable state whose first byte that is not
whitespace is at index `i` and is an identifier byte, `NextToken` returns
`(LookupIdent s, s)` for `s` the longest run of identifier bytes starting at `i`: `s` is
made of identifier bytes, the byte after it, if any, is not one, and the cursor rests
there.  The input is any Go string: its length is an `int`. -/
theorem C6_maximal_munch_letters (maxInt : Nat) (input : List Nat) (k : Nat) (l : Lexer)
    (i c : Nat) (hlen : input.length ≤ maxInt)
    (hl : reach maxInt input k = some l) (hf : FirstNonWs input l.pos i c)
    (hc : isLetter c = true) :
    ∃ l1, l.NextToken maxInt
        = some (⟨LookupIdent ((input.drop i).takeWhile isLetter),
            (input.drop i).takeWhile isLetter⟩, l1)
      ∧ l1.pos = i + ((input.drop i).takeWhile isLetter).length
      ∧ (∀ b ∈ (input.drop i).takeWhile isLetter, isLetter b = true)
      ∧ (∀ b, input[i + ((input.drop i).takeWhile isLetter).length]? = some b →
          isLetter b = false) := by
  obtain ⟨hn, hd, _⟩ := NextToken_of_FirstNonWs hlen hl hf
  rw [scanToken_letter (c :: input.drop (i + 1)) hc, ← hd] at hn
  refine ⟨_, hn, Nat.cast_add _ _, mem_run _ _, ?_⟩
  intro b hb
  rw [← List.getElem?_drop] at hb
  exact not_cond_after_run isLetter _ b hb

/-- Witness of C6: in ` let x` the first call skips the space and returns `(LET, "let")`,
leaving the cursor on index 4. -/
theorem C6_maximal_munch_letters_witness :
    ∃ l1, (cursor maxInt64 (str " let x") 0).NextToken maxInt64
        = some (⟨LET, str "let"⟩, l1)
      ∧ l1.pos = 4
      ∧ (∀ b ∈ str "let", isLetter b = true)
      ∧ (∀ b, (str " let x")[4]? = some b → isLetter b = false) :=
  C6_maximal_munch_letters maxInt64 (str " let x") 0 (cursor maxInt64 (str " let x") 0) 1
    'l'.toNat (by decide) (by decide)
    ⟨by decide, by decide, by decide,
      fun j h1 h2 => by interval_cases j; decide⟩ (by decide)

/-- C7 (P5, maximal munch on digits): from a reachable state whose first byte that is not
whitespace is at index `i` and is a decimal digit, `NextToken` returns `(INT, d)` for `d`
the longest run of digits starting at `i`, kept as it is written; `0123` is the single
token `(INT, "0123")`, with an `int` of 32 bits or more. -/
theorem C7_maximal_munch_digits (maxInt : Nat) (input : List Nat) (k : Nat) (l : Lexer)
    (i c : Nat) (hlen : input.length ≤ maxInt)
    (hl : reach maxInt input k = some l) (hf : FirstNonWs input l.pos i c)
    (hc : isDigit c = true) :
    (∃ l1, l.NextToken maxInt = some (⟨INT, (input.drop i).takeWhile isDigit⟩, l1)
      ∧ l1.pos = i + ((input.drop i).takeWhile isDigit).length
      ∧ (∀ b ∈ (input.drop i).takeWhile isDigit, isDigit b = true)
      ∧ (∀ b, input[i + ((input.drop i).takeWhile isDigit).length]? = some b →
          isDigit b = false))
    ∧ (maxInt32 ≤ maxInt →
        tokens maxInt (str "0123") = some [⟨INT, str "0123"⟩, ⟨EOF, []⟩]) := by
  obtain ⟨hn, hd, _⟩ := NextToken_of_FirstNonWs hlen hl hf
  rw [scanToken_digit (c :: input.drop (i + 1)) hc, ← hd] at hn
  refine ⟨⟨_, hn, Nat.cast_add _ _, mem_run _ _, ?_⟩, ?_⟩
  · intro b hb
    rw [← List.getElem?_drop] at hb
    exact not_cond_after_run isDigit _ b hb
  · intro hmax
    have h4 : (str "0123").length < maxInt :=
      Nat.lt_of_lt_of_le (by decide : (str "0123").length < maxInt32) hmax
    rw [tokens_eq_lexAll maxInt _ h4]
    decide

/-- Witness of C7: in `x 0123;` the second call returns `(INT, "0123")` and leaves the
cursor on index 6. -/
theorem C7_maximal_munch_digits_witness :
    (∃ l1, (cursor maxInt64 (str "x 0123;") 1).NextToken maxInt64
        = some (⟨INT, str "0123"⟩, l1)
      ∧ l1.pos = 6
      ∧ (∀ b ∈ str "0123", isDigit b = true)
      ∧ (∀ b, (str "x 0123;")[6]? = some b → isDigit b = false))
    ∧ (maxInt32 ≤ maxInt64 →
        tokens maxInt64 (str "0123") = some [⟨INT, str "0123"⟩, ⟨EOF, []⟩]) :=
  C7_maximal_munch_digits maxInt64 (str "x 0123;") 1 (cursor maxInt64 (str "x 0123;") 1) 2
    '0'.toNat (by decide) (by decide)
    ⟨by decide, by decide, by decide,
      fun j h1 h2 => by
        have h3 : ((1 : Nat) : Int) ≤ (j : Int) := h1
        have hj : j = 1 := by omega
        subst hj; decide⟩ (by decide)

/-- C8 (P6, two-character operators): from a reachable state whose first byte that is not
whitespace is `=` (respectively `!`) at index `i`, with `=` as the byte at `i + 1`,
`NextToken` returns the single token `(EQ, "==")` (respectively `(NEQ, "!=")`) and leaves
the cursor at `i + 2`, past both bytes. -/
theorem C8_two_char_operators (maxInt : Nat) (input : List Nat) (k : Nat) (l : Lexer)
    (i c : Nat) (hlen : input.length ≤ maxInt)
    (hl : reach maxInt input k = some l) (hf : FirstNonWs input l.pos i c)
    (hnext : input[i + 1]? = some '='.toNat) :
    (c = '='.toNat →
      ∃ l1, l.NextToken maxInt = some (⟨EQ, str "=="⟩, l1) ∧ l1.pos = i + 2)
    ∧ (c = '!'.toNat →
      ∃ l1, l.NextToken maxInt = some (⟨NEQ, str "!="⟩, l1) ∧ l1.pos = i + 2) := by
  obtain ⟨hn, hd, _⟩ := NextToken_of_FirstNonWs hlen hl hf
  have h2 := tail_headD_of_next (c := c) hnext
  constructor
  · intro hc
    rw [scanToken_two (c :: input.drop (i + 1)) ('='.toNat, EQ) (by simp [twoByteTokens]) hc h2]
      at hn
    exact ⟨_, hn, Nat.cast_add _ _⟩
  · intro hc
    rw [scanToken_two (c :: input.drop (i + 1)) ('!'.toNat, NEQ) (by simp [twoByteTokens]) hc h2]
      at hn
    exact ⟨_, hn, Nat.cast_add _ _⟩

/-- Witness of C8: in `a == b` the second call returns `(EQ, "==")` and leaves the cursor on
index 4; in `!=` the first call returns `(NEQ, "!=")` and leaves the cursor on index 2. -/
theorem C8_two_char_operators_witness :
    (∃ l1, (cursor maxInt64 (str "a == b") 1).NextToken maxInt64
        = some (⟨EQ, str "=="⟩, l1) ∧ l1.pos = ((2 : Nat) : Int) + 2)
    ∧ (∃ l1, (cursor maxInt32 (str "!=") 0).NextToken maxInt32
        = some (⟨NEQ, str "!="⟩, l1) ∧ l1.pos = ((0 : Nat) : Int) + 2) :=
  ⟨(C8_two_char_operators maxInt64 (str "a == b") 1 (cursor maxInt64 (str "a == b") 1) 2
      '='.toNat (by decide) (by decide)
      ⟨by decide, by decide, by decide,
        fun j h1 h2 => by
          have h3 : ((1 : Nat) : Int) ≤ (j : Int) := h1
          have hj : j = 1 := by omega
          subst hj; decide⟩ (by decide)).1 rfl,
    (C8_two_char_operators maxInt32 (str "!=") 0 (cursor maxInt32 (str "!=") 0) 0 '!'.toNat
      (by decide) (by decide)
      ⟨by decide, by decide, by decide, fun j h1 h2 => absurd h2 (Nat.not_lt_zero j)⟩
      (by decide)).2 rfl⟩

/-- C10 (single-byte tokens): from a reachable state whose first byte `c` that is not
whitespace is at index `i`: when `c` is one of the twelve bytes listed, `NextToken` returns
the kind listed with the one-byte literal `c` and leaves the cursor at `i + 1`; when `c` is
`=` or `!` and the byte at `i + 1` is not `=` (or there is none), it returns `(ASSIGN, "=")`
or `(BANG, "!")`, which is not `ILLEGAL`, and leaves the cursor at `i + 1`. -/
theorem C10_single_byte_tokens (maxInt : Nat) (input : List Nat) (k : Nat) (l : Lexer)
    (i c : Nat) (hlen : input.length ≤ maxInt)
    (hl : reach maxInt input k = some l) (hf : FirstNonWs input l.pos i c) :
    (∀ kind, (c, kind) ∈
        [ (';'.toNat, SEMICOLON), ('('.toNat, LPAREN), (')'.toNat, RPAREN),
          (','.toNat, COMMA), ('+'.toNat, PLUS), ('-'.toNat, MINUS), ('/'.toNat, SLASH),
          ('*'.toNat, STAR), ('<'.toNat, LT), ('>'.toNat, GT), ('{'.toNat, LBRACE),
          ('}'.toNat, RBRACE) ] →
      ∃ l1, l.NextToken maxInt = some (⟨kind, [c]⟩, l1) ∧ l1.pos = i + 1)
    ∧ (input[i + 1]? ≠ some '='.toNat →
        (c = '='.toNat →
          ∃ l1, l.NextToken maxInt = some (⟨ASSIGN, str "="⟩, l1) ∧ l1.pos = i + 1)
        ∧ (c = '!'.toNat →
          ∃ l1, l.NextToken maxInt = some (⟨BANG, str "!"⟩, l1) ∧ l1.pos = i + 1))
    ∧ ASSIGN ≠ ILLEGAL ∧ BANG ≠ ILLEGAL := by
  obtain ⟨hn, hd, _⟩ := NextToken_of_FirstNonWs hlen hl hf
  refine ⟨?_, ?_, by decide, by decide⟩
  · intro kind hm
    have key : ∀ p ∈
        [ (';'.toNat, SEMICOLON), ('('.toNat, LPAREN), (')'.toNat, RPAREN),
          (','.toNat, COMMA), ('+'.toNat, PLUS), ('-'.toNat, MINUS), ('/'.toNat, SLASH),
          ('*'.toNat, STAR), ('<'.toNat, LT), ('>'.toNat, GT), ('{'.toNat, LBRACE),
          ('}'.toNat, RBRACE) ],
        p ∈ oneByteTokens ∧ ¬ (p.1 = '='.toNat ∨ p.1 = '!'.toNat) := by decide
    rw [scanToken_one (c :: input.drop (i + 1)) (c, kind) (key _ hm).1 rfl
      (fun h => absurd h (key _ hm).2)] at hn
    exact ⟨_, hn, Nat.cast_add _ _⟩
  · intro hnext
    have h2 := tail_headD_ne_of_next (c := c) (by decide) hnext
    constructor
    · intro hc
      rw [scanToken_one (c :: input.drop (i + 1)) ('='.toNat, ASSIGN) (by simp [oneByteTokens]) hc
        (fun _ => h2)] at hn
      exact ⟨_, hn, Nat.cast_add _ _⟩
    · intro hc
      rw [scanToken_one (c :: input.drop (i + 1)) ('!'.toNat, BANG) (by simp [oneByteTokens]) hc
        (fun _ => h2)] at hn
      exact ⟨_, hn, Nat.cast_add _ _⟩

/-- Witness of C10: `(x)` starts with `(LPAREN, "(")`, `= 1` with `(ASSIGN, "=")`, and the
one-byte input `!` with `(BANG, "!")`; each call leaves the cursor on index 1. -/
theorem C10_single_byte_tokens_witness :
    (∃ l1, (cursor maxInt64 (str "(x)") 0).NextToken maxInt64
        = some (⟨LPAREN, str "("⟩, l1) ∧ l1.pos = ((0 : Nat) : Int) + 1)
    ∧ (∃ l1, (cursor maxInt64 (str "= 1") 0).NextToken maxInt64
        = some (⟨ASSIGN, str "="⟩, l1) ∧ l1.pos = ((0 : Nat) : Int) + 1)
    ∧ (∃ l1, (cursor maxInt32 (str "!") 0).NextToken maxInt32
        = some (⟨BANG, str "!"⟩, l1) ∧ l1.pos = ((0 : Nat) : Int) + 1) :=
  ⟨(C10_single_byte_tokens maxInt64 (str "(x)") 0 (cursor maxInt64 (str "(x)") 0) 0 '('.toNat
      (by decide) (by decide)
      ⟨by decide, by decide, by decide, fun j h1 h2 => absurd h2 (Nat.not_lt_zero j)⟩).1
      LPAREN (by decide),
    ((C10_single_byte_tokens maxInt64 (str "= 1") 0 (cursor maxInt64 (str "= 1") 0) 0 '='.toNat
      (by decide) (by decide)
      ⟨by decide, by decide, by decide, fun j h1 h2 => absurd h2 (Nat.not_lt_zero j)⟩).2.1
      (by decide)).1 rfl,
    ((C10_single_byte_tokens maxInt32 (str "!") 0 (cursor maxInt32 (str "!") 0) 0 '!'.toNat
      (by decide) (by decide)
      ⟨by decide, by decide, by decide, fun j h1 h2 => absurd h2 (Nat.not_lt_zero j)⟩).2.1
      (by decide)).2 rfl⟩

/-- C4, as stated, fails: on the one-byte input 0x80 the first call returns an `ILLEGAL`
token whose literal is the two bytes 0xC2 0x80 (Go's `string(ch)` of the byte 0x80), while
the source slice `input[0:1]` is the one byte 0x80. -/
theorem C4_counterexample :
    reach maxInt64 [0x80] 0 = some (cursor maxInt64 [0x80] 0)
    ∧ (cursor maxInt64 [0x80] 0).NextToken maxInt64
        = some (⟨ILLEGAL, [0xC2, 0x80]⟩, cursor maxInt64 [0x80] 1)
    ∧ FirstNonWs [0x80] (cursor maxInt64 [0x80] 0).pos 0 0x80
    ∧ slice [0x80] 0 (cursor maxInt64 [0x80] 1).pos = some [0x80]
    ∧ ¬ (∀ (input : List Nat) (k : Nat) (l : Lexer) (tok : Token) (l1 : Lexer) (p c : Nat),
          input.length ≤ maxInt64 →
          reach maxInt64 input k = some l → l.NextToken maxInt64 = some (tok, l1) →
          tok.Typ ≠ EOF → FirstNonWs input l.pos p c →
          slice input p l1.pos = some tok.Literal) := by
  have hf : FirstNonWs [0x80] (cursor maxInt64 [0x80] 0).pos 0 0x80 :=
    ⟨by decide, by decide, by decide, fun j _ h2 => absurd h2 (Nat.not_lt_zero j)⟩
  refine ⟨by decide, by decide, hf, by decide, ?_⟩
  intro h
  have h1 := h [0x80] 0 (cursor maxInt64 [0x80] 0) ⟨ILLEGAL, [0xC2, 0x80]⟩
    (cursor maxInt64 [0x80] 1) 0 0x80 (by decide) (by decide) (by decide) (by decide) hf
  exact absurd h1 (by decide)

/-- C4, amended: from a reachable state, when `NextToken` returns a token that is not
`EOF`, with `p` the first index at or after the cursor whose byte `c` is not whitespace and
`pos'` the cursor after the call: `p < pos' ≤ len(input)`; the literal is exactly the source
slice `input[p : pos']` unless the token is an `ILLEGAL` token for a byte from 0x80 on; and
an `ILLEGAL` token leaves the cursor at `p + 1`. -/
theorem C4_literal_is_source_slice (maxInt : Nat) (input : List Nat) (k : Nat) (l : Lexer)
    (tok : Token) (l1 : Lexer) (p c : Nat) (hlen : input.length ≤ maxInt)
    (hl : reach maxInt input k = some l) (hn : l.NextToken maxInt = some (tok, l1))
    (hne : tok.Typ ≠ EOF) (hf : FirstNonWs input l.pos p c) :
    p < l1.pos ∧ l1.pos ≤ input.length
    ∧ ((tok.Typ = ILLEGAL → c < 128) → slice input p l1.pos = some tok.Literal)
    ∧ (tok.Typ = ILLEGAL → l1.pos = p + 1) := by
  obtain ⟨hn2, hd, hb⟩ := NextToken_of_FirstNonWs hlen hl hf
  rw [hn2] at hn
  have hpair := Option.some.inj hn
  have htok : (scanToken (c :: input.drop (p + 1))).1 = tok := congrArg Prod.fst hpair
  have hl1 : cursor maxInt input (p + (scanToken (c :: input.drop (p + 1))).2) = l1 :=
    congrArg Prod.snd hpair
  rw [← htok] at hne ⊢
  rw [← hl1]
  obtain ⟨_, _, hlit, hill⟩ := scanToken_source _ hne
  have hpos := scanToken_pos (c :: input.drop (p + 1))
  refine ⟨?_, ?_, ?_, ?_⟩
  · show (p : Int) < ((p + (scanToken (c :: input.drop (p + 1))).2 : Nat) : Int)
    omega
  · show ((p + (scanToken (c :: input.drop (p + 1))).2 : Nat) : Int) ≤ (input.length : Int)
    omega
  · intro hascii
    show slice input (p : Int) ((p + (scanToken (c :: input.drop (p + 1))).2 : Nat) : Int) = _
    rw [slice_take _ _ _ hb, hlit hascii, hd]
  · intro h
    show ((p + (scanToken (c :: input.drop (p + 1))).2 : Nat) : Int) = (p : Int) + 1
    rw [hill h]
    omega

/-- Witness of C4: in ` == 1` the first call returns `(EQ, "==")`, the slice
`input[1:3]`; in `@` it returns `(ILLEGAL, "@")`, the slice `input[0:1]`. -/
theorem C4_literal_is_source_slice_witness :
    slice (str " == 1") 1 3 = some (str "==") ∧ slice (str "@") 0 1 = some (str "@") :=
  ⟨(C4_literal_is_source_slice maxInt64 (str " == 1") 0 (cursor maxInt64 (str " == 1") 0)
      ⟨EQ, str "=="⟩ (cursor maxInt64 (str " == 1") 3) 1 '='.toNat (by decide) (by decide)
      (by decide) (by decide)
      ⟨by decide, by decide, by decide,
        fun j h1 h2 => by interval_cases j; decide⟩).2.2.1 (fun _ => by decide),
    (C4_literal_is_source_slice maxInt32 (str "@") 0 (cursor maxInt32 (str "@") 0)
      ⟨ILLEGAL, str "@"⟩ (cursor maxInt32 (str "@") 1) 0 '@'.toNat (by decide) (by decide)
      (by decide) (by decide)
      ⟨by decide, by decide, by decide,
        fun j h1 h2 => absurd h2 (Nat.not_lt_zero j)⟩).2.2.1 (fun _ => by decide)⟩

/-- C3, as stated, fails, in three ways: on the one-byte input NUL the concatenation is
empty, the NUL being taken for the end of the input; on the one-byte input 0x80 it is the
two bytes 0xC2 0x80 of the `ILLEGAL` literal; and on an input of `2^31 - 1` spaces, with a
32-bit `int`, the first call skips to the end, where `readPos` has wrapped around, and
panics, so that there are no tokens to concatenate. -/
theorem C3_counterexample :
    (New maxInt64 [0]).bind (coverage maxInt64 2) = some []
    ∧ (New maxInt64 [0x80]).bind (coverage maxInt64 2) = some [0xC2, 0x80]
    ∧ (New maxInt32 (List.replicate maxInt32 ' '.toNat)).bind
        (coverage maxInt32 ((List.replicate maxInt32 ' '.toNat).length + 1)) = none
    ∧ ¬ (∀ S : List Nat, S.length ≤ maxInt64 →
          (New maxInt64 S).bind (coverage maxInt64 (S.length + 1)) = some S) := by
  refine ⟨by decide, by decide, ?_, ?_⟩
  · exact coverage_whitespace_maxInt maxInt32 _ (List.length_replicate _ _)
      (fun b hb => isWhitespace_of_mem_replicate hb)
  · intro h
    exact absurd (h [0] (by decide)) (by decide)

/-- C3 (P2, coverage), amended: for every input `S` shorter than the largest `int` whose
bytes are all below 0x80, the concatenation, over the calls up to the first `EOF`, of the
whitespace skipped before each token and the token's literal is the part of `S` before its
first NUL byte; it is exactly `S` when `S` holds no NUL byte. -/
theorem C3_coverage_ascii (maxInt : Nat) (S : List Nat) (hlt : S.length < maxInt)
    (hascii : ∀ b ∈ S, b < 128) :
    (New maxInt S).bind (coverage maxInt (S.length + 1)) = some (beforeNul S)
    ∧ ((∀ b ∈ S, b ≠ 0) →
        (New maxInt S).bind (coverage maxInt (S.length + 1)) = some S) := by
  have h := coverage_cursor maxInt S hlt hascii (S.length + 1) 0 (Nat.zero_le _) (by omega)
  rw [List.drop_zero] at h
  rw [New_eq_cursor, Option.some_bind]
  refine ⟨h, fun hnz => ?_⟩
  rw [h, beforeNul_of_nonzero hnz]

/-- Witness of C3: the input `let x = 5;` followed by a newline, all ASCII and free of NUL,
is reproduced byte for byte. -/
theorem C3_coverage_ascii_witness :
    (New maxInt32 (str "let x = 5;\n")).bind
        (coverage maxInt32 ((str "let x = 5;\n").length + 1))
      = some (str "let x = 5;\n") :=
  (C3_coverage_ascii maxInt32 (str "let x = 5;\n") (by decide) (by decide)).2 (by decide)

/-- C9, as stated, fails on an input as long as the largest `int`: with a 32-bit `int`,
the empty input yields `(EOF, "")`, and with `2^31 - 1` spaces inserted at offset 0 the
first call skips to the end, where `pos` is the largest `int` and `readPos` has wrapped
around, and panics at `input[readPos]` without returning a token. -/
theorem C9_counterexample :
    (∀ c ∈ List.replicate maxInt32 ' '.toNat, isWhitespace c = true)
    ∧ (List.replicate maxInt32 ' '.toNat).length = maxInt32
    ∧ reach maxInt32 ([] ++ []) 0 = some (cursor maxInt32 [] 0)
    ∧ (cursor maxInt32 [] 0).pos = (([] : List Nat).length : Int)
    ∧ tokens maxInt32 ([] ++ []) = some [⟨EOF, []⟩]
    ∧ tokens maxInt32 ([] ++ List.replicate maxInt32 ' '.toNat ++ []) = none
    ∧ ¬ (∀ a b w : List Nat, (a ++ w ++ b).length ≤ maxInt32 →
          (∀ c ∈ w, isWhitespace c = true) →
          (∃ k l, reach maxInt32 (a ++ b) k = some l ∧ l.pos = a.length) →
          ∃ ts, tokens maxInt32 (a ++ w ++ b) = some ts
            ∧ tokens maxInt32 (a ++ b) = some ts) :=
  have hw : ∀ c ∈ List.replicate maxInt32 ' '.toNat, isWhitespace c = true :=
    fun b hb => isWhitespace_of_mem_replicate hb
  have hlen : (List.replicate maxInt32 ' '.toNat).length = maxInt32 :=
    List.length_replicate _ _
  have hnone : tokens maxInt32 ([] ++ List.replicate maxInt32 ' '.toNat ++ []) = none :=
    tokens_whitespace_maxInt maxInt32 _ hlen hw
  ⟨hw, hlen, by decide, by decide, by decide, hnone, fun h =>
    Exists.elim
      (h [] [] (List.replicate maxInt32 ' '.toNat)
        (Nat.le_of_eq (by rw [List.nil_append, List.append_nil]; exact hlen)) hw
        ⟨0, cursor maxInt32 [] 0, by decide, by decide⟩)
      (fun ts hts => Option.noConfusion (hnone.symm.trans hts.1))⟩

/-- C9 (P7, whitespace transparency), amended: when the input with the whitespace inserted
is shorter than the largest `int`, and lexing `a ++ b` leaves the cursor at offset `len(a)`
after some number of calls of `NextToken` (none, when `a` is empty), inserting there any
run `w` of spaces, tabs, newlines and carriage returns leaves the token sequence, up to and
including the first `EOF`, as it is. -/
theorem C9_whitespace_transparency (maxInt : Nat) (a b w : List Nat)
    (hlt : (a ++ w ++ b).length < maxInt)
    (hw : ∀ c ∈ w, isWhitespace c = true)
    (hb : ∃ k l, reach maxInt (a ++ b) k = some l ∧ l.pos = a.length) :
    ∃ ts, tokens maxInt (a ++ w ++ b) = some ts ∧ tokens maxInt (a ++ b) = some ts := by
  obtain ⟨k, l, hl, hpos⟩ := hb
  have hlt2 : (a ++ b).length < maxInt := by
    simp only [List.length_append] at hlt ⊢
    omega
  obtain ⟨hcur, _⟩ := cursor_of_reach (Nat.le_of_lt hlt2) hl
  subst hcur
  have hoff : offsetAfter k (a ++ b) = a.length := by
    have : ((offsetAfter k (a ++ b) : Nat) : Int) = (a.length : Int) := hpos
    omega
  obtain ⟨ts, hts⟩ := lexAll_total (a ++ b)
  refine ⟨ts, ?_, ?_⟩
  · rw [tokens_eq_lexAll maxInt _ hlt, List.append_assoc, lexAll_insert_ws w hw k a b hoff,
      hts]
  · rw [tokens_eq_lexAll maxInt _ hlt2, hts]

/-- Witness of C9: lexing `x=1;` leaves the cursor at offset 2 after two calls, and
`x=` followed by space, tab, newline, carriage return and `1;` has the same tokens. -/
theorem C9_whitespace_transparency_witness :
    ∃ ts, tokens maxInt64 (str "x=" ++ str " \t\n\r" ++ str "1;") = some ts
      ∧ tokens maxInt64 (str "x=" ++ str "1;") = some ts :=
  C9_whitespace_transparency maxInt64 (str "x=") (str "1;") (str " \t\n\r") (by decide)
    (by decide) ⟨2, cursor maxInt64 (str "x=1;") 2, by decide, by decide⟩

/-- C13, as stated, fails: with a 32-bit `int`, on the empty input, the state after
`2^31 - 1` calls is reachable and has its cursor past the end, with `pos` the largest `int`
and `readPos` wrapped around to the least; from it `NextToken` panics at `input[readPos]`,
so call number `2^31` returns no token. -/
theorem C13_counterexample :
    reach maxInt32 [] maxInt32 = some (cursor maxInt32 [] maxInt32)
    ∧ (([] : List Nat).length : Int) ≤ (cursor maxInt32 [] maxInt32).pos
    ∧ (cursor maxInt32 [] maxInt32).pos = 2147483647
    ∧ (cursor maxInt32 [] maxInt32).readPos = -2147483648
    ∧ (cursor maxInt32 [] maxInt32).NextToken maxInt32 = none
    ∧ nthToken maxInt32 [] maxInt32 = none
    ∧ ¬ (∀ n, nthToken maxInt32 [] n = some ⟨EOF, []⟩)
    ∧ ¬ (∀ (input : List Nat) (k : Nat) (l : Lexer), input.length ≤ maxInt32 →
          reach maxInt32 input k = some l → (input.length : Int) ≤ l.pos →
          ∃ l1, l.NextToken maxInt32 = some (⟨EOF, []⟩, l1)
            ∧ (input.length : Int) ≤ l1.pos) := by
  have hr : reach maxInt32 [] maxInt32 = some (cursor maxInt32 [] maxInt32) := by
    rw [reach_nil, if_pos (Nat.le_refl _)]
  have hM : nthToken maxInt32 [] maxInt32 = none := by
    rw [nthToken_nil, if_neg (Nat.lt_irrefl _)]
  have hnone : (cursor maxInt32 [] maxInt32).NextToken maxInt32 = none := by decide
  refine ⟨hr, by decide, by decide, by decide, hnone, hM, ?_, ?_⟩
  · intro h
    have h2 := h maxInt32
    rw [hM] at h2
    exact Option.noConfusion h2
  · intro h
    obtain ⟨l1, h1, _⟩ := h [] maxInt32 _ (by decide) hr (by decide)
    rw [hnone] at h1
    exact Option.noConfusion h1

/-- C13 (EOF once the input is exhausted), amended: from a reachable state whose cursor is
at or past the end of the input and below the largest `int`, `NextToken` returns exactly
`(EOF, "")` and moves the cursor one step, leaving it past the end; on the empty input
every call up to call number `maxInt` returns `(EOF, "")`. -/
theorem C13_eof_at_end (maxInt : Nat) (input : List Nat) (k : Nat) (l : Lexer)
    (hl : reach maxInt input k = some l) (hend : (input.length : Int) ≤ l.pos)
    (hmax : l.pos < maxInt) :
    (∃ l1, l.NextToken maxInt = some (⟨EOF, []⟩, l1) ∧ l1.pos = l.pos + 1
      ∧ (input.length : Int) ≤ l1.pos)
    ∧ (∀ n, n < maxInt → nthToken maxInt [] n = some ⟨EOF, []⟩) := by
  have hlt : input.length < maxInt := by omega
  obtain ⟨hcur, _⟩ := cursor_of_reach (Nat.le_of_lt hlt) hl
  have hn := NextToken_reach_lt hlt hl hmax
  subst hcur
  have hq : input.length ≤ offsetAfter k input := by
    have : (input.length : Int) ≤ ((offsetAfter k input : Nat) : Int) := hend
    omega
  rw [List.drop_eq_nil_of_le hq, lexStep_nil] at hn
  constructor
  · refine ⟨_, hn, Nat.cast_add _ _, ?_⟩
    show (input.length : Int) ≤ ((offsetAfter k input + 1 : Nat) : Int)
    omega
  · intro n hn
    rw [nthToken_nil, if_pos hn]

/-- Witness of C13: after two calls on `a` the cursor is past the end, and the third call
returns `(EOF, "")`. -/
theorem C13_eof_at_end_witness :
    (∃ l1, (cursor maxInt32 (str "a") 2).NextToken maxInt32 = some (⟨EOF, []⟩, l1)
      ∧ l1.pos = (cursor maxInt32 (str "a") 2).pos + 1
      ∧ ((str "a").length : Int) ≤ l1.pos)
    ∧ (∀ n, n < maxInt32 → nthToken maxInt32 [] n = some ⟨EOF, []⟩) :=
  C13_eof_at_end maxInt32 (str "a") 2 (cursor maxInt32 (str "a") 2) (by decide) (by decide)
    (by decide)

/-- C14, as stated, fails: with a 32-bit `int`, on the empty input, the state after
`2^31 - 1` calls of `NextToken` is reachable and has `readPos = -2^31`; there `readChar`
passes its test `readPos >= len(input)` as false and indexes `input[readPos]` below 0, out
of bounds, so `NextToken` panics. -/
theorem C14_counterexample :
    reach maxInt32 [] maxInt32 = some (cursor maxInt32 [] maxInt32)
    ∧ (cursor maxInt32 [] maxInt32).readPos = -2147483648
    ∧ ¬ ((cursor maxInt32 [] maxInt32).readPos ≥ (([] : List Nat).length : Int))
    ∧ index [] (cursor maxInt32 [] maxInt32).readPos = none
    ∧ (cursor maxInt32 [] maxInt32).readChar maxInt32 = none
    ∧ (cursor maxInt32 [] maxInt32).NextToken maxInt32 = none
    ∧ ¬ (∀ (input : List Nat) (k : Nat) (l : Lexer), input.length ≤ maxInt32 →
          reach maxInt32 input k = some l →
          ∃ tok l1, l.NextToken maxInt32 = some (tok, l1)) := by
  have hr : reach maxInt32 [] maxInt32 = some (cursor maxInt32 [] maxInt32) := by
    rw [reach_nil, if_pos (Nat.le_refl _)]
  have hnone : (cursor maxInt32 [] maxInt32).NextToken maxInt32 = none := by decide
  refine ⟨hr, by decide, by decide, by decide, by decide, hnone, ?_⟩
  intro h
  obtain ⟨tok, l1, h1⟩ := h [] maxInt32 _ (by decide) hr
  rw [hnone] at h1
  exact Option.noConfusion h1

/-- C14 (`NextToken` never fails), amended: on an input shorter than the largest `int`,
every call of `NextToken` from a reachable state whose cursor is below the largest `int`
returns a token, so that every index and slice taken during the call is in bounds:
`skipWhitespace` returns, `peekChar` returns from the state it leaves, and where
`readIdentifier` or `readNumber` is entered, on a letter or a digit, its slice
`input[position:pos]` is taken with `0 ≤ position ≤ pos ≤ len(input)` and is returned.
The state after `k` calls is such a state when `len(input) + k` is below the largest
`int`. -/
theorem C14_NextToken_returns_below_maxInt (maxInt : Nat) (input : List Nat) (k : Nat)
    (l : Lexer) (hlt : input.length < maxInt) (hl : reach maxInt input k = some l)
    (hpos : l.pos < maxInt) :
    (∃ tok l1, l.NextToken maxInt = some (tok, l1))
    ∧ (∃ l0, l.skipWhitespace maxInt = some l0
        ∧ (∃ b, l0.peekChar = some b)
        ∧ (isLetter l0.ch = true →
            ∃ lit l1, l0.readIdentifier maxInt = some (lit, l1)
              ∧ 0 ≤ l0.pos ∧ l0.pos ≤ l1.pos ∧ l1.pos ≤ input.length
              ∧ slice input l0.pos l1.pos = some lit)
        ∧ (isDigit l0.ch = true →
            ∃ lit l1, l0.readNumber maxInt = some (lit, l1)
              ∧ 0 ≤ l0.pos ∧ l0.pos ≤ l1.pos ∧ l1.pos ≤ input.length
              ∧ slice input l0.pos l1.pos = some lit))
    ∧ (∀ j, input.length + j < maxInt →
        ∃ lj, reach maxInt input j = some lj ∧ lj.pos < maxInt) := by
  have hlen : input.length ≤ maxInt := Nat.le_of_lt hlt
  have hn := NextToken_reach_lt hlt hl hpos
  obtain ⟨hcur, _⟩ := cursor_of_reach hlen hl
  subst hcur
  have hq : offsetAfter k input < maxInt := by
    have : ((offsetAfter k input : Nat) : Int) < (maxInt : Int) := hpos
    omega
  have hw := runLen_le isWhitespace (input.drop (offsetAfter k input))
  rw [List.length_drop] at hw
  refine ⟨⟨_, _, hn⟩,
    ⟨_, skipWhitespace_cursor maxInt input _ hlen,
      ⟨_, peekChar_cursor maxInt input _ (by omega)⟩, ?_, ?_⟩, ?_⟩
  · generalize offsetAfter k input + runLen isWhitespace (input.drop (offsetAfter k input)) = p
    intro h
    have hp : p ≤ input.length := le_of_lt (lt_of_cond_byteAt isLetter_zero h)
    have hr := runLen_le isLetter (input.drop p)
    rw [List.length_drop] at hr
    refine ⟨_, _, readIdentifier_cursor maxInt input p hlen hp, ?_, ?_, ?_,
      slice_run isLetter input p hp⟩
    · show (0 : Int) ≤ (p : Int)
      omega
    · show (p : Int) ≤ ((p + runLen isLetter (input.drop p) : Nat) : Int)
      omega
    · show ((p + runLen isLetter (input.drop p) : Nat) : Int) ≤ (input.length : Int)
      omega
  · generalize offsetAfter k input + runLen isWhitespace (input.drop (offsetAfter k input)) = p
    intro h
    have hp : p ≤ input.length := le_of_lt (lt_of_cond_byteAt isDigit_zero h)
    have hr := runLen_le isDigit (input.drop p)
    rw [List.length_drop] at hr
    refine ⟨_, _, readNumber_cursor maxInt input p hlen hp, ?_, ?_, ?_,
      slice_run isDigit input p hp⟩
    · show (0 : Int) ≤ (p : Int)
      omega
    · show (p : Int) ≤ ((p + runLen isDigit (input.drop p) : Nat) : Int)
      omega
    · show ((p + runLen isDigit (input.drop p) : Nat) : Int) ≤ (input.length : Int)
      omega
  · intro j hj
    have hoff := offsetAfter_le j input
    refine ⟨_, reach_of_le maxInt input hlen j (by omega), ?_⟩
    show ((offsetAfter j input : Nat) : Int) < (maxInt : Int)
    omega

/-- Witness of C14: on `ab 12`, from the state after one call, with the cursor on the
space at index 2, `NextToken` returns the number `12`. -/
theorem C14_NextToken_returns_below_maxInt_witness :
    ∃ tok l1, (cursor maxInt32 (str "ab 12") 2).NextToken maxInt32 = some (tok, l1) :=
  (C14_NextToken_returns_below_maxInt maxInt32 (str "ab 12") 1
    (cursor maxInt32 (str "ab 12") 2) (by decide) (by decide) (by decide)).1

/-- C15 (distinct kinds): the 27 token kinds are pairwise distinct `TokenType` values. -/
theorem C15_token_kinds_distinct :
    [ILLEGAL, EOF, IDENT, INT, ASSIGN, PLUS, MINUS, BANG, STAR, SLASH, LT, GT, EQ, NEQ,
      COMMA, SEMICOLON, LPAREN, RPAREN, LBRACE, RBRACE, FUNCTION, LET, TRUE, FALSE, IF, ELSE,
      RETURN].Nodup
    ∧ [ILLEGAL, EOF, IDENT, INT, ASSIGN, PLUS, MINUS, BANG, STAR, SLASH, LT, GT, EQ, NEQ,
      COMMA, SEMICOLON, LPAREN, RPAREN, LBRACE, RBRACE, FUNCTION, LET, TRUE, FALSE, IF, ELSE,
      RETURN].length = 27 := by
  decide

/-- C16 (end-to-end scenario): with an `int` of 32 bits or more, the calls of `NextToken` on
`if (5 < 10) { return true; } else { return false; }` return the seventeen tokens listed
and then `(EOF, "")`, which the next call returns again. -/
theorem C16_scenario_if_else (maxInt : Nat) (hmax : maxInt32 ≤ maxInt) :
    tokens maxInt (str "if (5 < 10) \x7b return true; \x7d else \x7b return false; \x7d")
      = some [⟨IF, str "if"⟩, ⟨LPAREN, str "("⟩, ⟨INT, str "5"⟩, ⟨LT, str "<"⟩,
          ⟨INT, str "10"⟩, ⟨RPAREN, str ")"⟩, ⟨LBRACE, str "\x7b"⟩, ⟨RETURN, str "return"⟩,
          ⟨TRUE, str "true"⟩, ⟨SEMICOLON, str ";"⟩, ⟨RBRACE, str "\x7d"⟩, ⟨ELSE, str "else"⟩,
          ⟨LBRACE, str "\x7b"⟩, ⟨RETURN, str "return"⟩, ⟨FALSE, str "false"⟩,
          ⟨SEMICOLON, str ";"⟩, ⟨RBRACE, str "\x7d"⟩, ⟨EOF, str ""⟩]
    ∧ nthToken maxInt (str "if (5 < 10) \x7b return true; \x7d else \x7b return false; \x7d")
        17 = some ⟨EOF, str ""⟩
    ∧ nthToken maxInt (str "if (5 < 10) \x7b return true; \x7d else \x7b return false; \x7d")
        18 = some ⟨EOF, str ""⟩ := by
  have hlt : (str "if (5 < 10) \x7b return true; \x7d else \x7b return false; \x7d").length
      < maxInt := Nat.lt_of_lt_of_le (by decide) hmax
  have h17 : offsetAfter (17 + 1)
      (str "if (5 < 10) \x7b return true; \x7d else \x7b return false; \x7d") ≤ maxInt :=
    Nat.le_trans (by decide) hmax
  have h18 : offsetAfter (18 + 1)
      (str "if (5 < 10) \x7b return true; \x7d else \x7b return false; \x7d") ≤ maxInt :=
    Nat.le_trans (by decide) hmax
  refine ⟨?_, ?_, ?_⟩
  · rw [tokens_eq_lexAll maxInt _ hlt]
    decide
  · rw [nthToken_eq maxInt _ (Nat.le_of_lt hlt), if_pos h17]
    decide
  · rw [nthToken_eq maxInt _ (Nat.le_of_lt hlt), if_pos h18]
    decide

/-- Witness of C16: the scenario with a 32-bit `int`. -/
theorem C16_scenario_if_else_witness :
    maxInt32 ≤ maxInt32
    ∧ tokens maxInt32 (str "if (5 < 10) \x7b return true; \x7d else \x7b return false; \x7d")
      = some [⟨IF, str "if"⟩, ⟨LPAREN, str "("⟩, ⟨INT, str "5"⟩, ⟨LT, str "<"⟩,
          ⟨INT, str "10"⟩, ⟨RPAREN, str ")"⟩, ⟨LBRACE, str "\x7b"⟩, ⟨RETURN, str "return"⟩,
          ⟨TRUE, str "true"⟩, ⟨SEMICOLON, str ";"⟩, ⟨RBRACE, str "\x7d"⟩, ⟨ELSE, str "else"⟩,
          ⟨LBRACE, str "\x7b"⟩, ⟨RETURN, str "return"⟩, ⟨FALSE, str "false"⟩,
          ⟨SEMICOLON, str ";"⟩, ⟨RBRACE, str "\x7d"⟩, ⟨EOF, str ""⟩] :=
  ⟨Nat.le_refl _, (C16_scenario_if_else maxInt32 (Nat.le_refl _)).1⟩

/-- C19, as stated, fails: `pos` and `readPos` do not keep growing.  With a 32-bit `int`, on
the empty input, call number `2^31 - 1` returns and leaves `pos` at the largest `int` and
`readPos` wrapped around to the least, below its value before the call; and call number
`2^31`, from that state, panics at `input[readPos]` instead of moving `pos` forward.  And
on an input of `2^31 - 1` spaces no `EOF` is returned by call number `len + 1` or any
other: the first call panics. -/
theorem C19_counterexample :
    reach maxInt32 [] (maxInt32 - 1) = some (cursor maxInt32 [] (maxInt32 - 1))
    ∧ (cursor maxInt32 [] (maxInt32 - 1)).NextToken maxInt32
        = some (⟨EOF, []⟩, cursor maxInt32 [] maxInt32)
    ∧ (cursor maxInt32 [] (maxInt32 - 1)).readPos = 2147483647
    ∧ (cursor maxInt32 [] maxInt32).readPos = -2147483648
    ∧ reach maxInt32 [] maxInt32 = some (cursor maxInt32 [] maxInt32)
    ∧ (cursor maxInt32 [] maxInt32).NextToken maxInt32 = none
    ∧ ¬ (∀ (S : List Nat) (k : Nat) (l : Lexer), S.length ≤ maxInt32 →
          reach maxInt32 S k = some l →
          ∃ tok l1, l.NextToken maxInt32 = some (tok, l1) ∧ l.pos + 1 ≤ l1.pos)
    ∧ nthToken maxInt32 (List.replicate maxInt32 ' '.toNat) 0 = none
    ∧ ¬ (∃ n, n ≤ (List.replicate maxInt32 ' '.toNat).length
          ∧ returnsEOF maxInt32 (List.replicate maxInt32 ' '.toNat) n) :=
  have hr1 : reach maxInt32 [] (maxInt32 - 1) = some (cursor maxInt32 [] (maxInt32 - 1)) :=
    (reach_nil maxInt32 (maxInt32 - 1)).trans (if_pos (Nat.sub_le _ _))
  have hr : reach maxInt32 [] maxInt32 = some (cursor maxInt32 [] maxInt32) :=
    (reach_nil maxInt32 maxInt32).trans (if_pos (Nat.le_refl _))
  have hnone : (cursor maxInt32 [] maxInt32).NextToken maxInt32 = none := by decide
  ⟨hr1, by decide, by decide, by decide, hr, hnone,
    fun h => Exists.elim (h [] maxInt32 _ (by decide) hr)
      (fun tok h1 => Exists.elim h1
        (fun l1 h2 => Option.noConfusion (hnone.symm.trans h2.1))),
    nthToken_whitespace_maxInt maxInt32 _ (List.length_replicate _ _)
      (fun b hb => isWhitespace_of_mem_replicate hb),
    fun h => Exists.elim h (fun n hn =>
      not_returnsEOF_of_length_eq maxInt32 _ (List.length_replicate _ _)
        (fun b hb => ne_zero_of_mem_replicate (by decide) hb) n hn.2)⟩

/-- C19 (progress bound), amended: on an input `S` shorter than the largest `int`, every
call of `NextToken` from a reachable state whose cursor is below the largest `int` returns
and moves `pos` forward by at least 1, also once `pos` is at or past the end; the tokens up
to the first `EOF` are at most `len(S)` tokens that are not `EOF` followed by the `EOF`;
and the first call that returns `EOF` is call number `n + 1` for some `n ≤ len(S)`. -/
theorem C19_progress_bound (maxInt : Nat) (S : List Nat) (hlt : S.length < maxInt) :
    (∀ k l, reach maxInt S k = some l → l.pos < maxInt →
      ∃ tok l1, l.NextToken maxInt = some (tok, l1) ∧ l.pos + 1 ≤ l1.pos)
    ∧ (∃ pre last, tokens maxInt S = some (pre ++ [last]) ∧ last.Typ = EOF
        ∧ (∀ t ∈ pre, t.Typ ≠ EOF) ∧ pre.length ≤ S.length)
    ∧ (∃ n, n ≤ S.length ∧ returnsEOF maxInt S n
        ∧ ∀ m, m < n → ¬ returnsEOF maxInt S m) := by
  refine ⟨?_, ?_, first_returnsEOF maxInt S hlt⟩
  · intro k l hl hpos
    have hn := NextToken_reach_lt hlt hl hpos
    exact ⟨_, _, hn, NextToken_reach_pos (Nat.le_of_lt hlt) hl hn⟩
  · obtain ⟨ts, hts⟩ := lexAll_total S
    obtain ⟨pre, last, hpre, hlast, hall, hlen⟩ := lexList_shape _ _ _ hts
    refine ⟨pre, last, ?_, hlast, hall, by omega⟩
    rw [tokens_eq_lexAll maxInt S hlt, hts, hpre]

/-- Witness of C19: on `a b` the second call, made from the state with the cursor on
index 1, returns and moves the cursor forward. -/
theorem C19_progress_bound_witness :
    ∃ tok l1, (cursor maxInt32 (str "a b") 1).NextToken maxInt32 = some (tok, l1)
      ∧ (cursor maxInt32 (str "a b") 1).pos + 1 ≤ l1.pos :=
  (C19_progress_bound maxInt32 (str "a b") (by decide)).1 1 (cursor maxInt32 (str "a b") 1)
    (by decide) (by decide)

/-- C11, as stated, fails: the NUL byte is an ASCII byte that is no operator, delimiter,
whitespace, identifier byte or digit, and on the one-byte input NUL the first call returns
`(EOF, "")`, not an `ILLEGAL` token. -/
theorem C11_counterexample :
    reach maxInt64 [0] 0 = some (cursor maxInt64 [0] 0)
    ∧ FirstNonWs [0] (cursor maxInt64 [0] 0).pos 0 0
    ∧ (cursor maxInt64 [0] 0).NextToken maxInt64 = some (⟨EOF, []⟩, cursor maxInt64 [0] 1)
    ∧ ¬ (∀ (input : List Nat) (k : Nat) (l : Lexer) (i c : Nat), input.length ≤ maxInt64 →
          reach maxInt64 input k = some l → FirstNonWs input l.pos i c →
          (128 ≤ c ∨ (c ∉ operatorBytes ∧ isLetter c = false ∧ isDigit c = false)) →
          ∃ lit l1, l.NextToken maxInt64 = some (⟨ILLEGAL, lit⟩, l1)) := by
  have hf : FirstNonWs [0] (cursor maxInt64 [0] 0).pos 0 0 :=
    ⟨by decide, by decide, by decide, fun j _ h2 => absurd h2 (Nat.not_lt_zero j)⟩
  refine ⟨by decide, hf, by decide, ?_⟩
  intro h
  obtain ⟨lit, l1, h1⟩ := h [0] 0 (cursor maxInt64 [0] 0) 0 0 (by decide) (by decide) hf
    (Or.inr ⟨by decide, by decide, by decide⟩)
  have h2 : (cursor maxInt64 [0] 0).NextToken maxInt64
      = some (⟨EOF, []⟩, cursor maxInt64 [0] 1) := by decide
  rw [h2] at h1
  have h3 : EOF = ILLEGAL := congrArg (fun r => r.1.Typ) (Option.some.inj h1)
  exact absurd h3 (by decide)

/-- C11, amended: from a reachable state whose first byte `c` that is not whitespace is not
NUL and is either from 0x80 on, or no operator or delimiter byte, identifier byte or digit,
`NextToken` returns a token of kind `ILLEGAL`. -/
theorem C11_unrecognized_byte_is_illegal (maxInt : Nat) (input : List Nat) (k : Nat)
    (l : Lexer) (i c : Nat) (hlen : input.length ≤ maxInt)
    (hl : reach maxInt input k = some l) (hf : FirstNonWs input l.pos i c)
    (hnul : c ≠ 0)
    (hc : 128 ≤ c ∨ (c ∉ operatorBytes ∧ isLetter c = false ∧ isDigit c = false)) :
    ∃ lit l1, l.NextToken maxInt = some (⟨ILLEGAL, lit⟩, l1) := by
  obtain ⟨hn, _⟩ := NextToken_of_FirstNonWs hlen hl hf
  have hc2 : c ∉ operatorBytes ∧ isLetter c = false ∧ isDigit c = false := by
    rcases hc with h | h
    · exact not_operator_of_ge h
    · exact h
  rw [scanToken_illegal (c :: input.drop (i + 1)) hnul hc2.1 hc2.2.1 hc2.2.2] at hn
  exact ⟨_, _, hn⟩

/-- Witness of C11: in `a @` the second call meets `@` and returns an `ILLEGAL` token; on
the one-byte input 0xFF the first call returns an `ILLEGAL` token. -/
theorem C11_unrecognized_byte_is_illegal_witness :
    (∃ lit l1, (cursor maxInt64 (str "a @") 1).NextToken maxInt64
        = some (⟨ILLEGAL, lit⟩, l1))
    ∧ (∃ lit l1, (cursor maxInt32 [0xFF] 0).NextToken maxInt32 = some (⟨ILLEGAL, lit⟩, l1)) :=
  ⟨C11_unrecognized_byte_is_illegal maxInt64 (str "a @") 1 (cursor maxInt64 (str "a @") 1) 2
      '@'.toNat (by decide) (by decide)
      ⟨by decide, by decide, by decide,
        fun j h1 h2 => by
          have h3 : ((1 : Nat) : Int) ≤ (j : Int) := h1
          have hj : j = 1 := by omega
          subst hj; decide⟩
      (by decide) (Or.inr ⟨by decide, by decide, by decide⟩),
    C11_unrecognized_byte_is_illegal maxInt32 [0xFF] 0 (cursor maxInt32 [0xFF] 0) 0 0xFF
      (by decide) (by decide)
      ⟨by decide, by decide, by decide, fun j _ h2 => absurd h2 (Nat.not_lt_zero j)⟩
      (by decide) (Or.inl (by decide))⟩

/-- C12, as stated, fails, in two ways: on the one-byte input 0x80 the first call returns
an `ILLEGAL` token whose literal is the two bytes 0xC2 0x80, not the length-one string of
the byte; and an input of `2^31 - 1` bytes `@`, with a 32-bit `int`, does not yield its
`ILLEGAL` tokens followed by `EOF`: the call that would return `EOF` panics. -/
theorem C12_counterexample :
    reach maxInt64 [0x80] 0 = some (cursor maxInt64 [0x80] 0)
    ∧ FirstNonWs [0x80] (cursor maxInt64 [0x80] 0).pos 0 0x80
    ∧ (cursor maxInt64 [0x80] 0).NextToken maxInt64
        = some (⟨ILLEGAL, [0xC2, 0x80]⟩, cursor maxInt64 [0x80] 1)
    ∧ ¬ (∀ (input : List Nat) (k : Nat) (l : Lexer) (tok : Token) (l1 : Lexer) (p c : Nat),
          input.length ≤ maxInt64 →
          reach maxInt64 input k = some l → l.NextToken maxInt64 = some (tok, l1) →
          tok.Typ = ILLEGAL → FirstNonWs input l.pos p c →
          tok.Literal = [c] ∧ l1.pos = p + 1)
    ∧ (∀ b ∈ List.replicate maxInt32 '@'.toNat, unrecognized b = true)
    ∧ (List.replicate maxInt32 '@'.toNat).length = maxInt32
    ∧ tokens maxInt32 (List.replicate maxInt32 '@'.toNat) = none := by
  have hf : FirstNonWs [0x80] (cursor maxInt64 [0x80] 0).pos 0 0x80 :=
    ⟨by decide, by decide, by decide, fun j _ h2 => absurd h2 (Nat.not_lt_zero j)⟩
  refine ⟨by decide, hf, by decide, ?_, ?_, List.length_replicate _ _, ?_⟩
  · intro h
    have h1 := (h [0x80] 0 (cursor maxInt64 [0x80] 0) ⟨ILLEGAL, [0xC2, 0x80]⟩
      (cursor maxInt64 [0x80] 1) 0 0x80 (by decide) (by decide) (by decide) rfl hf).1
    exact absurd h1 (by decide)
  · intro b hb
    rw [List.eq_of_mem_replicate hb]
    decide
  · exact tokens_none_of_length_eq maxInt32 _ (List.length_replicate _ _)
      (fun b hb => ne_zero_of_mem_replicate (by decide) hb)

/-- C12, amended: whenever `NextToken` returns an `ILLEGAL` token from a reachable state,
with `p` the index of the first byte `c` that is not whitespace, the cursor is left at
exactly `p + 1`, and the literal is the length-one string of the byte `c` when `c` is below
0x80; an input shorter than the largest `int` made of `n` unrecognized bytes yields `n`
`ILLEGAL` tokens, one per byte, followed by `EOF`, each with its byte as literal when the
bytes are below 0x80; and `@` yields `(ILLEGAL, "@")` then `(EOF, "")`, with an `int` of
32 bits or more. -/
theorem C12_illegal_one_per_byte (maxInt : Nat) (input : List Nat) (k : Nat) (l : Lexer)
    (tok : Token) (l1 : Lexer) (p c : Nat) (hlen : input.length ≤ maxInt)
    (hl : reach maxInt input k = some l) (hn : l.NextToken maxInt = some (tok, l1))
    (hill : tok.Typ = ILLEGAL) (hf : FirstNonWs input l.pos p c) :
    (l1.pos = p + 1 ∧ (c < 128 → tok.Literal = [c]))
    ∧ (∀ S : List Nat, S.length < maxInt → (∀ b ∈ S, unrecognized b = true) →
        ∃ ts, tokens maxInt S = some ts
          ∧ ts.map Token.Typ = List.replicate S.length ILLEGAL ++ [EOF]
          ∧ ((∀ b ∈ S, b < 128) →
              ts = S.map (fun b => (⟨ILLEGAL, [b]⟩ : Token)) ++ [⟨EOF, []⟩]))
    ∧ (maxInt32 ≤ maxInt →
        tokens maxInt (str "@") = some [⟨ILLEGAL, str "@"⟩, ⟨EOF, str ""⟩]) := by
  refine ⟨?_, ?_, ?_⟩
  · obtain ⟨hn2, hd, _⟩ := NextToken_of_FirstNonWs hlen hl hf
    rw [hn2] at hn
    have hpair := Option.some.inj hn
    have htok : (scanToken (c :: input.drop (p + 1))).1 = tok := congrArg Prod.fst hpair
    have hl1 : cursor maxInt input (p + (scanToken (c :: input.drop (p + 1))).2) = l1 :=
      congrArg Prod.snd hpair
    rw [← htok] at hill ⊢
    rw [← hl1]
    have hne : (scanToken (c :: input.drop (p + 1))).1.Typ ≠ EOF := by
      rw [hill]; decide
    obtain ⟨_, _, hlit, hone⟩ := scanToken_source _ hne
    constructor
    · show ((p + (scanToken (c :: input.drop (p + 1))).2 : Nat) : Int) = (p : Int) + 1
      rw [hone hill]
      omega
    · intro hc
      rw [hlit (fun _ => hc), hone hill]
      rfl
  · intro S hS hun
    refine ⟨_, by rw [tokens_eq_lexAll maxInt S hS, lexAll_unrecognized S hun], ?_, ?_⟩
    · rw [List.map_append, List.map_map]
      have : (Token.Typ ∘ fun b => newTokenByte ILLEGAL b) = fun _ => ILLEGAL := rfl
      rw [this, List.map_const']
      rfl
    · intro hascii
      rw [map_newTokenByte_ascii S hascii]
  · intro hmax
    have h1 : (str "@").length < maxInt :=
      Nat.lt_of_lt_of_le (by decide : (str "@").length < maxInt32) hmax
    rw [tokens_eq_lexAll maxInt _ h1]
    decide

/-- Witness of C12: on `@#` the first call returns `(ILLEGAL, "@")` and leaves the cursor
on index 1. -/
theorem C12_illegal_one_per_byte_witness :
    (cursor maxInt32 (str "@#") 1).pos = ((0 : Nat) : Int) + 1
    ∧ ('@'.toNat < 128 → (⟨ILLEGAL, str "@"⟩ : Token).Literal = ['@'.toNat]) :=
  (C12_illegal_one_per_byte maxInt32 (str "@#") 0 (cursor maxInt32 (str "@#") 0)
    ⟨ILLEGAL, str "@"⟩ (cursor maxInt32 (str "@#") 1) 0 '@'.toNat (by decide) (by decide)
    (by decide) rfl
    ⟨by decide, by decide, by decide, fun j _ h2 => absurd h2 (Nat.not_lt_zero j)⟩).1

/-- C17, as stated, fails when `s ++ d` is as long as the largest `int`: with a 32-bit
`int`, for `s` made of `2^31 - 2` letters `a` and `d` the digit `1`, the calls return the
identifier and the number and leave `pos` at the largest `int`, with `readPos` wrapped
around; the third call panics at `input[readPos]` and `(EOF, "")` is not returned. -/
theorem C17_counterexample :
    List.replicate (maxInt32 - 1) 'a'.toNat ≠ []
    ∧ (∀ b ∈ List.replicate (maxInt32 - 1) 'a'.toNat, isLetter b = true)
    ∧ (∀ b ∈ str "1", isDigit b = true)
    ∧ (List.replicate (maxInt32 - 1) 'a'.toNat ++ str "1").length = maxInt32
    ∧ tokens maxInt32 (List.replicate (maxInt32 - 1) 'a'.toNat ++ str "1") = none
    ∧ ¬ (∀ s d : List Nat, (s ++ d).length ≤ maxInt32 →
          s ≠ [] → (∀ b ∈ s, isLetter b = true) → d ≠ [] → (∀ b ∈ d, isDigit b = true) →
          tokens maxInt32 (s ++ d) = some [⟨LookupIdent s, s⟩, ⟨INT, d⟩, ⟨EOF, []⟩]) :=
  have hs : List.replicate (maxInt32 - 1) 'a'.toNat ≠ [] :=
    fun h => absurd ((List.length_replicate _ _).symm.trans (congrArg List.length h))
      (by decide)
  have hsl : ∀ b ∈ List.replicate (maxInt32 - 1) 'a'.toNat, isLetter b = true :=
    fun b hb => (List.eq_of_mem_replicate hb).symm ▸ (by decide)
  have hlen : (List.replicate (maxInt32 - 1) 'a'.toNat ++ str "1").length = maxInt32 :=
    (List.length_append _ _).trans
      ((congrArg (fun n => n + (str "1").length) (List.length_replicate _ _)).trans
        (by decide))
  have hnone : tokens maxInt32 (List.replicate (maxInt32 - 1) 'a'.toNat ++ str "1") = none :=
    tokens_none_of_length_eq maxInt32 _ hlen
      (fun b hb => (List.mem_append.mp hb).elim
        (fun h => ne_zero_of_mem_replicate (by decide) h)
        (fun h => by
          have hb1 : b = '1'.toNat := List.mem_singleton.mp h
          rw [hb1]; decide))
  ⟨hs, hsl, by decide, hlen, hnone, fun h =>
    Option.noConfusion (hnone.symm.trans
      (h _ (str "1") (Nat.le_of_eq hlen) hs hsl (by decide) (by decide)))⟩

/-- C17 (digits are not identifier bytes), amended: for every non-empty string `s` of
identifier bytes and every non-empty string `d` of decimal digits, with `s ++ d` shorter
than the largest `int`, lexing `s ++ d` yields exactly `(LookupIdent s, s)`, then
`(INT, d)`, then `(EOF, "")`; `foo1` yields `(IDENT, "foo")` then `(INT, "1")`, with an
`int` of 32 bits or more. -/
theorem C17_identifier_then_digits (maxInt : Nat) (s d : List Nat)
    (hlt : (s ++ d).length < maxInt)
    (hs : s ≠ []) (hsl : ∀ b ∈ s, isLetter b = true)
    (hd : d ≠ []) (hdd : ∀ b ∈ d, isDigit b = true) :
    tokens maxInt (s ++ d) = some [⟨LookupIdent s, s⟩, ⟨INT, d⟩, ⟨EOF, []⟩]
    ∧ (maxInt32 ≤ maxInt →
        tokens maxInt (str "foo1")
          = some [⟨IDENT, str "foo"⟩, ⟨INT, str "1"⟩, ⟨EOF, []⟩]) := by
  refine ⟨?_, ?_⟩
  · have h1 : lexStep (s ++ d) = (⟨LookupIdent s, s⟩, s.length) :=
      lexStep_letters s d hs hsl (isDigit_facts (hdd _ (headD_mem hd))).2
    have h2 : lexStep d = (⟨INT, d⟩, d.length) := by
      have := lexStep_digits d [] hd hdd isDigit_zero
      rw [List.append_nil] at this
      exact this
    have hne1 : (⟨LookupIdent s, s⟩ : Token).Typ ≠ EOF := LookupIdent_ne_EOF s
    have hne2 : (⟨INT, d⟩ : Token).Typ ≠ EOF := by
      show INT ≠ EOF
      decide
    rw [tokens_eq_lexAll maxInt _ hlt, lexAll_unfold, h1]
    simp only []
    rw [if_neg hne1, List.drop_left, lexAll_unfold, h2]
    simp only []
    rw [if_neg hne2, List.drop_length, lexAll_nil]
    rfl
  · intro hmax
    have h4 : (str "foo1").length < maxInt :=
      Nat.lt_of_lt_of_le (by decide : (str "foo1").length < maxInt32) hmax
    rw [tokens_eq_lexAll maxInt _ h4]
    decide

/-- Witness of C17: `let` followed by `42` yields `(LET, "let")`, `(INT, "42")`, `EOF`. -/
theorem C17_identifier_then_digits_witness :
    tokens maxInt32 (str "let" ++ str "42")
      = some [⟨LET, str "let"⟩, ⟨INT, str "42"⟩, ⟨EOF, []⟩] :=
  (C17_identifier_then_digits maxInt32 (str "let") (str "42") (by decide) (by decide)
    (by decide) (by decide) (by decide)).1

/-- C18 (a NUL byte reads as the end of the input): for every string `a` that holds no NUL
byte and every string `b`, the tokens produced from `a ++ [0x00] ++ b` up to and including
the first `EOF` are exactly the tokens produced from `a` up to and including its first
`EOF`.  The strings are any Go strings: the length of `a ++ [0x00] ++ b` is an `int`.
(The proof does not use the hypothesis on `a`: with a NUL byte inside `a` both sequences
end at that byte.) -/
theorem C18_nul_reads_as_end (maxInt : Nat) (a b : List Nat)
    (hlen : (a ++ [0] ++ b).length ≤ maxInt) (ha : ∀ x ∈ a, x ≠ 0) :
    ∃ ts, tokens maxInt (a ++ [0] ++ b) = some ts ∧ tokens maxInt a = some ts := by
  obtain ⟨ts, hts⟩ := lexAll_total a
  rw [List.append_assoc, List.singleton_append] at hlen ⊢
  have hlt : a.length < maxInt := by
    rw [List.length_append, List.length_cons] at hlen
    omega
  exact ⟨ts, by rw [tokens_append_nul maxInt a b hlen, hts],
    by rw [tokens_eq_lexAll maxInt a hlt, hts]⟩

/-- Witness of C18: `x = 1` followed by NUL and `y;` has the tokens of `x = 1`. -/
theorem C18_nul_reads_as_end_witness :
    ∃ ts, tokens maxInt32 (str "x = 1" ++ [0] ++ str "y;") = some ts
      ∧ tokens maxInt32 (str "x = 1") = some ts :=
  C18_nul_reads_as_end maxInt32 (str "x = 1") (str "y;") (by decide) (by decide)

/-- C20 (token well-formedness): every token that `NextToken` returns from a reachable
state has the literal its kind allows: an operator or delimiter kind has its own string; a
keyword kind has the spelling that `LookupIdent` maps to it; `IDENT` has a non-empty literal
of identifier bytes that is no keyword; `INT` has a non-empty literal of digits; `EOF` has
the empty literal; and no literal holds a whitespace byte. -/
theorem C20_token_well_formed (maxInt : Nat) (input : List Nat) (k : Nat) (l : Lexer)
    (tok : Token) (l1 : Lexer) (hlen : input.length ≤ maxInt)
    (hl : reach maxInt input k = some l) (hn : l.NextToken maxInt = some (tok, l1)) :
    (tok.Typ ∈ operatorKinds → tok.Literal = str tok.Typ)
    ∧ (tok.Typ ∈ keywordKinds →
        (tok.Literal, tok.Typ) ∈ keywords ∧ LookupIdent tok.Literal = tok.Typ)
    ∧ (tok.Typ = IDENT →
        tok.Literal ≠ [] ∧ (∀ b ∈ tok.Literal, isLetter b = true)
          ∧ tok.Literal ∉ keywords.map Prod.fst)
    ∧ (tok.Typ = INT → tok.Literal ≠ [] ∧ ∀ b ∈ tok.Literal, isDigit b = true)
    ∧ (tok.Typ = EOF → tok.Literal = [])
    ∧ (∀ b ∈ tok.Literal, isWhitespace b = false) := by
  obtain ⟨hcur, hle⟩ := cursor_of_reach hlen hl
  subst hcur
  rw [NextToken_cursor maxInt input _ hlen hle] at hn
  by_cases hb : offsetAfter k input + (lexStep (input.drop (offsetAfter k input))).2 ≤ maxInt
  · rw [if_pos hb] at hn
    have htok : (scanToken ((input.drop (offsetAfter k input)).drop
        (runLen isWhitespace (input.drop (offsetAfter k input))))).1 = tok :=
      congrArg Prod.fst (Option.some.inj hn)
    have hwf := scanToken_wellFormed
      ((input.drop (offsetAfter k input)).drop
        (runLen isWhitespace (input.drop (offsetAfter k input))))
      (headD_after_skip _)
    rw [htok] at hwf
    exact hwf
  · rw [if_neg hb] at hn
    exact Option.noConfusion hn

/-- Witness of C20: the first token of ` let x`, `(LET, "let")`, has the spelling of its
keyword kind and holds no whitespace byte. -/
theorem C20_token_well_formed_witness :
    (LET ∈ keywordKinds → (str "let", LET) ∈ keywords ∧ LookupIdent (str "let") = LET)
    ∧ (∀ b ∈ str "let", isWhitespace b = false) :=
  have h := C20_token_well_formed maxInt64 (str " let x") 0 (cursor maxInt64 (str " let x") 0)
    ⟨LET, str "let"⟩ (cursor maxInt64 (str " let x") 4) (by decide) (by decide) (by decide)
  ⟨h.2.1, h.2.2.2.2.2⟩
